import Mathlib

/-!
# Sparse matrices in compressed-row storage (`linalg/sparsematrix.hpp`)

A shallow embedding of the row primitives of `MatrixGraph`, `SparseMatrixTM`,
`SparseMatrix` and `SparseMatrixSymmetric`.

Conventions of the embedding.

* `Array<T>` / `FlatVector<T>` are lists; every element access is checked and
  yields `none` when the index is outside the array (undefined behaviour in
  C++), so a result `some v` says that all accesses were in range.
* `size_t` values are natural numbers, `int` values are integers.
* The block entry type `TM` is `Mat H W R`, a dense `H × W` block over the
  scalar type `R`; `TV_ROW = Vec W R`, `TV_COL = Vec H R`.  The scalar
  instantiation `SparseMatrix<double>` is the case `H = W = 1`.  Scalars are
  an exact commutative ring (rounding is not modelled).
* Methods that the header only declares (`MultAdd`, `MultTransAdd`, `MultAdd1`,
  `MultAdd2`, `GetPositionTest`, `GetPosition`, `GetPositionsSorted`,
  `CreatePosition`, `AddElementMatrix`) are modelled from the specification; their
  doc comments say so.  `const` methods take the matrix as an argument and return
  only what they compute; methods that write return the object after the call.
  The virtual one-list `SparseMatrixSymmetricTM::AddElementMatrix`, also declared
  only, is a parameter of the two-list overload that calls it.
* Methods that can throw return `Except Error`; inside them an access outside an
  array is reported as `Error.OutOfRange`.
* Where a `size_t` value is subtracted or converted to `int` the wrap-around is
  explicit (`sizeSub`, `intOfSize`); `MatrixGraph.Fits` says that the members lie in
  the range of their C++ types, `MatrixGraph.ViewsFit` that the row lengths do.
-/

namespace ngla

/-- A dense `H × W` block with entries in `R` (ngbla `Mat<H,W,T>`). -/
abbrev Mat (H W : Nat) (R : Type) : Type := Matrix (Fin H) (Fin W) R

/-- A dense vector of length `N` with entries in `R` (ngbla `Vec<N,T>`). -/
abbrev Vec (N : Nat) (R : Type) : Type := Fin N → R

/-- The transposed block, ngbla `Trans`. -/
abbrev Trans {H W : Nat} {R : Type} (a : Mat H W R) : Mat W H R := Matrix.transpose a

/-- Checked element access `xs[i]` for an `int` index. -/
def readInt {α : Type} (xs : List α) (i : Int) : Option α :=
  if i < 0 then none else xs[i.toNat]?

/-- Checked element update `xs[i] = v` for an `int` index. -/
def writeInt {α : Type} (xs : List α) (i : Int) (v : α) : Option (List α) :=
  if i < 0 then none else if i.toNat < xs.length then some (xs.set i.toNat v) else none

/-- The loop `for (size_t j = first; n iterations; j++) s = body j s`, stopping
at the first failing access. -/
def forLoop {σ : Type} (body : Nat → σ → Option σ) : Nat → Nat → σ → Option σ
  | 0, _, s => some s
  | n + 1, j, s => (body j s).bind (forLoop body n (j + 1))

/-- The graph of a sparse matrix (`class MatrixGraph`): number of rows, width,
number of stored positions, column numbers, pointer to first in row. -/
structure MatrixGraph where
  size : Int
  width : Int
  nze : Nat
  colnr : List Int
  firsti : List Nat

namespace MatrixGraph

/-- `int Size() const`. -/
def Size (g : MatrixGraph) : Int := g.size

/-- `size_t NZE() const`. -/
def NZE (g : MatrixGraph) : Nat := g.nze

/-- `size_t First (int i) const  { return firsti[i]; }`. -/
def First (g : MatrixGraph) (i : Int) : Option Nat := readInt g.firsti i

/-- The value `numeric_limits<size_t>::max()`, returned for an unused position. -/
def sizeMax : Nat := 2 ^ 64 - 1

/-- Modelled from the spec: the search of `GetPositionTest` / `GetPosition`, whose bodies
are not in the header.  Binary search for column `j` in the ascending slice
`colnr[first .. last)`; the "not found" value when `j` is absent.  `fuel` bounds the
number of halvings; `last - first` is always enough. -/
def binarySearch (colnr : List Int) (j : Int) : Nat → Nat → Nat → Option Nat
  | 0, _, _ => some sizeMax
  | fuel + 1, first, last =>
    if first < last then
      (colnr[(first + last) / 2]?).bind fun c =>
        if c = j then some ((first + last) / 2)
        else if c < j then binarySearch colnr j fuel ((first + last) / 2 + 1) last
        else binarySearch colnr j fuel first ((first + last) / 2)
    else some sizeMax

/-- Modelled from the spec: `MatrixGraph::GetPositionTest` is declared in the header
("returns position of Element (i, j), -1 for unused") without its body.  The same search
as `GetPosition`, returning a sentinel "not found" value instead of failing. -/
def GetPositionTest (g : MatrixGraph) (i j : Int) : Option Nat := do
  let first ← readInt g.firsti i
  let last ← readInt g.firsti (i + 1)
  binarySearch g.colnr j (last - first) first last

/-- Start offset of row `i`, total (0 outside `firsti`). -/
def rowBegin (g : MatrixGraph) (i : Int) : Nat := g.firsti.getD i.toNat 0

/-- End offset of row `i`, total (0 outside `firsti`). -/
def rowEnd (g : MatrixGraph) (i : Int) : Nat := g.firsti.getD (i + 1).toNat 0

/-- Column number stored at position `p`, total (0 outside `colnr`). -/
def col (g : MatrixGraph) (p : Nat) : Int := g.colnr.getD p 0

/-- Where the loops of the `NoDiag` primitives stop: `firsti[i+1]`, lowered by one when
the row is non-empty and its last stored column is `i`. -/
def noDiagEnd (g : MatrixGraph) (i : Int) : Nat :=
  if g.rowEnd i = g.rowBegin i then g.rowEnd i
  else if g.col (g.rowEnd i - 1) = i then g.rowEnd i - 1 else g.rowEnd i

/-- The stored positions of row `i`: the half-open range
`[firsti[i], firsti[i+1])`. -/
def rowPositions (g : MatrixGraph) (i : Int) : Finset Nat :=
  Finset.Ico (g.rowBegin i) (g.rowEnd i)

/-- Column `j` is stored in row `i`. -/
def isStored (g : MatrixGraph) (i j : Int) : Prop :=
  ∃ p ∈ g.rowPositions i, g.col p = j

/-- The stored columns of row `i` are strictly ascending. -/
def RowAscending (g : MatrixGraph) (i : Int) : Prop :=
  ∀ q, q < g.rowEnd i → ∀ p, p < q → g.rowBegin i ≤ p → g.col p < g.col q

/-- The stored columns of row `i` lie in `[0, n)`. -/
def RowInRange (g : MatrixGraph) (i : Int) (n : Int) : Prop :=
  ∀ p, p < g.rowEnd i → g.rowBegin i ≤ p → 0 ≤ g.col p ∧ g.col p < n

/-- The stored columns of row `i` are all `≤ i` (lower-triangular storage). -/
def RowLower (g : MatrixGraph) (i : Int) : Prop :=
  ∀ p, p < g.rowEnd i → g.rowBegin i ≤ p → g.col p ≤ i

instance decRowAscending (g : MatrixGraph) (i : Int) : Decidable (g.RowAscending i) := by
  unfold RowAscending
  infer_instance

instance decRowInRange (g : MatrixGraph) (i n : Int) : Decidable (g.RowInRange i n) := by
  unfold RowInRange
  infer_instance

instance decRowLower (g : MatrixGraph) (i : Int) : Decidable (g.RowLower i) := by
  unfold RowLower
  infer_instance

instance decIsStored (g : MatrixGraph) (i j : Int) : Decidable (g.isStored i j) :=
  inferInstanceAs (Decidable (∃ p ∈ g.rowPositions i, g.col p = j))

/-- The CRS invariants of a graph: `firsti[0] = 0`, `firsti[rows] = nze`,
`firsti` non-decreasing, `colnr` of length `nze`, and in every row the stored
columns strictly ascending and in `[0, cols)`. -/
structure Valid (g : MatrixGraph) : Prop where
  size_nonneg : 0 ≤ g.size
  firsti_length : g.firsti.length = g.size.toNat + 1
  firsti_zero : g.firsti[0]? = some 0
  firsti_last : g.firsti[g.size.toNat]? = some g.nze
  firsti_mono : ∀ i : Nat, i < g.size.toNat → g.rowBegin i ≤ g.rowEnd i
  colnr_length : g.colnr.length = g.nze
  col_range : ∀ i : Nat, i < g.size.toNat → g.RowInRange i g.width
  row_ascending : ∀ i : Nat, i < g.size.toNat → g.RowAscending i

/-- Lower-triangular storage: every row `i` stores only columns `j ≤ i`. -/
def Lower (g : MatrixGraph) : Prop :=
  ∀ i : Nat, i < g.size.toNat → g.RowLower i

end MatrixGraph

/-- A general sparse matrix (`class SparseMatrixTM<TM>`): a graph, the value
buffer aligned with `colnr`, and the null block returned for absent
positions. -/
structure SparseMatrixTM (TM : Type) extends MatrixGraph where
  data : List TM
  nul : TM

namespace SparseMatrixTM

/-- The member initialisers shared by all constructors of `SparseMatrixTM`:
`BaseSparseMatrix (...), data(nze), nul(TSCAL(0))`.  The graph `g` is what the base
constructor built; `init` is the unspecified content of the fresh value buffer. -/
def construct {H W : Nat} {R : Type} [CommRing R] (g : MatrixGraph) (init : Nat → Mat H W R) :
    SparseMatrixTM (Mat H W R) :=
  { toMatrixGraph := g, data := (List.range g.nze).map init, nul := 0 }

/-- `const TM & operator() (int row, int col) const`:
`pos = GetPositionTest (row,col); if (pos != numeric_limits<size_t>::max()) return data[pos]; else return nul;`. -/
def atConst {TM : Type} (m : SparseMatrixTM TM) (row col : Int) : Option TM := do
  let pos ← m.GetPositionTest row col
  if pos ≠ MatrixGraph.sizeMax then m.data[pos]? else pure m.nul

/-- Value stored at position `p`, total (zero outside `data`). -/
def entry {H W : Nat} {R : Type} [CommRing R] (m : SparseMatrixTM (Mat H W R)) (p : Nat) :
    Mat H W R := m.data.getD p 0

/-- A valid matrix: valid graph and a value buffer of length `nze`. -/
structure Valid {TM : Type} (m : SparseMatrixTM TM) : Prop where
  graph : m.toMatrixGraph.Valid
  data_length : m.data.length = m.nze

/-- Row `row` is well formed: `firsti[row]` and `firsti[row+1]` exist and bound
a range of positions inside `colnr` and `data`. -/
structure RowWF {TM : Type} (m : SparseMatrixTM TM) (row : Int) : Prop where
  nonneg : 0 ≤ row
  lt_length : (row + 1).toNat < m.firsti.length
  begin_le_end : m.rowBegin row ≤ m.rowEnd row
  end_le_colnr : m.rowEnd row ≤ m.colnr.length
  end_le_data : m.rowEnd row ≤ m.data.length

end SparseMatrixTM

/-- Component `c` of a vector, total (zero outside the vector). -/
def vecAt {N : Nat} {R : Type} [CommRing R] (x : List (Vec N R)) (c : Int) : Vec N R :=
  x.getD c.toNat 0

namespace SparseMatrix

variable {H W : Nat} {R : Type} [CommRing R]

/-- `SparseMatrix::RowTimesVector`:
`sum = 0; for (j = firsti[row]; j < firsti[row+1]; j++) sum += data[j] * vec(colnr[j]);`. -/
def RowTimesVector (m : SparseMatrixTM (Mat H W R)) (row : Int) (vec : List (Vec W R)) :
    Option (Vec H R) := do
  let first ← readInt m.firsti row
  let last ← readInt m.firsti (row + 1)
  forLoop (fun j sum => do
    let d ← m.data[j]?
    let c ← m.colnr[j]?
    let v ← readInt vec c
    pure (sum + Matrix.mulVec d v)) (last - first) first 0

/-- `SparseMatrix::AddRowTransToVector`:
`for (j = firsti[row]; j < firsti[row+1]; j++) vec[colnr[j]] += Trans(data[j]) * el;`.
The method is `const`: the matrix is read only, the updated vector is returned. -/
def AddRowTransToVector (m : SparseMatrixTM (Mat H W R)) (row : Int) (el : Vec H R)
    (vec : List (Vec W R)) : Option (List (Vec W R)) := do
  let first ← readInt m.firsti row
  let last ← readInt m.firsti (row + 1)
  forLoop (fun j vec => do
    let c ← m.colnr[j]?
    let d ← m.data[j]?
    let v ← readInt vec c
    writeInt vec c (v + Matrix.mulVec (Trans d) el)) (last - first) first vec

/-- Modelled from the spec: the body of `SparseMatrix::MultAdd` is not in the
header.  `y += s*A*x`, computed by iterating rows: for every row `i`,
`y(i) += s * RowTimesVector (i, x)`. -/
def MultAdd (m : SparseMatrixTM (Mat H W R)) (s : R) (x : List (Vec W R))
    (y : List (Vec H R)) : Option (List (Vec H R)) :=
  forLoop (fun i y => do
    let r ← RowTimesVector m i x
    let v ← readInt y i
    writeInt y i (v + s • r)) m.size.toNat 0 y

/-- Modelled from the spec: the body of `SparseMatrix::MultTransAdd` is not in
the header.  `y += s*A^T*x`, computed by iterating rows: for every row `i`,
`AddRowTransToVector (i, s*x(i), y)`. -/
def MultTransAdd (m : SparseMatrixTM (Mat H W R)) (s : R) (x : List (Vec H R))
    (y : List (Vec W R)) : Option (List (Vec W R)) :=
  forLoop (fun i y => do
    let xi ← readInt x i
    AddRowTransToVector m i (s • xi) y) m.size.toNat 0 y

end SparseMatrix

namespace SparseMatrixSymmetric

variable {N : Nat} {R : Type} [CommRing R]

/-- `SparseMatrixSymmetric::RowTimesVectorNoDiag`.  `colnr[last-1]` is read only
after `last != first`; for `last = 0` the `size_t` value `last-1` wraps to the
largest index, which is outside every array. -/
def RowTimesVectorNoDiag (m : SparseMatrixTM (Mat N N R)) (row : Int) (vec : List (Vec N R)) :
    Option (Vec N R) := do
  let last ← readInt m.firsti (row + 1)
  let first ← readInt m.firsti row
  if last = first then pure 0 else
  let c ← if last = 0 then none else m.colnr[last - 1]?
  let last := if c = row then last - 1 else last
  forLoop (fun j sum => do
    let d ← m.data[j]?
    let c ← m.colnr[j]?
    let v ← readInt vec c
    pure (sum + Matrix.mulVec d v)) (last - first) first 0

/-- `SparseMatrixSymmetric::AddRowTransToVectorNoDiag`. -/
def AddRowTransToVectorNoDiag (m : SparseMatrixTM (Mat N N R)) (row : Int) (el : Vec N R)
    (vec : List (Vec N R)) : Option (List (Vec N R)) := do
  let first ← readInt m.firsti row
  let last ← readInt m.firsti (row + 1)
  if first = last then pure vec else
  let c ← if last = 0 then none else m.colnr[last - 1]?
  let last := if c = row then last - 1 else last
  forLoop (fun j vec => do
    let c ← m.colnr[j]?
    let d ← m.data[j]?
    let v ← readInt vec c
    writeInt vec c (v + Matrix.mulVec (Trans d) el)) (last - first) first vec

/-- Modelled from the spec: the body of `SparseMatrixSymmetric::MultAdd1` is not
in the header (there: `y += s L * x`).  Pass 1 adds `s * L * x`, `L` the
strictly lower part: for every row `i`, `y(i) += s * RowTimesVectorNoDiag (i, x)`
(optional arguments `ainner`, `acluster` at their default `NULL`). -/
def MultAdd1 (m : SparseMatrixTM (Mat N N R)) (s : R) (x y : List (Vec N R)) :
    Option (List (Vec N R)) :=
  forLoop (fun i y => do
    let r ← RowTimesVectorNoDiag m i x
    let v ← readInt y i
    writeInt y i (v + s • r)) m.size.toNat 0 y

/-- Modelled from the spec: the body of `SparseMatrixSymmetric::MultAdd2` is not
in the header (there: `y += s (D + L^T) * x`).  Pass 2 is realised via
`AddRowTransToVector`: for every row `i`, `AddRowTransToVector (i, s*x(i), y)`
(optional arguments `ainner`, `acluster` at their default `NULL`). -/
def MultAdd2 (m : SparseMatrixTM (Mat N N R)) (s : R) (x y : List (Vec N R)) :
    Option (List (Vec N R)) :=
  forLoop (fun i y => do
    let xi ← readInt x i
    SparseMatrix.AddRowTransToVector m i (s • xi) y) m.size.toNat 0 y

/-- Modelled from the spec: the body of `SparseMatrixSymmetric::MultAdd` is not
in the header.  `MultAdd(s,x,y)` is decomposed into two passes: pass 1
(`MultAdd1`) followed by pass 2 (`MultAdd2`). -/
def MultAdd (m : SparseMatrixTM (Mat N N R)) (s : R) (x y : List (Vec N R)) :
    Option (List (Vec N R)) :=
  (MultAdd1 m s x y).bind (MultAdd2 m s x)

/-- `SparseMatrixSymmetric::MultTransAdd`: `{ MultAdd (s, x, y); }`. -/
def MultTransAdd (m : SparseMatrixTM (Mat N N R)) (s : R) (x y : List (Vec N R)) :
    Option (List (Vec N R)) :=
  MultAdd m s x y

end SparseMatrixSymmetric

/-! ## Reference quantities used in the statements -/

namespace SparseMatrixTM

variable {H W : Nat} {R : Type} [CommRing R]

/-- The logical entry `A[i,j]`: the value stored in row `i` at column `j`, zero
when the column is not stored.  (Rows of a valid graph store each column at
most once, so the sum has at most one term.) -/
def stored (m : SparseMatrixTM (Mat H W R)) (i j : Int) : Mat H W R :=
  ∑ p in (m.rowPositions i).filter (fun p => m.col p = j), m.entry p

/-- Row `k` of the product `A * x`: `∑_j A[k,j] * x[j]` over the columns. -/
def mulRow (m : SparseMatrixTM (Mat H W R)) (k : Int) (x : List (Vec W R)) : Vec H R :=
  ∑ j in Finset.range m.width.toNat, Matrix.mulVec (m.stored k j) (vecAt x j)

/-- Row `j` of the product `A^T * x`: `∑_i Trans(A[i,j]) * x[i]` over the rows. -/
def mulTransRow (m : SparseMatrixTM (Mat H W R)) (j : Int) (x : List (Vec H R)) : Vec W R :=
  ∑ i in Finset.range m.size.toNat, Matrix.mulVec (Trans (m.stored i j)) (vecAt x i)

/-- The full matrix of a symmetric matrix stored as a lower triangle:
`F[i,j] = stored(i,j)` for `j ≤ i` and `F[i,j] = Trans(stored(j,i))` for `j > i`. -/
def full {N : Nat} (m : SparseMatrixTM (Mat N N R)) (i j : Int) : Mat N N R :=
  if j ≤ i then m.stored i j else Trans (m.stored j i)

/-- The full matrix is symmetric: `Trans(F[i,j]) = F[j,i]` (for block entries this
says that the diagonal blocks are symmetric; off the diagonal it holds by the definition
of `F`). -/
def Symmetric {N : Nat} (m : SparseMatrixTM (Mat N N R)) : Prop :=
  ∀ i : Nat, i < m.size.toNat → ∀ j : Nat, j < m.size.toNat →
    Trans (m.full i j) = m.full j i

/-- Row `k` of the product `F * x` with the full matrix `F` of a symmetric matrix. -/
def fullRow {N : Nat} (m : SparseMatrixTM (Mat N N R)) (k : Int) (x : List (Vec N R)) :
    Vec N R :=
  ∑ j in Finset.range m.size.toNat, Matrix.mulVec (m.full k j) (vecAt x j)

end SparseMatrixTM

/-! ## Position lookup and row views -/

/-- The failures of the sparse-matrix operations.  The first three are the exceptions of
the specification's taxonomy; `OutOfRange` stands for an access outside an array
(undefined behaviour in C++) inside an operation that can also throw. -/
inductive Error where
  | StructuralNotFound
  | CapacityExceeded
  | UnimplementedOperation
  | OutOfRange
  deriving DecidableEq

/-- A checked access inside an operation that can throw. -/
def orOutOfRange {α : Type} : Option α → Except Error α
  | some a => Except.ok a
  | none => Except.error Error.OutOfRange

/-- The `size_t` difference `a - b`, modulo `2^64`. -/
def sizeSub (a b : Nat) : Nat := (a % 2 ^ 64 + (2 ^ 64 - b % 2 ^ 64)) % 2 ^ 64

/-- The conversion `int (n)` of a `size_t` value: the low 32 bits in two's complement. -/
def intOfSize (n : Nat) : Int :=
  if n % 2 ^ 32 < 2 ^ 31 then ((n % 2 ^ 32 : Nat) : Int) else ((n % 2 ^ 32 : Nat) : Int) - 2 ^ 32

/-- The view `FlatArray<T> (n, base + off)` / `FlatVector<T> (n, base + off)`: the `n`
elements starting at offset `off`; no view when the window leaves the array. -/
def flatView {α : Type} (xs : List α) (off : Nat) (n : Int) : Option (List α) :=
  if 0 ≤ n ∧ off + n.toNat ≤ xs.length then some ((xs.drop off).take n.toNat) else none

namespace MatrixGraph

/-- The members fit their C++ types: `int width` and `size_t nze`. -/
structure Fits (g : MatrixGraph) : Prop where
  width_lt : g.width < 2 ^ 31
  nze_le : g.nze ≤ sizeMax

/-- Modelled from the spec: `MatrixGraph::GetPosition` is declared in the header
("returns position of Element (i, j), exception for unused") without its body.  Binary
search within row `i`'s ascending column slice; fails with `StructuralNotFound` if `j`
is absent. -/
def GetPosition (g : MatrixGraph) (i j : Int) : Except Error Nat := do
  let first ← orOutOfRange (readInt g.firsti i)
  let last ← orOutOfRange (readInt g.firsti (i + 1))
  let p ← orOutOfRange (binarySearch g.colnr j (last - first) first last)
  if p = sizeMax then throw Error.StructuralNotFound else pure p

/-- `FlatArray<int> GetRowIndices(int i) const`:
`{ return FlatArray<int> (int(firsti[i+1]-firsti[i]), colnr+firsti[i]); }`. -/
def GetRowIndices (g : MatrixGraph) (i : Int) : Option (List Int) := do
  let last ← readInt g.firsti (i + 1)
  let first ← readInt g.firsti i
  flatView g.colnr first (intOfSize (sizeSub last first))

end MatrixGraph

namespace SparseMatrixTM

/-- `FlatVector<TM> GetRowValues(int i) const`:
`{ return FlatVector<TM> (firsti[i+1]-firsti[i], data+firsti[i]); }`.  The size
parameter of `FlatVector` is declared outside the header; the `size_t` difference is
passed on without conversion. -/
def GetRowValues {TM : Type} (m : SparseMatrixTM TM) (i : Int) : Option (List TM) := do
  let last ← readInt m.firsti (i + 1)
  let first ← readInt m.firsti i
  flatView m.data first (sizeSub last first : Nat)

end SparseMatrixTM

/-! ## Bulk operations, copies and configuration -/

namespace MatrixGraph

/-- Modelled from the spec: the constructor `MatrixGraph (const MatrixGraph & graph,
bool stealgraph)` is declared in the header without its body.  With `stealgraph = false`
(the call `MatrixGraph (amat, 0)` of the copy constructors) the new graph is a copy of
`graph`. -/
def copyOf (graph : MatrixGraph) : MatrixGraph := graph

end MatrixGraph

namespace SparseMatrixTM

/-- `SparseMatrixTM::AsVector`:
`asvec.AssignMemory (nze*sizeof(TM)/sizeof(TSCAL), data.Addr(0)); return asvec;`.
The flat vector covers the scalars of the first `nze` blocks of the value buffer; it is
kept here as the list of these blocks, on which the vector operations act entrywise. -/
def AsVector {TM : Type} (m : SparseMatrixTM TM) : Option (List TM) :=
  flatView m.data 0 (m.nze : Int)

/-- Writing `v` through the view returned by `AsVector ()`. -/
def assignAsVector {TM : Type} (m : SparseMatrixTM TM) (v : List TM) : SparseMatrixTM TM :=
  { m with data := v ++ m.data.drop m.nze }

/-- `BaseSparseMatrix::Add`: `AsVector() += s * m2.AsVector(); return *this;`.  The
vector operation needs operands of equal size. -/
def Add {H W : Nat} {R : Type} [CommRing R] (m : SparseMatrixTM (Mat H W R)) (s : R)
    (m2 : SparseMatrixTM (Mat H W R)) : Option (SparseMatrixTM (Mat H W R)) := do
  let v ← m.AsVector
  let v2 ← m2.AsVector
  if v.length = v2.length then
    pure (m.assignAsVector (List.zipWith (fun a b => a + s • b) v v2))
  else none

/-- The copy constructor `SparseMatrixTM (const SparseMatrixTM & amat)`:
`BaseSparseMatrix (amat), data(nze), nul(TSCAL(0)) { AsVector() = amat.AsVector(); }`,
where `BaseSparseMatrix (amat)` is `MatrixGraph (amat, 0)`; `init` is the unspecified
content of the fresh value buffer. -/
def copyConstruct {H W : Nat} {R : Type} [CommRing R] (amat : SparseMatrixTM (Mat H W R))
    (init : Nat → Mat H W R) : Option (SparseMatrixTM (Mat H W R)) := do
  let fresh := construct amat.toMatrixGraph.copyOf init
  let w ← fresh.AsVector
  let v ← amat.AsVector
  if w.length = v.length then pure (fresh.assignAsVector v) else none

end SparseMatrixTM

namespace SparseMatrixSymmetric

/-- The copy constructor `SparseMatrixSymmetric (const SparseMatrixSymmetric & amat)`:
the virtual base `SparseMatrixTM<TM> (amat)` is copy-constructed, then the body runs
`this->AsVector() = amat.AsVector();`. -/
def copyConstruct {N : Nat} {R : Type} [CommRing R] (amat : SparseMatrixTM (Mat N N R))
    (init : Nat → Mat N N R) : Option (SparseMatrixTM (Mat N N R)) := do
  let m ← SparseMatrixTM.copyConstruct amat init
  let w ← m.AsVector
  let v ← amat.AsVector
  if w.length = v.length then pure (m.assignAsVector v) else none

/-- `SparseMatrixSymmetric::CreateMatrix`:
`{ return make_shared<SparseMatrixSymmetric> (*this); }`. -/
def CreateMatrix {N : Nat} {R : Type} [CommRing R] (m : SparseMatrixTM (Mat N N R))
    (init : Nat → Mat N N R) : Option (SparseMatrixTM (Mat N N R)) :=
  copyConstruct m init

end SparseMatrixSymmetric

namespace MatrixGraph

/-- The column number held by a preallocated slot that is not used yet. -/
def unusedCol : Int := -1

/-- Row `i` during assembly: its slots `[firsti[i], firsti[i+1])` lie inside `colnr`; the
slots below `u` are used and hold strictly ascending column numbers `≥ 0`, the slots
from `u` on are preallocated but unused. -/
structure RowPacked (g : MatrixGraph) (i : Int) (u : Nat) : Prop where
  nonneg : 0 ≤ i
  lt_length : (i + 1).toNat < g.firsti.length
  end_le_colnr : g.rowEnd i ≤ g.colnr.length
  begin_le : g.rowBegin i ≤ u
  le_end : u ≤ g.rowEnd i
  used_nonneg : ∀ p, p < u → g.rowBegin i ≤ p → 0 ≤ g.col p
  used_ascending : ∀ q, q < u → ∀ p, p < q → g.rowBegin i ≤ p → g.col p < g.col q
  free : ∀ p, p < g.rowEnd i → u ≤ p → g.col p = unusedCol

/-- The column numbers after an insertion at slot `k` of a row whose last slot is `e`:
`j` at `k`, the former contents of `k .. e-1` one slot up, everything else as before. -/
def shiftInsert (colnr : List Int) (k e : Nat) (j : Int) : List Int :=
  (List.range colnr.length).map fun l =>
    if l = k then j else if k < l ∧ l ≤ e then colnr.getD (l - 1) 0 else colnr.getD l 0

/-- The scan of `CreatePosition` over the slots `k, k+1, ...` (`n` of them) of the row
ending at `last`: an unused slot takes `j`; a slot holding `j` is the existing position;
at the first larger column `j` is inserted if the last slot of the row is still unused;
a row without free slot cannot take `j`. -/
def createScan (g : MatrixGraph) (j : Int) (last : Nat) :
    Nat → Nat → Except Error (Nat × MatrixGraph)
  | 0, _ => throw Error.CapacityExceeded
  | n + 1, k => do
    let c ← orOutOfRange g.colnr[k]?
    if c = unusedCol then pure (k, { g with colnr := g.colnr.set k j })
    else if c = j then pure (k, g)
    else if j < c then do
      let e ← orOutOfRange g.colnr[last - 1]?
      if e = unusedCol then pure (k, { g with colnr := shiftInsert g.colnr k (last - 1) j })
      else throw Error.CapacityExceeded
    else createScan g j last n (k + 1)

/-- Modelled from the spec: `MatrixGraph::CreatePosition` is declared in the header
("returns position of new element") without its body.  If `j` is present in row `i`,
returns the existing position; else inserts `j` keeping the row's column slice sorted,
using one of the row's preallocated-but-unused slots; fails with `CapacityExceeded` if
the row has no free slot.  Returns the position and the graph after the call. -/
def CreatePosition (g : MatrixGraph) (i j : Int) : Except Error (Nat × MatrixGraph) := do
  let first ← orOutOfRange (readInt g.firsti i)
  let last ← orOutOfRange (readInt g.firsti (i + 1))
  createScan g j last (last - first) first

/-- The position of column `j` in row `i` as `GetPosition` returns it, total (the "not
found" value when `GetPosition` fails). -/
def positionOf (g : MatrixGraph) (i j : Int) : Nat :=
  match g.GetPosition i j with
  | Except.ok p => p
  | Except.error _ => sizeMax

end MatrixGraph

namespace SparseMatrixTM

variable {H W : Nat} {R : Type} [CommRing R]

/-- The `(a, b)` sub-block of a scalar element matrix `elmat` (`FlatMatrix<TSCAL>`, given
by its entries): rows `a*H .. a*H+H-1`, columns `b*W .. b*W+W-1`. -/
def subBlock (elmat : Nat → Nat → R) (a b : Nat) : Mat H W R :=
  fun r c => elmat (a * H + r) (b * W + c)

/-- The accumulation `data[p] += blk`. -/
def addAt (m : SparseMatrixTM (Mat H W R)) (p : Nat) (blk : Mat H W R) :
    Except Error (SparseMatrixTM (Mat H W R)) := do
  let d ← orOutOfRange m.data[p]?
  pure { m with data := m.data.set p (d + blk) }

/-- The inner loop of `AddElementMatrix`: for the row dof `row` (index `a` of the row
list) and the column dofs `c` with indices `b, b+1, ...`, look the position of
`(row, c)` up and add the sub-block `(a, b)`. -/
def addRowBlocks (elmat : Nat → Nat → R) (row : Int) (a : Nat) :
    List Int → Nat → SparseMatrixTM (Mat H W R) → Except Error (SparseMatrixTM (Mat H W R))
  | [], _, m => pure m
  | c :: cs, b, m => do
    let p ← m.GetPosition row c
    let m1 ← m.addAt p (subBlock elmat a b)
    addRowBlocks elmat row a cs (b + 1) m1

/-- The outer loop of `AddElementMatrix` over the row dofs with indices `a, a+1, ...`. -/
def addBlocks (elmat : Nat → Nat → R) (dnums2 : List Int) :
    List Int → Nat → SparseMatrixTM (Mat H W R) → Except Error (SparseMatrixTM (Mat H W R))
  | [], _, m => pure m
  | r :: rs, a, m => do
    let m1 ← addRowBlocks elmat r a dnums2 0 m
    addBlocks elmat dnums2 rs (a + 1) m1

/-- Modelled from the spec: `SparseMatrixTM::AddElementMatrix (dnums1, dnums2, elmat,
use_atomic = false)` is declared in the header without its body.  For every pair drawn
from the Cartesian product of the two dof lists, the position is looked up (it must
exist already) and the corresponding sub-block of `elmat` is added to the value there.
In a sequential run the atomic accumulation is the plain one, so `use_atomic` does not
change the result. -/
def AddElementMatrix (m : SparseMatrixTM (Mat H W R)) (dnums1 dnums2 : List Int)
    (elmat : Nat → Nat → R) (_use_atomic : Bool := false) :
    Except Error (SparseMatrixTM (Mat H W R)) :=
  addBlocks elmat dnums2 dnums1 0 m

end SparseMatrixTM

/-- A sparse matrix object as the methods of `class BaseSparseMatrix` see it: the matrix
(graph and value buffer) with the members `mutable INVERSETYPE inversetype` and
`bool spd` of `BaseSparseMatrix`.  The enumeration `INVERSETYPE` is declared outside the
header and is a parameter. -/
structure BaseSparseMatrix (INVERSETYPE : Type) (TM : Type) extends SparseMatrixTM TM where
  inversetype : INVERSETYPE
  spd : Bool

namespace BaseSparseMatrix

variable {INVERSETYPE TM : Type}

/-- The default member initialisers of a new matrix:
`inversetype = default_inversetype; spd = false;`.  The constant `default_inversetype`
depends on the build configuration and is a parameter. -/
def init (default_inversetype : INVERSETYPE) (m : SparseMatrixTM TM) :
    BaseSparseMatrix INVERSETYPE TM :=
  { toSparseMatrixTM := m, inversetype := default_inversetype, spd := false }

/-- `SetInverseType (INVERSETYPE ainversetype) const`:
`old_invtype = inversetype; inversetype = ainversetype; return old_invtype;`.  Returns
the old tag and the object after the call. -/
def SetInverseType (b : BaseSparseMatrix INVERSETYPE TM) (ainversetype : INVERSETYPE) :
    INVERSETYPE × BaseSparseMatrix INVERSETYPE TM :=
  (b.inversetype, { b with inversetype := ainversetype })

/-- `GetInverseType () const  { return inversetype; }`. -/
def GetInverseType (b : BaseSparseMatrix INVERSETYPE TM) : INVERSETYPE := b.inversetype

/-- `void SetSPD (bool aspd = true) { spd = aspd; }`. -/
def SetSPD (b : BaseSparseMatrix INVERSETYPE TM) (aspd : Bool := true) :
    BaseSparseMatrix INVERSETYPE TM :=
  { b with spd := aspd }

/-- `bool IsSPD () const { return spd; }`. -/
def IsSPD (b : BaseSparseMatrix INVERSETYPE TM) : Bool := b.spd

variable {BitArray Table BaseVector Prolongation JacobiPrecond BlockJacobiPrecond BaseMatrix :
  Type}

/-- `BaseSparseMatrix::CreateJacobiPrecond (shared_ptr<BitArray> inner = nullptr) const`:
`{ throw Exception ("BaseSparseMatrix::CreateJacobiPrecond"); }`. -/
def CreateJacobiPrecond (_b : BaseSparseMatrix INVERSETYPE TM) (_inner : Option BitArray) :
    Except Error JacobiPrecond :=
  throw Error.UnimplementedOperation

/-- `BaseSparseMatrix::CreateBlockJacobiPrecond (blocks, constraint = 0, parallel = 1,
freedofs = NULL) const`: `{ throw Exception ("BaseSparseMatrix::CreateBlockJacobiPrecond"); }`. -/
def CreateBlockJacobiPrecond (_b : BaseSparseMatrix INVERSETYPE TM) (_blocks : Option Table)
    (_constraint : Option BaseVector) (_parallel : Bool) (_freedofs : Option BitArray) :
    Except Error BlockJacobiPrecond :=
  throw Error.UnimplementedOperation

/-- `BaseSparseMatrix::InverseMatrix (shared_ptr<BitArray> subset = nullptr) const`:
`{ throw Exception ("BaseSparseMatrix::CreateInverse called"); }`. -/
def InverseMatrix (_b : BaseSparseMatrix INVERSETYPE TM) (_subset : Option BitArray) :
    Except Error BaseMatrix :=
  throw Error.UnimplementedOperation

/-- `BaseSparseMatrix::InverseMatrix (const Array<int> * clusters) const`:
`{ throw Exception ("BaseSparseMatrix::CreateInverse called"); }`. -/
def InverseMatrixClusters (_b : BaseSparseMatrix INVERSETYPE TM)
    (_clusters : Option (List Int)) : Except Error BaseMatrix :=
  throw Error.UnimplementedOperation

/-- `BaseSparseMatrix::Restrict (const SparseMatrixTM<double> & prol,
BaseSparseMatrix* cmat = NULL) const`: `{ throw Exception ("BaseSparseMatrix::Restrict"); }`. -/
def Restrict (_b : BaseSparseMatrix INVERSETYPE TM) (_prol : Prolongation)
    (_cmat : Option (BaseSparseMatrix INVERSETYPE TM)) :
    Except Error (BaseSparseMatrix INVERSETYPE TM) :=
  throw Error.UnimplementedOperation

end BaseSparseMatrix

/-! ## Offset invariants and the symmetric assembly overloads -/

namespace MatrixGraph

/-- The invariants of the row offsets alone: `firsti[0] = 0`, `firsti[size] = nze` and
`firsti` non-decreasing over the rows.  Nothing is required of the column indices. -/
structure Offsets (g : MatrixGraph) : Prop where
  firsti_zero : g.firsti[0]? = some 0
  firsti_last : g.firsti[g.size.toNat]? = some g.nze
  firsti_mono : ∀ i : Nat, i < g.size.toNat → g.rowBegin i ≤ g.rowEnd i

/-- The row views fit their C++ types: `nze` is a `size_t` and the length of every row
is an `int` (the size of a `FlatArray<int>`; row capacities are given as `int`). -/
structure ViewsFit (g : MatrixGraph) : Prop where
  nze_le : g.nze ≤ sizeMax
  row_lt : ∀ i : Nat, i < g.size.toNat → ((g.rowEnd i - g.rowBegin i : Nat) : Int) < 2 ^ 31

end MatrixGraph

namespace SparseMatrixTM

/-- The invariants that bound the accesses of the row primitives: the offset invariants,
`colnr` and `data` of length `nze`, and every stored column in `[0, width)`.  The columns
of a row need not be ordered. -/
structure Bounded {TM : Type} (m : SparseMatrixTM TM) : Prop where
  offsets : m.toMatrixGraph.Offsets
  colnr_length : m.colnr.length = m.nze
  data_length : m.data.length = m.nze
  col_range : ∀ i : Nat, i < m.size.toNat → m.RowInRange i m.width

end SparseMatrixTM

namespace SparseMatrixSymmetricTM

/-- `SparseMatrixSymmetricTM::AddElementMatrix (FlatArray<int> dnums1,
FlatArray<int> dnums2, FlatMatrix<TSCAL> elmat, bool use_atomic = false)`:
`{ AddElementMatrix (dnums1, elmat, use_atomic); }`.  The one-list overload
`AddElementMatrix (dnums, elmat, use_atomic)` is virtual and declared in the header
without its body; it is the parameter `addOne`. -/
def AddElementMatrix {N : Nat} {R : Type}
    (addOne : SparseMatrixTM (Mat N N R) → List Int → (Nat → Nat → R) → Bool →
      Except Error (SparseMatrixTM (Mat N N R)))
    (m : SparseMatrixTM (Mat N N R)) (dnums1 _dnums2 : List Int) (elmat : Nat → Nat → R)
    (use_atomic : Bool := false) : Except Error (SparseMatrixTM (Mat N N R)) :=
  addOne m dnums1 elmat use_atomic

end SparseMatrixSymmetricTM

/-! ## Example matrices -/

/-- The scalar `a` as a `1 × 1` block. -/
def scalarMat (a : Int) : Mat 1 1 Int := fun _ _ => a

/-- The scalar `a` as a vector entry of length 1. -/
def scalarVec (a : Int) : Vec 1 Int := fun _ => a

/-- The `3 × 3` tridiagonal matrix with diagonal 2 and off-diagonal -1, pattern
`(0,0),(0,1),(1,0),(1,1),(1,2),(2,1),(2,2)`. -/
def tridiag : SparseMatrixTM (Mat 1 1 Int) :=
  { size := 3, width := 3, nze := 7, colnr := [0, 1, 0, 1, 2, 1, 2], firsti := [0, 2, 5, 7],
    data := [scalarMat 2, scalarMat (-1), scalarMat (-1), scalarMat 2, scalarMat (-1),
      scalarMat (-1), scalarMat 2],
    nul := 0 }

/-- Symmetric (lower) storage of the same matrix, pattern
`(0,0),(1,0),(1,1),(2,1),(2,2)`. -/
def tridiagLower : SparseMatrixTM (Mat 1 1 Int) :=
  { size := 3, width := 3, nze := 5, colnr := [0, 0, 1, 1, 2], firsti := [0, 1, 3, 5],
    data := [scalarMat 2, scalarMat (-1), scalarMat 2, scalarMat (-1), scalarMat 2],
    nul := 0 }

/-- A graph under assembly: two rows with capacities 3 and 2; row 0 uses the columns
0 and 2, row 1 the column 1; one slot of each row is unused. -/
def assembling : MatrixGraph :=
  { size := 2, width := 3, nze := 5, colnr := [0, 2, -1, 1, -1], firsti := [0, 3, 5] }

/-- The graph `assembling` after column 1 has been inserted in row 0, which is then full. -/
def assembled : MatrixGraph :=
  { size := 2, width := 3, nze := 5, colnr := [0, 1, 2, 1, -1], firsti := [0, 3, 5] }

/-- A local element matrix with all entries 1. -/
def elmatOne : Nat → Nat → Int := fun _ _ => 1

/-- A local element matrix with all entries 2. -/
def elmatTwo : Nat → Nat → Int := fun _ _ => 2

/-- The vector `[1, 1, 1]`. -/
def ones3 : List (Vec 1 Int) := [scalarVec 1, scalarVec 1, scalarVec 1]

/-- The vector `[0, 0, 0]`. -/
def zeros3 : List (Vec 1 Int) := [scalarVec 0, scalarVec 0, scalarVec 0]

/-- The vector `[1, 2, 3]`. -/
def ramp3 : List (Vec 1 Int) := [scalarVec 1, scalarVec 2, scalarVec 3]

/-- A matrix whose rows are not ordered: row 0 stores the columns 2, 0 and row 1 the
columns 1, 1 (a column twice); the bounds of all accesses still hold. -/
def unordered : SparseMatrixTM (Mat 1 1 Int) :=
  { size := 2, width := 3, nze := 4, colnr := [2, 0, 1, 1], firsti := [0, 2, 4],
    data := [scalarMat 5, scalarMat 7, scalarMat 1, scalarMat 3],
    nul := 0 }

/-! ## Checked accesses and loops -/

theorem readInt_eq_some {α : Type} (xs : List α) (i : Int) (d : α) (h0 : 0 ≤ i)
    (h1 : i.toNat < xs.length) : readInt xs i = some (xs.getD i.toNat d) := by
  unfold readInt
  rw [if_neg (by omega), List.getD_eq_getElem?_getD, List.getElem?_eq_getElem h1]
  rfl

theorem writeInt_eq_some {α : Type} (xs : List α) (i : Int) (v : α) (h0 : 0 ≤ i)
    (h1 : i.toNat < xs.length) : writeInt xs i v = some (xs.set i.toNat v) := by
  unfold writeInt
  rw [if_neg (by omega), if_pos h1]

theorem getD_set {α : Type} (xs : List α) (c k : Nat) (v d : α) (hc : c < xs.length) :
    (xs.set c v).getD k d = if c = k then v else xs.getD k d := by
  simp only [List.getD_eq_getElem?_getD, List.getElem?_set]
  by_cases h : c = k
  · subst h
    simp [hc]
  · simp [h]

theorem forLoop_sum {M : Type} [AddCommMonoid M] (body : Nat → M → Option M) (f : Nat → M)
    (n a : Nat) (s : M)
    (h : ∀ j, a ≤ j → j < a + n → ∀ t, body j t = some (t + f j)) :
    forLoop body n a s = some (s + ∑ j in Finset.Ico a (a + n), f j) := by
  induction n generalizing a s with
  | zero => simp [forLoop]
  | succ n ih =>
    have hstep := h a (le_refl a) (by omega) s
    have hrest := ih (a + 1) (s + f a) (fun j hj1 hj2 t => h j (by omega) (by omega) t)
    simp only [forLoop, hstep, Option.some_bind, hrest]
    rw [Finset.sum_eq_sum_Ico_succ_bot (by omega : a < a + (n + 1))]
    rw [show a + 1 + n = a + (n + 1) by omega, add_assoc]

theorem forLoop_accum {V : Type} [AddCommMonoid V] (body : Nat → List V → Option (List V))
    (g : Nat → Nat → V) (n a : Nat) (y : List V)
    (h : ∀ j, a ≤ j → j < a + n → ∀ y0 : List V, y0.length = y.length →
      ∃ y1, body j y0 = some y1 ∧ y1.length = y0.length ∧
        ∀ k, y1.getD k 0 = y0.getD k 0 + g j k) :
    ∃ y1, forLoop body n a y = some y1 ∧ y1.length = y.length ∧
      ∀ k, y1.getD k 0 = y.getD k 0 + ∑ j in Finset.Ico a (a + n), g j k := by
  induction n generalizing a y with
  | zero => exact ⟨y, by simp [forLoop]⟩
  | succ n ih =>
    obtain ⟨y1, hy1, hlen1, hval1⟩ := h a (le_refl a) (by omega) y rfl
    obtain ⟨y2, hy2, hlen2, hval2⟩ := ih (a + 1) y1
      (fun j hj1 hj2 y0 hy0 => h j (by omega) (by omega) y0 (by omega))
    refine ⟨y2, ?_, by omega, ?_⟩
    · simp only [forLoop, hy1, Option.some_bind, hy2]
    · intro k
      rw [hval2 k, hval1 k, Finset.sum_eq_sum_Ico_succ_bot (by omega : a < a + (n + 1))]
      rw [show a + 1 + n = a + (n + 1) by omega, add_assoc]

/-! ## Rows of a well-formed matrix -/

namespace MatrixGraph

theorem mem_rowPositions (g : MatrixGraph) (i : Int) (p : Nat) :
    p ∈ g.rowPositions i ↔ g.rowBegin i ≤ p ∧ p < g.rowEnd i := by
  simp [rowPositions]

theorem rowBegin_natCast (g : MatrixGraph) (i : Nat) :
    g.rowBegin (i : Int) = g.firsti.getD i 0 := by
  simp [rowBegin]

theorem rowEnd_natCast (g : MatrixGraph) (i : Nat) :
    g.rowEnd (i : Int) = g.firsti.getD (i + 1) 0 := by
  unfold rowEnd
  rw [show ((i : Int) + 1).toNat = i + 1 by omega]

theorem RowAscending.col_injective {g : MatrixGraph} {row : Int} (ha : g.RowAscending row)
    (p q : Nat) (hp : p ∈ g.rowPositions row) (hq : q ∈ g.rowPositions row)
    (h : g.col p = g.col q) : p = q := by
  rw [mem_rowPositions] at hp hq
  rcases Nat.lt_trichotomy p q with hlt | heq | hgt
  · have := ha q hq.2 p hlt hp.1
    omega
  · exact heq
  · have := ha p hp.2 q hgt hq.1
    omega

theorem RowInRange.mono {g : MatrixGraph} {row : Int} {n k : Int} (h : g.RowInRange row n)
    (hnk : n ≤ k) : g.RowInRange row k := fun p hp1 hp2 =>
  ⟨(h p hp1 hp2).1, lt_of_lt_of_le (h p hp1 hp2).2 hnk⟩

theorem Valid.firsti_le {g : MatrixGraph} (hg : g.Valid) (i j : Nat) (hij : i ≤ j)
    (hj : j ≤ g.size.toNat) : g.firsti.getD i 0 ≤ g.firsti.getD j 0 := by
  induction j with
  | zero =>
    have : i = 0 := by omega
    subst this
    exact le_refl _
  | succ j ih =>
    rcases Nat.eq_or_lt_of_le hij with h | h
    · rw [h]
    · have hstep := hg.firsti_mono j (by omega)
      rw [rowBegin_natCast, rowEnd_natCast] at hstep
      exact le_trans (ih (by omega) (by omega)) hstep

theorem Valid.firsti_le_nze {g : MatrixGraph} (hg : g.Valid) (i : Nat)
    (hi : i ≤ g.size.toNat) : g.firsti.getD i 0 ≤ g.nze := by
  have h := hg.firsti_le i g.size.toNat hi (le_refl _)
  rwa [List.getD_eq_getElem?_getD g.firsti g.size.toNat, hg.firsti_last] at h

theorem Valid.rowInRange {g : MatrixGraph} (hg : g.Valid) (row : Int) (h0 : 0 ≤ row)
    (h1 : row < g.size) : g.RowInRange row g.width := by
  have h := hg.col_range row.toNat (by omega)
  rwa [Int.toNat_of_nonneg h0] at h

theorem Valid.rowAscending {g : MatrixGraph} (hg : g.Valid) (row : Int) (h0 : 0 ≤ row)
    (h1 : row < g.size) : g.RowAscending row := by
  have h := hg.row_ascending row.toNat (by omega)
  rwa [Int.toNat_of_nonneg h0] at h

theorem Lower.rowLower {g : MatrixGraph} (hg : g.Lower) (row : Int) (h0 : 0 ≤ row)
    (h1 : row < g.size) : g.RowLower row := by
  have h := hg row.toNat (by omega)
  rwa [Int.toNat_of_nonneg h0] at h

end MatrixGraph

namespace SparseMatrixTM

theorem Valid.rowWF {TM : Type} {m : SparseMatrixTM TM} (hm : m.Valid) (row : Int)
    (h0 : 0 ≤ row) (h1 : row < m.size) : m.RowWF row := by
  have hlen := hm.graph.firsti_length
  have hmono := hm.graph.firsti_mono row.toNat (by omega)
  rw [Int.toNat_of_nonneg h0] at hmono
  have hend : m.rowEnd row ≤ m.nze := hm.graph.firsti_le_nze _ (by omega)
  refine ⟨h0, by omega, hmono, ?_, ?_⟩
  · rw [hm.graph.colnr_length]
    exact hend
  · rw [hm.data_length]
    exact hend

theorem RowWF.first_eq {TM : Type} {m : SparseMatrixTM TM} {row : Int} (hw : m.RowWF row) :
    readInt m.firsti row = some (m.rowBegin row) :=
  readInt_eq_some _ _ _ hw.nonneg (by have := hw.lt_length; have := hw.nonneg; omega)

theorem RowWF.last_eq {TM : Type} {m : SparseMatrixTM TM} {row : Int} (hw : m.RowWF row) :
    readInt m.firsti (row + 1) = some (m.rowEnd row) :=
  readInt_eq_some _ _ _ (by have := hw.nonneg; omega) hw.lt_length

theorem RowWF.colnr_eq {TM : Type} {m : SparseMatrixTM TM} {row : Int} (hw : m.RowWF row)
    (p : Nat) (hp : p < m.rowEnd row) : m.colnr[p]? = some (m.col p) := by
  have h : p < m.colnr.length := lt_of_lt_of_le hp hw.end_le_colnr
  unfold MatrixGraph.col
  rw [List.getD_eq_getElem?_getD, List.getElem?_eq_getElem h]
  rfl

theorem RowWF.data_eq {H W : Nat} {R : Type} [CommRing R] {m : SparseMatrixTM (Mat H W R)}
    {row : Int} (hw : m.RowWF row) (p : Nat) (hp : p < m.rowEnd row) :
    m.data[p]? = some (m.entry p) := by
  have h : p < m.data.length := lt_of_lt_of_le hp hw.end_le_data
  unfold entry
  rw [List.getD_eq_getElem?_getD, List.getElem?_eq_getElem h]
  rfl

end SparseMatrixTM

theorem readInt_vec {N : Nat} {R : Type} [CommRing R] (x : List (Vec N R)) (c : Int)
    (h0 : 0 ≤ c) (h1 : c < x.length) : readInt x c = some (vecAt x c) :=
  readInt_eq_some _ _ _ h0 (by omega)

/-- The gather loop shared by `RowTimesVector` and `RowTimesVectorNoDiag`, run over the
positions `[a, b)` of a well-formed row. -/
theorem gather_loop {H W : Nat} {R : Type} [CommRing R] (m : SparseMatrixTM (Mat H W R))
    (row : Int) (hw : m.RowWF row) (x : List (Vec W R)) (hr : m.RowInRange row x.length)
    (a b : Nat) (ha : m.rowBegin row ≤ a) (hab : a ≤ b) (hb : b ≤ m.rowEnd row) :
    forLoop (fun j sum => do
      let d ← m.data[j]?
      let c ← m.colnr[j]?
      let v ← readInt x c
      pure (sum + Matrix.mulVec d v)) (b - a) a 0
      = some (∑ p in Finset.Ico a b, Matrix.mulVec (m.entry p) (vecAt x (m.col p))) := by
  rw [forLoop_sum _ (fun p => Matrix.mulVec (m.entry p) (vecAt x (m.col p)))]
  · rw [zero_add, Nat.add_sub_cancel' hab]
  · intro j hj1 hj2 t
    have hj : j < m.rowEnd row := by omega
    have hc := hr j hj (by omega)
    simp only [hw.data_eq j hj, hw.colnr_eq j hj, Option.bind_eq_bind, Option.some_bind,
      readInt_vec x (m.col j) hc.1 hc.2]
    rfl

/-- The scatter loop shared by `AddRowTransToVector` and `AddRowTransToVectorNoDiag`, run
over the positions `[a, b)` of a well-formed row. -/
theorem scatter_loop {H W : Nat} {R : Type} [CommRing R] (m : SparseMatrixTM (Mat H W R))
    (row : Int) (hw : m.RowWF row) (el : Vec H R) (y : List (Vec W R))
    (hr : m.RowInRange row y.length)
    (a b : Nat) (ha : m.rowBegin row ≤ a) (hab : a ≤ b) (hb : b ≤ m.rowEnd row) :
    ∃ y1, forLoop (fun j vec => do
      let c ← m.colnr[j]?
      let d ← m.data[j]?
      let v ← readInt vec c
      writeInt vec c (v + Matrix.mulVec (Trans d) el)) (b - a) a y = some y1
      ∧ y1.length = y.length
      ∧ ∀ k : Nat, y1.getD k 0 = y.getD k 0
          + ∑ p in (Finset.Ico a b).filter (fun p => m.col p = (k : Int)),
              Matrix.mulVec (Trans (m.entry p)) el := by
  obtain ⟨y1, h1, h2, h3⟩ := forLoop_accum (fun j vec => do
      let c ← m.colnr[j]?
      let d ← m.data[j]?
      let v ← readInt vec c
      writeInt vec c (v + Matrix.mulVec (Trans d) el))
    (fun p k => if m.col p = (k : Int) then Matrix.mulVec (Trans (m.entry p)) el else 0)
    (b - a) a y (by
      intro j hj1 hj2 y0 hy0
      have hj : j < m.rowEnd row := by omega
      have hc := hr j hj (by omega)
      have hlt : (m.col j).toNat < y0.length := by omega
      refine ⟨y0.set (m.col j).toNat
        (vecAt y0 (m.col j) + Matrix.mulVec (Trans (m.entry j)) el), ?_, by simp, ?_⟩
      · simp only [hw.data_eq j hj, hw.colnr_eq j hj, Option.bind_eq_bind, Option.some_bind,
          readInt_vec y0 (m.col j) hc.1 (by omega)]
        exact writeInt_eq_some _ _ _ hc.1 hlt
      · intro k
        rw [getD_set _ _ _ _ _ hlt]
        show _ = _ + (if m.col j = (k : Int) then _ else _)
        by_cases hk : (m.col j).toNat = k
        · have hk2 : m.col j = (k : Int) := by omega
          rw [if_pos hk, if_pos hk2, ← hk]
          rfl
        · have hk2 : ¬ m.col j = (k : Int) := by omega
          rw [if_neg hk, if_neg hk2, add_zero])
  refine ⟨y1, h1, h2, fun k => ?_⟩
  rw [h3 k, Nat.add_sub_cancel' hab, Finset.sum_filter]

/-- The loop `for (i = 0; i < n; i++) y(i) += s * r(i)` shared by `MultAdd` and
`MultAdd1`. -/
theorem update_loop {N : Nat} {R : Type} [CommRing R] (r : Nat → Option (Vec N R))
    (f : Nat → Vec N R) (s : R) (n : Nat) (y : List (Vec N R)) (hn : n ≤ y.length)
    (hr : ∀ i, i < n → r i = some (f i)) :
    ∃ y1, forLoop (fun i y => do
      let ri ← r i
      let v ← readInt y i
      writeInt y i (v + s • ri)) n 0 y = some y1
      ∧ y1.length = y.length
      ∧ ∀ k : Nat, y1.getD k 0 = y.getD k 0 + if k < n then s • f k else 0 := by
  obtain ⟨y1, h1, h2, h3⟩ := forLoop_accum (fun i y => do
      let ri ← r i
      let v ← readInt y i
      writeInt y i (v + s • ri))
    (fun i k => if i = k then s • f i else 0) n 0 y (by
      intro j _ hj2 y0 hy0
      have hj : j < n := by omega
      have hlt : ((j : Int)).toNat < y0.length := by
        rw [Int.toNat_ofNat]
        omega
      refine ⟨y0.set j (y0.getD j 0 + s • f j), ?_, by simp, ?_⟩
      · simp only [hr j hj, Option.bind_eq_bind, Option.some_bind,
          readInt_eq_some y0 (j : Int) 0 (Int.ofNat_nonneg j) hlt,
          writeInt_eq_some y0 (j : Int) _ (Int.ofNat_nonneg j) hlt, Int.toNat_ofNat]
      · intro k
        rw [getD_set _ _ _ _ _ (by omega)]
        show _ = _ + (if j = k then _ else _)
        by_cases hk : j = k
        · rw [if_pos hk, if_pos hk, hk]
        · rw [if_neg hk, if_neg hk, add_zero])
  refine ⟨y1, h1, h2, fun k => ?_⟩
  rw [h3 k, Nat.zero_add, Finset.sum_ite_eq' (Finset.Ico 0 n) k (fun i => s • f i)]
  simp

theorem sum_mulVec {H W : Nat} {R : Type} [CommRing R] {ι : Type} (t : Finset ι)
    (A : ι → Mat H W R) (v : Vec W R) :
    Matrix.mulVec (∑ i in t, A i) v = ∑ i in t, Matrix.mulVec (A i) v := by
  classical
  induction t using Finset.induction_on with
  | empty => simp
  | insert hi ih => rw [Finset.sum_insert hi, Finset.sum_insert hi, Matrix.add_mulVec, ih]

namespace SparseMatrixTM

theorem trans_stored_mulVec {H W : Nat} {R : Type} [CommRing R]
    (m : SparseMatrixTM (Mat H W R)) (i j : Int) (v : Vec H R) :
    Matrix.mulVec (Trans (m.stored i j)) v
      = ∑ p in (m.rowPositions i).filter (fun p => m.col p = j),
          Matrix.mulVec (Trans (m.entry p)) v := by
  unfold stored Trans
  rw [Matrix.transpose_sum, sum_mulVec]

theorem stored_mulVec {H W : Nat} {R : Type} [CommRing R]
    (m : SparseMatrixTM (Mat H W R)) (i j : Int) (v : Vec W R) :
    Matrix.mulVec (m.stored i j) v
      = ∑ p in (m.rowPositions i).filter (fun p => m.col p = j),
          Matrix.mulVec (m.entry p) v := by
  unfold stored
  rw [sum_mulVec]

/-- Under strictly ascending columns the logical entry at a stored column is the value
at its position. -/
theorem stored_eq_entry {H W : Nat} {R : Type} [CommRing R]
    (m : SparseMatrixTM (Mat H W R)) (i : Int) (ha : m.RowAscending i) (p : Nat)
    (hp : p ∈ m.rowPositions i) : m.stored i (m.col p) = m.entry p := by
  unfold stored
  rw [Finset.sum_eq_single_of_mem p (by simp [hp])]
  intro q hq hne
  rw [Finset.mem_filter] at hq
  exact absurd (ha.col_injective q p hq.1 hp hq.2) hne

/-- The logical entry at a column that is not stored is zero. -/
theorem stored_eq_zero {H W : Nat} {R : Type} [CommRing R]
    (m : SparseMatrixTM (Mat H W R)) (i j : Int)
    (h : ∀ p ∈ m.rowPositions i, m.col p ≠ j) : m.stored i j = 0 := by
  unfold stored
  apply Finset.sum_eq_zero
  intro q hq
  rw [Finset.mem_filter] at hq
  exact absurd hq.2 (h q hq.1)

/-- The gathered row sum, regrouped by column: `∑_p data[p] * x[colnr[p]]` over the
positions of the row equals `∑_j A[row,j] * x[j]` over the columns `j < n`. -/
theorem row_sum_by_col {H W : Nat} {R : Type} [CommRing R] (m : SparseMatrixTM (Mat H W R))
    (row : Int) (n : Nat) (hr : m.RowInRange row n) (x : List (Vec W R)) :
    ∑ p in m.rowPositions row, Matrix.mulVec (m.entry p) (vecAt x (m.col p))
      = ∑ j in Finset.range n, Matrix.mulVec (m.stored row (j : Int)) (vecAt x (j : Int)) := by
  have h1 : ∀ j ∈ Finset.range n,
      Matrix.mulVec (m.stored row (j : Int)) (vecAt x (j : Int))
        = ∑ p in (m.rowPositions row).filter (fun p => (m.col p).toNat = j),
            Matrix.mulVec (m.entry p) (vecAt x (m.col p)) := by
    intro j _
    rw [stored_mulVec]
    apply Finset.sum_congr
    · apply Finset.filter_congr
      intro p hp
      have hp2 := (m.mem_rowPositions row p).1 hp
      have := (hr p hp2.2 hp2.1).1
      omega
    · intro p hp
      rw [Finset.mem_filter] at hp
      have hp2 := (m.mem_rowPositions row p).1 hp.1
      have := (hr p hp2.2 hp2.1).1
      have hc : m.col p = (j : Int) := by omega
      rw [hc]
  rw [Finset.sum_congr rfl h1]
  refine (Finset.sum_fiberwise_of_maps_to ?_ _).symm
  intro p hp
  have hp2 := (m.mem_rowPositions row p).1 hp
  have := hr p hp2.2 hp2.1
  rw [Finset.mem_range]
  omega

end SparseMatrixTM

/-! ## General matrices -/

namespace SparseMatrix

variable {H W : Nat} {R : Type} [CommRing R]

theorem RowTimesVector_row (m : SparseMatrixTM (Mat H W R)) (row : Int) (hw : m.RowWF row)
    (x : List (Vec W R)) (hr : m.RowInRange row x.length) :
    RowTimesVector m row x
      = some (∑ p in m.rowPositions row, Matrix.mulVec (m.entry p) (vecAt x (m.col p))) := by
  unfold RowTimesVector
  simp only [hw.first_eq, hw.last_eq, Option.bind_eq_bind, Option.some_bind]
  exact gather_loop m row hw x hr _ _ (le_refl _) hw.begin_le_end (le_refl _)

theorem AddRowTransToVector_row (m : SparseMatrixTM (Mat H W R)) (row : Int)
    (hw : m.RowWF row) (el : Vec H R) (y : List (Vec W R))
    (hr : m.RowInRange row y.length) :
    ∃ y1, AddRowTransToVector m row el y = some y1 ∧ y1.length = y.length
      ∧ ∀ k : Nat, y1.getD k 0 = y.getD k 0
          + ∑ p in (m.rowPositions row).filter (fun p => m.col p = (k : Int)),
              Matrix.mulVec (Trans (m.entry p)) el := by
  unfold AddRowTransToVector
  simp only [hw.first_eq, hw.last_eq, Option.bind_eq_bind, Option.some_bind]
  exact scatter_loop m row hw el y hr _ _ (le_refl _) hw.begin_le_end (le_refl _)

/-- C1: under the CRS invariants, for a row in `[0, rows)` and a vector of length at
least `cols`, `RowTimesVector (row, x)` returns the sum over the stored positions `p` of
the row of `data[p] * x[colnr[p]]`; for a row without stored position it returns zero. -/
theorem RowTimesVector_eq_sum (m : SparseMatrixTM (Mat H W R)) (hm : m.Valid) (row : Int)
    (h0 : 0 ≤ row) (h1 : row < m.size) (x : List (Vec W R)) (hx : m.width ≤ x.length) :
    RowTimesVector m row x
        = some (∑ p in m.rowPositions row, Matrix.mulVec (m.entry p) (vecAt x (m.col p)))
      ∧ (m.rowPositions row = ∅ → RowTimesVector m row x = some 0) := by
  have key := RowTimesVector_row m row (hm.rowWF row h0 h1) x
    ((hm.graph.rowInRange row h0 h1).mono hx)
  refine ⟨key, fun hempty => ?_⟩
  rw [key, hempty, Finset.sum_empty]

theorem RowTimesVector_eq_sum_witness :
    tridiag.Valid ∧ (0 : Int) ≤ 1 ∧ (1 : Int) < tridiag.size
      ∧ tridiag.width ≤ ones3.length
      ∧ RowTimesVector tridiag 1 ones3 = some (scalarVec 0) :=
  ⟨⟨⟨by decide, by decide, by decide, by decide, by decide, by decide, by decide,
      by decide⟩, by decide⟩, by decide, by decide, by decide,
    (RowTimesVector_eq_sum tridiag
      ⟨⟨by decide, by decide, by decide, by decide, by decide, by decide, by decide,
        by decide⟩, by decide⟩ 1 (by decide) (by decide) ones3 (by decide)).1.trans
      (by decide)⟩

/-- C2: for a well-formed row whose stored columns are strictly ascending and in range
of the vector, `AddRowTransToVector (row, el, y)` returns a vector `y1` of the same length
with `y1[j] = y[j] + Trans(A[row,j]) * el` at every stored column `j` of the row (one
addition per stored column) and `y1[k] = y[k]` at every `k` that is not a stored column of
the row.  The method is `const`: the matrix is only read. -/
theorem AddRowTransToVector_spec (m : SparseMatrixTM (Mat H W R)) (row : Int)
    (hw : m.RowWF row) (ha : m.RowAscending row) (el : Vec H R) (y : List (Vec W R))
    (hr : m.RowInRange row y.length) :
    ∃ y1, AddRowTransToVector m row el y = some y1 ∧ y1.length = y.length
      ∧ (∀ p ∈ m.rowPositions row,
          vecAt y1 (m.col p) = vecAt y (m.col p) + Matrix.mulVec (Trans (m.entry p)) el)
      ∧ (∀ k : Nat, (∀ p ∈ m.rowPositions row, m.col p ≠ (k : Int)) →
          y1.getD k 0 = y.getD k 0) := by
  obtain ⟨y1, h1, h2, h3⟩ := AddRowTransToVector_row m row hw el y hr
  refine ⟨y1, h1, h2, ?_, ?_⟩
  · intro p hp
    have hp2 := (m.mem_rowPositions row p).1 hp
    have hc := hr p hp2.2 hp2.1
    have hcast : (((m.col p).toNat : Nat) : Int) = m.col p := Int.toNat_of_nonneg hc.1
    have h := h3 (m.col p).toNat
    rw [hcast] at h
    rw [Finset.sum_eq_single_of_mem p (by simp [hp])] at h
    · exact h
    · intro q hq hne
      rw [Finset.mem_filter] at hq
      exact absurd (ha.col_injective q p hq.1 hp hq.2) hne
  · intro k hk
    rw [h3 k, Finset.sum_eq_zero, add_zero]
    intro q hq
    rw [Finset.mem_filter] at hq
    exact absurd hq.2 (hk q hq.1)

theorem AddRowTransToVector_spec_witness :
    tridiag.RowWF 1 ∧ tridiag.RowAscending 1 ∧ tridiag.RowInRange 1 zeros3.length
      ∧ AddRowTransToVector tridiag 1 (scalarVec 1) zeros3
          = some [scalarVec (-1), scalarVec 2, scalarVec (-1)]
      ∧ ∃ y1, AddRowTransToVector tridiag 1 (scalarVec 1) zeros3 = some y1
        ∧ y1.length = zeros3.length
        ∧ (∀ p ∈ tridiag.rowPositions 1,
            vecAt y1 (tridiag.col p)
              = vecAt zeros3 (tridiag.col p)
                + Matrix.mulVec (Trans (tridiag.entry p)) (scalarVec 1))
        ∧ (∀ k : Nat, (∀ p ∈ tridiag.rowPositions 1, tridiag.col p ≠ (k : Int)) →
            y1.getD k 0 = zeros3.getD k 0) :=
  ⟨⟨by decide, by decide, by decide, by decide, by decide⟩, by decide,
    by decide, by decide,
    AddRowTransToVector_spec tridiag 1 ⟨by decide, by decide, by decide, by decide, by decide⟩
      (by decide) (scalarVec 1) zeros3
      (by decide)⟩

theorem RowTimesVector_mulRow (m : SparseMatrixTM (Mat H W R)) (hm : m.Valid) (row : Int)
    (h0 : 0 ≤ row) (h1 : row < m.size) (x : List (Vec W R)) (hx : m.width ≤ x.length) :
    RowTimesVector m row x = some (m.mulRow row x) := by
  have hr := hm.graph.rowInRange row h0 h1
  rw [RowTimesVector_row m row (hm.rowWF row h0 h1) x (hr.mono hx)]
  unfold SparseMatrixTM.mulRow
  rw [m.row_sum_by_col row m.width.toNat (hr.mono (Int.self_le_toNat _)) x]

/-- The scatter loop over all rows, shared by `MultTransAdd` and `MultAdd2`. -/
theorem MultTransAdd_loop (m : SparseMatrixTM (Mat H W R)) (s : R)
    (x : List (Vec H R)) (y : List (Vec W R)) (hx : m.size ≤ x.length)
    (hwf : ∀ i : Nat, (i : Int) < m.size → m.RowWF i)
    (hrng : ∀ i : Nat, (i : Int) < m.size → m.RowInRange i y.length) :
    ∃ y1, MultTransAdd m s x y = some y1 ∧ y1.length = y.length
      ∧ ∀ j : Nat, y1.getD j 0 = y.getD j 0 + s • m.mulTransRow j x := by
  obtain ⟨y1, h1, h2, h3⟩ := forLoop_accum (fun i y => do
      let xi ← readInt x i
      AddRowTransToVector m i (s • xi) y)
    (fun i k => Matrix.mulVec (Trans (m.stored i k)) (s • vecAt x i)) m.size.toNat 0 y (by
      intro i _ hi2 y0 hy0
      have hi : (i : Int) < m.size := by omega
      have hr := hrng i hi
      rw [← hy0] at hr
      obtain ⟨y1, h1, h2, h3⟩ := AddRowTransToVector_row m i (hwf i hi) (s • vecAt x i) y0 hr
      refine ⟨y1, ?_, h2, fun k => ?_⟩
      · simp only [readInt_vec x i (Int.ofNat_nonneg i) (by omega), Option.bind_eq_bind,
          Option.some_bind, h1]
      · rw [h3 k]
        show _ = _ + Matrix.mulVec (Trans (m.stored i k)) (s • vecAt x i)
        rw [m.trans_stored_mulVec])
  refine ⟨y1, h1, h2, fun j => ?_⟩
  rw [h3 j, Nat.zero_add, ← Finset.range_eq_Ico]
  unfold SparseMatrixTM.mulTransRow
  rw [Finset.smul_sum]
  simp only [Matrix.mulVec_smul]

/-- C3: for a valid matrix and compatible vectors, `MultAdd (s, x, y)` returns a vector
`y1` of the length of `y` such that for every row `k` the call `RowTimesVector (k, x)`
returns `∑_j A[k,j] * x[j]` (the sum over the stored columns of row `k`) and
`y1[k] = y[k] + s * RowTimesVector (k, x)`; components beyond the rows are unchanged.
Neither `x` nor the matrix is written (both are read-only arguments). -/
theorem MultAdd_spec (m : SparseMatrixTM (Mat H W R)) (hm : m.Valid) (s : R)
    (x : List (Vec W R)) (y : List (Vec H R)) (hx : m.width ≤ x.length)
    (hy : m.size ≤ y.length) :
    ∃ y1, MultAdd m s x y = some y1 ∧ y1.length = y.length
      ∧ (∀ k : Nat, (k : Int) < m.size →
          RowTimesVector m k x = some (m.mulRow k x)
          ∧ y1.getD k 0 = y.getD k 0 + s • m.mulRow k x)
      ∧ (∀ k : Nat, m.size ≤ (k : Int) → y1.getD k 0 = y.getD k 0) := by
  have hrow : ∀ i : Nat, i < m.size.toNat → RowTimesVector m i x = some (m.mulRow i x) :=
    fun i hi => RowTimesVector_mulRow m hm i (Int.ofNat_nonneg i) (by omega) x hx
  obtain ⟨y1, h1, h2, h3⟩ := update_loop (fun i : Nat => RowTimesVector m i x) _ s
    m.size.toNat y (by omega) hrow
  refine ⟨y1, h1, h2, fun k hk => ⟨hrow k (by omega), ?_⟩, fun k hk => ?_⟩
  · rw [h3 k, if_pos (by omega)]
  · rw [h3 k, if_neg (by omega), add_zero]

theorem MultAdd_spec_witness :
    tridiag.Valid ∧ tridiag.width ≤ ones3.length ∧ tridiag.size ≤ zeros3.length
      ∧ MultAdd tridiag 1 ones3 zeros3 = some [scalarVec 1, scalarVec 0, scalarVec 1]
      ∧ ∃ y1, MultAdd tridiag 1 ones3 zeros3 = some y1 ∧ y1.length = zeros3.length
        ∧ (∀ k : Nat, (k : Int) < tridiag.size →
            RowTimesVector tridiag k ones3 = some (tridiag.mulRow k ones3)
            ∧ y1.getD k 0 = zeros3.getD k 0 + (1 : Int) • tridiag.mulRow k ones3)
        ∧ (∀ k : Nat, tridiag.size ≤ (k : Int) → y1.getD k 0 = zeros3.getD k 0) :=
  ⟨⟨⟨by decide, by decide, by decide, by decide, by decide, by decide, by decide,
      by decide⟩, by decide⟩, by decide, by decide, by decide,
    MultAdd_spec tridiag
      ⟨⟨by decide, by decide, by decide, by decide, by decide, by decide, by decide,
        by decide⟩, by decide⟩ 1 ones3 zeros3 (by decide) (by decide)⟩

/-- C4: for a valid matrix and compatible vectors (`x` of length at least `rows`, `y` of
length at least `cols`), `MultTransAdd (s, x, y)`, which applies
`AddRowTransToVector (i, s*x[i], y)` for every row `i`, returns a vector `y1` of the
length of `y` with `y1[j] = y[j] + s * ∑_i Trans(A[i,j]) * x[i]` for every `j`, where
only the rows `i` that store column `j` contribute; that is `y + s * A^T * x`. -/
theorem MultTransAdd_spec (m : SparseMatrixTM (Mat H W R)) (hm : m.Valid) (s : R)
    (x : List (Vec H R)) (y : List (Vec W R)) (hx : m.size ≤ x.length)
    (hy : m.width ≤ y.length) :
    ∃ y1, MultTransAdd m s x y = some y1 ∧ y1.length = y.length
      ∧ (∀ j : Nat, y1.getD j 0 = y.getD j 0
          + s • ∑ i in Finset.range m.size.toNat,
              Matrix.mulVec (Trans (m.stored i j)) (vecAt x i))
      ∧ (∀ i j : Int, (∀ p ∈ m.rowPositions i, m.col p ≠ j) →
          Matrix.mulVec (Trans (m.stored i j)) (vecAt x i) = 0) := by
  obtain ⟨y1, h1, h2, h3⟩ := MultTransAdd_loop m s x y hx
    (fun i hi => hm.rowWF i (Int.ofNat_nonneg i) hi)
    (fun i hi => (hm.graph.rowInRange i (Int.ofNat_nonneg i) hi).mono hy)
  refine ⟨y1, h1, h2, h3, fun i j hij => ?_⟩
  rw [m.stored_eq_zero i j hij]
  simp

theorem MultTransAdd_spec_witness :
    tridiag.Valid ∧ tridiag.size ≤ ones3.length ∧ tridiag.width ≤ zeros3.length
      ∧ MultTransAdd tridiag 1 ones3 zeros3 = some [scalarVec 1, scalarVec 0, scalarVec 1]
      ∧ ∃ y1, MultTransAdd tridiag 1 ones3 zeros3 = some y1 ∧ y1.length = zeros3.length
        ∧ (∀ j : Nat, y1.getD j 0 = zeros3.getD j 0
            + (1 : Int) • ∑ i in Finset.range tridiag.size.toNat,
                Matrix.mulVec (Trans (tridiag.stored i j)) (vecAt ones3 i))
        ∧ (∀ i j : Int, (∀ p ∈ tridiag.rowPositions i, tridiag.col p ≠ j) →
            Matrix.mulVec (Trans (tridiag.stored i j)) (vecAt ones3 i) = 0) :=
  ⟨⟨⟨by decide, by decide, by decide, by decide, by decide, by decide, by decide,
      by decide⟩, by decide⟩, by decide, by decide, by decide,
    MultTransAdd_spec tridiag
      ⟨⟨by decide, by decide, by decide, by decide, by decide, by decide, by decide,
        by decide⟩, by decide⟩ 1 ones3 zeros3 (by decide) (by decide)⟩

end SparseMatrix

/-! ## Symmetric matrices -/

namespace MatrixGraph

theorem noDiagEnd_le (g : MatrixGraph) (i : Int) : g.noDiagEnd i ≤ g.rowEnd i := by
  unfold noDiagEnd
  split_ifs <;> omega

theorem le_noDiagEnd (g : MatrixGraph) (i : Int) (h : g.rowBegin i ≤ g.rowEnd i) :
    g.rowBegin i ≤ g.noDiagEnd i := by
  unfold noDiagEnd
  split_ifs <;> omega

/-- In a strictly ascending lower-triangular row the diagonal column can only sit at the
last position. -/
theorem diag_position {g : MatrixGraph} {row : Int} (ha : g.RowAscending row)
    (hl : g.RowLower row) (p : Nat) (hp : p ∈ g.rowPositions row) (hc : g.col p = row) :
    p = g.rowEnd row - 1 := by
  rw [mem_rowPositions] at hp
  by_contra hne
  have hlt : p < g.rowEnd row - 1 := by omega
  have h1 := ha (g.rowEnd row - 1) (by omega) p hlt hp.1
  have h2 := hl (g.rowEnd row - 1) (by omega) (by omega)
  omega

/-- The positions visited by the `NoDiag` loops are the positions of the row whose column
is not the diagonal. -/
theorem noDiag_positions {g : MatrixGraph} {row : Int}
    (hle : g.rowBegin row ≤ g.rowEnd row) (ha : g.RowAscending row) (hl : g.RowLower row) :
    Finset.Ico (g.rowBegin row) (g.noDiagEnd row)
      = (g.rowPositions row).filter (fun p => g.col p ≠ row) := by
  ext p
  rw [Finset.mem_Ico, Finset.mem_filter, mem_rowPositions]
  unfold noDiagEnd
  by_cases h1 : g.rowEnd row = g.rowBegin row
  · rw [if_pos h1]
    constructor
    · intro h
      omega
    · intro h
      omega
  · rw [if_neg h1]
    by_cases h2 : g.col (g.rowEnd row - 1) = row
    · rw [if_pos h2]
      constructor
      · intro h
        refine ⟨⟨h.1, by omega⟩, fun hc => ?_⟩
        have := diag_position ha hl p ((g.mem_rowPositions row p).2 ⟨h.1, by omega⟩) hc
        omega
      · intro h
        refine ⟨h.1.1, ?_⟩
        by_contra hge
        have hp : p = g.rowEnd row - 1 := by omega
        rw [hp] at h
        exact h.2 h2
    · rw [if_neg h2]
      constructor
      · intro h
        refine ⟨h, fun hc => ?_⟩
        have := diag_position ha hl p ((g.mem_rowPositions row p).2 h) hc
        rw [this] at hc
        exact h2 hc
      · intro h
        exact h.1

end MatrixGraph

namespace SparseMatrixSymmetric

variable {N : Nat} {R : Type} [CommRing R]

theorem RowTimesVectorNoDiag_row (m : SparseMatrixTM (Mat N N R)) (row : Int)
    (hw : m.RowWF row) (x : List (Vec N R)) (hr : m.RowInRange row x.length) :
    RowTimesVectorNoDiag m row x
      = some (∑ p in Finset.Ico (m.rowBegin row) (m.noDiagEnd row),
          Matrix.mulVec (m.entry p) (vecAt x (m.col p))) := by
  unfold RowTimesVectorNoDiag
  simp only [hw.first_eq, hw.last_eq, Option.bind_eq_bind, Option.some_bind]
  by_cases h1 : m.rowEnd row = m.rowBegin row
  · rw [if_pos h1]
    unfold MatrixGraph.noDiagEnd
    rw [if_pos h1, h1, Finset.Ico_self, Finset.sum_empty]
    rfl
  · have hle := hw.begin_le_end
    have hpos : ¬ m.rowEnd row = 0 := by omega
    rw [if_neg h1, if_neg hpos, hw.colnr_eq (m.rowEnd row - 1) (by omega), Option.some_bind]
    have hend : (if m.col (m.rowEnd row - 1) = row then m.rowEnd row - 1 else m.rowEnd row)
        = m.noDiagEnd row := by
      unfold MatrixGraph.noDiagEnd
      rw [if_neg h1]
    rw [hend]
    exact gather_loop m row hw x hr _ _ (le_refl _) (m.le_noDiagEnd row hle)
      (m.noDiagEnd_le row)

theorem AddRowTransToVectorNoDiag_row (m : SparseMatrixTM (Mat N N R)) (row : Int)
    (hw : m.RowWF row) (el : Vec N R) (y : List (Vec N R))
    (hr : m.RowInRange row y.length) :
    ∃ y1, AddRowTransToVectorNoDiag m row el y = some y1 ∧ y1.length = y.length
      ∧ ∀ k : Nat, y1.getD k 0 = y.getD k 0
          + ∑ p in (Finset.Ico (m.rowBegin row) (m.noDiagEnd row)).filter
              (fun p => m.col p = (k : Int)), Matrix.mulVec (Trans (m.entry p)) el := by
  unfold AddRowTransToVectorNoDiag
  simp only [hw.first_eq, hw.last_eq, Option.bind_eq_bind, Option.some_bind]
  by_cases h1 : m.rowBegin row = m.rowEnd row
  · rw [if_pos h1]
    refine ⟨y, rfl, rfl, fun k => ?_⟩
    unfold MatrixGraph.noDiagEnd
    rw [if_pos h1.symm, h1, Finset.Ico_self, Finset.filter_empty, Finset.sum_empty, add_zero]
  · have hle := hw.begin_le_end
    have hpos : ¬ m.rowEnd row = 0 := by omega
    rw [if_neg h1, if_neg hpos, hw.colnr_eq (m.rowEnd row - 1) (by omega), Option.some_bind]
    have hend : (if m.col (m.rowEnd row - 1) = row then m.rowEnd row - 1 else m.rowEnd row)
        = m.noDiagEnd row := by
      unfold MatrixGraph.noDiagEnd
      rw [if_neg (Ne.symm h1)]
    rw [hend]
    exact scatter_loop m row hw el y hr _ _ (le_refl _) (m.le_noDiagEnd row hle)
      (m.noDiagEnd_le row)

theorem AddRowTransToVectorNoDiag_empty (m : SparseMatrixTM (Mat N N R)) (row : Int)
    (hw : m.RowWF row) (el : Vec N R) (y : List (Vec N R))
    (h : m.rowBegin row = m.rowEnd row) :
    AddRowTransToVectorNoDiag m row el y = some y := by
  unfold AddRowTransToVectorNoDiag
  simp only [hw.first_eq, hw.last_eq, Option.bind_eq_bind, Option.some_bind]
  rw [if_pos h]
  rfl

/-- The gathered sum without the diagonal: the full row sum minus the diagonal term. -/
theorem noDiag_sum_eq (m : SparseMatrixTM (Mat N N R)) (row : Int) (hw : m.RowWF row)
    (ha : m.RowAscending row) (hl : m.RowLower row) (x : List (Vec N R)) :
    ∑ p in Finset.Ico (m.rowBegin row) (m.noDiagEnd row),
        Matrix.mulVec (m.entry p) (vecAt x (m.col p))
      = ∑ p in m.rowPositions row, Matrix.mulVec (m.entry p) (vecAt x (m.col p))
        - Matrix.mulVec (m.stored row row) (vecAt x row) := by
  rw [MatrixGraph.noDiag_positions hw.begin_le_end ha hl, m.stored_mulVec, eq_sub_iff_add_eq,
    add_comm]
  rw [← Finset.sum_filter_add_sum_filter_not (m.rowPositions row) (fun p => m.col p = row)]
  congr 1
  apply Finset.sum_congr rfl
  intro p hp
  rw [Finset.mem_filter] at hp
  rw [hp.2]

/-- C6: for a well-formed, strictly ascending, lower-triangular row and a vector covering
its columns, `RowTimesVector` and `RowTimesVectorNoDiag` both return, and
`RowTimesVectorNoDiag (row, x) = RowTimesVector (row, x) - A[row,row] * x[row]` when the
diagonal position is stored (`A[row,row]` being the value at that position), while the two
results are equal when it is not stored; on an empty row both are zero. -/
theorem RowTimesVectorNoDiag_spec (m : SparseMatrixTM (Mat N N R)) (row : Int)
    (hw : m.RowWF row) (ha : m.RowAscending row) (hl : m.RowLower row)
    (x : List (Vec N R)) (hr : m.RowInRange row x.length) :
    ∃ r r0, SparseMatrix.RowTimesVector m row x = some r
      ∧ RowTimesVectorNoDiag m row x = some r0
      ∧ (∀ p ∈ m.rowPositions row, m.col p = row →
          r0 = r - Matrix.mulVec (m.entry p) (vecAt x row))
      ∧ (¬ m.isStored row row → r0 = r)
      ∧ (m.rowPositions row = ∅ → r = 0 ∧ r0 = 0) := by
  refine ⟨_, _, SparseMatrix.RowTimesVector_row m row hw x hr,
    RowTimesVectorNoDiag_row m row hw x hr, ?_, ?_, ?_⟩
  · intro p hp hc
    have hst := m.stored_eq_entry row ha p hp
    rw [hc] at hst
    rw [noDiag_sum_eq m row hw ha hl x, hst]
  · intro hns
    rw [noDiag_sum_eq m row hw ha hl x, m.stored_eq_zero row row, Matrix.zero_mulVec, sub_zero]
    intro p hp hc
    exact hns ⟨p, hp, hc⟩
  · intro hempty
    have h0 : ∑ p in m.rowPositions row, Matrix.mulVec (m.entry p) (vecAt x (m.col p)) = 0 := by
      rw [hempty, Finset.sum_empty]
    refine ⟨h0, ?_⟩
    rw [noDiag_sum_eq m row hw ha hl x, h0, m.stored_eq_zero row row, Matrix.zero_mulVec,
      sub_zero]
    intro p hp
    rw [hempty] at hp
    exact absurd hp (Finset.not_mem_empty p)

theorem RowTimesVectorNoDiag_spec_witness :
    tridiagLower.RowWF 1 ∧ tridiagLower.RowAscending 1 ∧ tridiagLower.RowLower 1
      ∧ tridiagLower.RowInRange 1 ones3.length
      ∧ SparseMatrix.RowTimesVector tridiagLower 1 ones3 = some (scalarVec 1)
      ∧ RowTimesVectorNoDiag tridiagLower 1 ones3 = some (scalarVec (-1))
      ∧ ∃ r r0, SparseMatrix.RowTimesVector tridiagLower 1 ones3 = some r
        ∧ RowTimesVectorNoDiag tridiagLower 1 ones3 = some r0
        ∧ (∀ p ∈ tridiagLower.rowPositions 1, tridiagLower.col p = 1 →
            r0 = r - Matrix.mulVec (tridiagLower.entry p) (vecAt ones3 1))
        ∧ (¬ tridiagLower.isStored 1 1 → r0 = r)
        ∧ (tridiagLower.rowPositions 1 = ∅ → r = 0 ∧ r0 = 0) :=
  ⟨⟨by decide, by decide, by decide, by decide, by decide⟩, by decide, by decide, by decide,
    by decide, by decide,
    RowTimesVectorNoDiag_spec tridiagLower 1
      ⟨by decide, by decide, by decide, by decide, by decide⟩ (by decide) (by decide) ones3
      (by decide)⟩

/-- C7: in a well-formed row `i` whose stored columns are strictly ascending and all
`≤ i`, the diagonal column `i` is stored if and only if the row is non-empty and its last
stored column `colnr[firsti[i+1]-1]` equals `i`; a stored diagonal sits at position
`firsti[i+1]-1`; the read of `colnr[firsti[i+1]-1]` made for a non-empty row is in range;
and the positions the `NoDiag` loops visit are exactly the non-diagonal positions of the
row. -/
theorem diag_stored_iff_last {TM : Type} (m : SparseMatrixTM TM) (i : Int) (hw : m.RowWF i)
    (ha : m.RowAscending i) (hl : m.RowLower i) :
    (m.isStored i i ↔ m.rowBegin i ≠ m.rowEnd i ∧ m.col (m.rowEnd i - 1) = i)
      ∧ (∀ p ∈ m.rowPositions i, m.col p = i → p = m.rowEnd i - 1)
      ∧ (m.rowBegin i ≠ m.rowEnd i →
          (if m.rowEnd i = 0 then none else m.colnr[m.rowEnd i - 1]?)
            = some (m.col (m.rowEnd i - 1)))
      ∧ Finset.Ico (m.rowBegin i) (m.noDiagEnd i)
          = (m.rowPositions i).filter (fun p => m.col p ≠ i) := by
  have hle := hw.begin_le_end
  refine ⟨⟨?_, ?_⟩, fun p hp hc => MatrixGraph.diag_position ha hl p hp hc, ?_,
    MatrixGraph.noDiag_positions hle ha hl⟩
  · rintro ⟨p, hp, hc⟩
    have hlast := MatrixGraph.diag_position ha hl p hp hc
    rw [MatrixGraph.mem_rowPositions] at hp
    refine ⟨by omega, ?_⟩
    rw [← hlast]
    exact hc
  · rintro ⟨hne, hc⟩
    refine ⟨m.rowEnd i - 1, ?_, hc⟩
    rw [MatrixGraph.mem_rowPositions]
    omega
  · intro hne
    rw [if_neg (by omega), hw.colnr_eq (m.rowEnd i - 1) (by omega)]

theorem diag_stored_iff_last_witness :
    tridiagLower.RowWF 1 ∧ tridiagLower.RowAscending 1 ∧ tridiagLower.RowLower 1
      ∧ tridiagLower.isStored 1 1 ∧ tridiagLower.col (tridiagLower.rowEnd 1 - 1) = 1 :=
  ⟨⟨by decide, by decide, by decide, by decide, by decide⟩, by decide, by decide,
    ⟨2, by decide, by decide⟩,
    ((diag_stored_iff_last tridiagLower 1
      ⟨by decide, by decide, by decide, by decide, by decide⟩ (by decide) (by decide)).1.1
      ⟨2, by decide, by decide⟩).2⟩

/-- C8: for a well-formed, strictly ascending, lower-triangular row and a vector covering
its columns, `AddRowTransToVectorNoDiag (row, el, y)` returns a vector `y1` of the same
length with `y1[j] = y[j] + Trans(A[row,j]) * el` at every stored column `j < row` and
`y1[k] = y[k]` at every other `k`; in particular `y1[row] = y[row]`, also when the
diagonal is stored; on an empty row the vector is returned unchanged. -/
theorem AddRowTransToVectorNoDiag_spec (m : SparseMatrixTM (Mat N N R)) (row : Int)
    (hw : m.RowWF row) (ha : m.RowAscending row) (hl : m.RowLower row) (el : Vec N R)
    (y : List (Vec N R)) (hr : m.RowInRange row y.length) :
    ∃ y1, AddRowTransToVectorNoDiag m row el y = some y1 ∧ y1.length = y.length
      ∧ (∀ p ∈ m.rowPositions row, m.col p < row →
          vecAt y1 (m.col p) = vecAt y (m.col p) + Matrix.mulVec (Trans (m.entry p)) el)
      ∧ (∀ k : Nat, (∀ p ∈ m.rowPositions row, m.col p < row → m.col p ≠ (k : Int)) →
          y1.getD k 0 = y.getD k 0)
      ∧ vecAt y1 row = vecAt y row
      ∧ (m.rowPositions row = ∅ → y1 = y) := by
  obtain ⟨y1, h1, h2, h3⟩ := AddRowTransToVectorNoDiag_row m row hw el y hr
  have hother : ∀ k : Nat, (∀ p ∈ m.rowPositions row, m.col p < row → m.col p ≠ (k : Int)) →
      y1.getD k 0 = y.getD k 0 := by
    intro k hk
    rw [h3 k, Finset.sum_eq_zero, add_zero]
    intro q hq
    rw [MatrixGraph.noDiag_positions hw.begin_le_end ha hl, Finset.mem_filter,
      Finset.mem_filter] at hq
    have hq2 := (m.mem_rowPositions row q).1 hq.1.1
    have hlow := hl q hq2.2 hq2.1
    exact absurd hq.2 (hk q hq.1.1 (lt_of_le_of_ne hlow hq.1.2))
  refine ⟨y1, h1, h2, ?_, hother, ?_, ?_⟩
  · intro p hp hlt
    have hp2 := (m.mem_rowPositions row p).1 hp
    have hc := hr p hp2.2 hp2.1
    have hcast : (((m.col p).toNat : Nat) : Int) = m.col p := Int.toNat_of_nonneg hc.1
    have h := h3 (m.col p).toNat
    rw [hcast, MatrixGraph.noDiag_positions hw.begin_le_end ha hl] at h
    rw [Finset.sum_eq_single_of_mem p
      (by simp only [Finset.mem_filter]; exact ⟨⟨hp, ne_of_lt hlt⟩, trivial⟩)] at h
    · exact h
    · intro q hq hne
      rw [Finset.mem_filter, Finset.mem_filter] at hq
      exact absurd (ha.col_injective q p hq.1.1 hp hq.2) hne
  · have h := hother row.toNat (by
      intro p _ hlt
      rw [Int.toNat_of_nonneg hw.nonneg]
      exact ne_of_lt hlt)
    exact h
  · intro hempty
    have hbe : m.rowBegin row = m.rowEnd row := by
      have hle := hw.begin_le_end
      by_contra hne
      have hmem : m.rowBegin row ∈ m.rowPositions row := by
        rw [MatrixGraph.mem_rowPositions]
        omega
      rw [hempty] at hmem
      exact absurd hmem (Finset.not_mem_empty _)
    rw [AddRowTransToVectorNoDiag_empty m row hw el y hbe] at h1
    exact (Option.some.inj h1).symm

theorem AddRowTransToVectorNoDiag_spec_witness :
    tridiagLower.RowWF 1 ∧ tridiagLower.RowAscending 1 ∧ tridiagLower.RowLower 1
      ∧ tridiagLower.RowInRange 1 zeros3.length
      ∧ AddRowTransToVectorNoDiag tridiagLower 1 (scalarVec 1) zeros3
          = some [scalarVec (-1), scalarVec 0, scalarVec 0]
      ∧ ∃ y1, AddRowTransToVectorNoDiag tridiagLower 1 (scalarVec 1) zeros3 = some y1
        ∧ y1.length = zeros3.length
        ∧ (∀ p ∈ tridiagLower.rowPositions 1, tridiagLower.col p < 1 →
            vecAt y1 (tridiagLower.col p) = vecAt zeros3 (tridiagLower.col p)
              + Matrix.mulVec (Trans (tridiagLower.entry p)) (scalarVec 1))
        ∧ (∀ k : Nat,
            (∀ p ∈ tridiagLower.rowPositions 1, tridiagLower.col p < 1 →
              tridiagLower.col p ≠ (k : Int)) →
            y1.getD k 0 = zeros3.getD k 0)
        ∧ vecAt y1 1 = vecAt zeros3 1
        ∧ (tridiagLower.rowPositions 1 = ∅ → y1 = zeros3) :=
  ⟨⟨by decide, by decide, by decide, by decide, by decide⟩, by decide, by decide, by decide,
    by decide,
    AddRowTransToVectorNoDiag_spec tridiagLower 1
      ⟨by decide, by decide, by decide, by decide, by decide⟩ (by decide) (by decide)
      (scalarVec 1) zeros3 (by decide)⟩

theorem stored_zero_of_lower (m : SparseMatrixTM (Mat N N R)) (i j : Int)
    (hl : m.RowLower i) (hij : i < j) : m.stored i j = 0 := by
  apply m.stored_eq_zero
  intro p hp
  have hp2 := (m.mem_rowPositions i p).1 hp
  have := hl p hp2.2 hp2.1
  omega

/-- The two passes add up to the row of the full matrix. -/
theorem fullRow_eq (m : SparseMatrixTM (Mat N N R)) (hm : m.Valid) (hl : m.Lower)
    (hs : m.Symmetric) (x : List (Vec N R)) (k : Nat) (hk : (k : Int) < m.size) :
    ∑ p in Finset.Ico (m.rowBegin k) (m.noDiagEnd k),
        Matrix.mulVec (m.entry p) (vecAt x (m.col p))
      + m.mulTransRow k x = m.fullRow k x := by
  have hk0 : (0 : Int) ≤ k := Int.ofNat_nonneg k
  have hkn : k < m.size.toNat := by omega
  have hlk := hl.rowLower k hk0 hk
  have hr : m.RowInRange k m.size.toNat := by
    intro p hp1 hp2
    have h1 := (hm.graph.rowInRange k hk0 hk p hp1 hp2).1
    have h2 := hlk p hp1 hp2
    exact ⟨h1, by omega⟩
  rw [noDiag_sum_eq m k (hm.rowWF k hk0 hk) (hm.graph.rowAscending k hk0 hk) hlk x,
    m.row_sum_by_col k m.size.toNat hr x]
  unfold SparseMatrixTM.mulTransRow SparseMatrixTM.fullRow
  have hterm : ∀ j ∈ Finset.range m.size.toNat,
      Matrix.mulVec (m.full k j) (vecAt x j)
        = Matrix.mulVec (m.stored k j) (vecAt x j)
          + Matrix.mulVec (Trans (m.stored j k)) (vecAt x j)
          - (if j = k then Matrix.mulVec (m.stored k k) (vecAt x k) else 0) := by
    intro j hj
    rw [Finset.mem_range] at hj
    unfold SparseMatrixTM.full
    rcases Nat.lt_trichotomy j k with hlt | heq | hgt
    · have hz : m.stored (j : Int) (k : Int) = 0 :=
        stored_zero_of_lower m j k (hl.rowLower j (Int.ofNat_nonneg j) (by omega)) (by omega)
      rw [if_pos (by omega), if_neg (by omega), hz]
      simp
    · subst heq
      have hd := hs j hj j hj
      unfold SparseMatrixTM.full at hd
      rw [if_pos (le_refl _)] at hd
      rw [if_pos (le_refl _), if_pos rfl, hd]
      simp
    · have hz : m.stored (k : Int) (j : Int) = 0 :=
        stored_zero_of_lower m k j hlk (by omega)
      rw [if_neg (by omega), if_neg (by omega), hz]
      simp
  rw [Finset.sum_congr rfl hterm, Finset.sum_sub_distrib, Finset.sum_add_distrib,
    Finset.sum_ite_eq' (Finset.range m.size.toNat) k
      (fun _ => Matrix.mulVec (m.stored k k) (vecAt x k)),
    if_pos (Finset.mem_range.2 hkn)]
  abel

theorem mulTransRow_beyond (m : SparseMatrixTM (Mat N N R)) (hl : m.Lower)
    (x : List (Vec N R)) (k : Nat) (hk : m.size ≤ (k : Int)) : m.mulTransRow k x = 0 := by
  unfold SparseMatrixTM.mulTransRow
  apply Finset.sum_eq_zero
  intro i hi
  rw [Finset.mem_range] at hi
  rw [stored_zero_of_lower m i k (hl.rowLower i (Int.ofNat_nonneg i) (by omega)) (by omega)]
  simp

/-- For scalar entries the full matrix is always symmetric. -/
theorem symmetric_of_scalar (m : SparseMatrixTM (Mat 1 1 R)) : m.Symmetric := by
  intro i _ j _
  unfold SparseMatrixTM.full
  rcases Nat.lt_trichotomy i j with hlt | heq | hgt
  · rw [if_neg (by omega), if_pos (by omega)]
    rfl
  · subst heq
    rw [if_pos (le_refl _)]
    ext a b
    rw [Subsingleton.elim a 0, Subsingleton.elim b 0]
    rfl
  · rw [if_pos (by omega), if_neg (by omega)]

/-- C5: for a valid symmetric matrix stored as a lower triangle (every row `i` stores
strictly ascending columns `j ≤ i`, the full matrix `F` with `F[i,j] = stored(i,j)` for
`j ≤ i` and `F[i,j] = Trans(stored(j,i))` for `j > i` being symmetric), pass 1
(`y[i] += s * RowTimesVectorNoDiag (i, x)` for every row) followed by pass 2
(`AddRowTransToVector (i, s*x[i], y)` for every row) returns `y + s * F * x`. -/
theorem MultAdd_two_pass (m : SparseMatrixTM (Mat N N R)) (hm : m.Valid) (hl : m.Lower)
    (hs : m.Symmetric) (s : R) (x y : List (Vec N R)) (hx : m.size ≤ x.length)
    (hy : m.size ≤ y.length) :
    ∃ y0 y1, MultAdd1 m s x y = some y0 ∧ MultAdd2 m s x y0 = some y1
      ∧ MultAdd m s x y = some y1 ∧ y1.length = y.length
      ∧ (∀ k : Nat, (k : Int) < m.size → y1.getD k 0 = y.getD k 0 + s • m.fullRow k x)
      ∧ (∀ k : Nat, m.size ≤ (k : Int) → y1.getD k 0 = y.getD k 0) := by
  have hwf : ∀ i : Nat, (i : Int) < m.size → m.RowWF i :=
    fun i hi => hm.rowWF i (Int.ofNat_nonneg i) hi
  have hrng : ∀ (n : Nat), m.size ≤ (n : Int) → ∀ i : Nat, (i : Int) < m.size →
      m.RowInRange i n := by
    intro n hn i hi p hp1 hp2
    have h1 := (hm.graph.rowInRange i (Int.ofNat_nonneg i) hi p hp1 hp2).1
    have h2 := hl.rowLower i (Int.ofNat_nonneg i) hi p hp1 hp2
    exact ⟨h1, by omega⟩
  obtain ⟨y0, p1, p2, p3⟩ := update_loop (fun i : Nat => RowTimesVectorNoDiag m i x) _ s
    m.size.toNat y (by omega)
    (fun i hi => RowTimesVectorNoDiag_row m i (hwf i (by omega)) x
      (hrng x.length hx i (by omega)))
  obtain ⟨y1, q1, q2, q3⟩ := SparseMatrix.MultTransAdd_loop m s x y0 hx hwf
    (hrng y0.length (by omega))
  refine ⟨y0, y1, p1, q1, ?_, by omega, fun k hk => ?_, fun k hk => ?_⟩
  · unfold MultAdd
    rw [show MultAdd1 m s x y = some y0 from p1]
    exact q1
  · rw [q3 k, p3 k, if_pos (by omega), add_assoc, ← smul_add, fullRow_eq m hm hl hs x k hk]
  · rw [q3 k, p3 k, if_neg (by omega), mulTransRow_beyond m hl x k hk]
    simp

theorem MultAdd_two_pass_witness :
    tridiagLower.Valid ∧ tridiagLower.Lower ∧ tridiagLower.Symmetric
      ∧ tridiagLower.size ≤ ones3.length ∧ tridiagLower.size ≤ zeros3.length
      ∧ MultAdd tridiagLower 1 ones3 zeros3 = some [scalarVec 1, scalarVec 0, scalarVec 1]
      ∧ ∃ y0 y1, MultAdd1 tridiagLower 1 ones3 zeros3 = some y0
        ∧ MultAdd2 tridiagLower 1 ones3 y0 = some y1
        ∧ MultAdd tridiagLower 1 ones3 zeros3 = some y1 ∧ y1.length = zeros3.length
        ∧ (∀ k : Nat, (k : Int) < tridiagLower.size →
            y1.getD k 0 = zeros3.getD k 0 + (1 : Int) • tridiagLower.fullRow k ones3)
        ∧ (∀ k : Nat, tridiagLower.size ≤ (k : Int) → y1.getD k 0 = zeros3.getD k 0) :=
  ⟨⟨⟨by decide, by decide, by decide, by decide, by decide, by decide, by decide,
      by decide⟩, by decide⟩, by unfold MatrixGraph.Lower; decide,
    by unfold SparseMatrixTM.Symmetric; decide, by decide, by decide, by decide,
    MultAdd_two_pass tridiagLower
      ⟨⟨by decide, by decide, by decide, by decide, by decide, by decide, by decide,
        by decide⟩, by decide⟩ (by unfold MatrixGraph.Lower; decide)
      (by unfold SparseMatrixTM.Symmetric; decide) 1 ones3 zeros3 (by decide) (by decide)⟩

/-- C9: on a symmetric matrix `MultTransAdd (s, x, y)` returns exactly what
`MultAdd (s, x, y)` returns, for all arguments (also when an access fails). -/
theorem MultTransAdd_eq_MultAdd (m : SparseMatrixTM (Mat N N R)) (s : R)
    (x y : List (Vec N R)) : MultTransAdd m s x y = MultAdd m s x y := by
  unfold MultTransAdd
  rfl

end SparseMatrixSymmetric

/-! ## Element access -/

namespace MatrixGraph

theorem binarySearch_found (colnr : List Int) (j : Int) (fuel first last p : Nat)
    (h : binarySearch colnr j fuel first last = some p) :
    p = sizeMax ∨ colnr[p]? = some j := by
  induction fuel generalizing first last with
  | zero =>
    simp only [binarySearch, Option.some.injEq] at h
    exact Or.inl h.symm
  | succ fuel ih =>
    unfold binarySearch at h
    by_cases hlt : first < last
    · rw [if_pos hlt] at h
      cases hc : colnr[(first + last) / 2]? with
      | none =>
        rw [hc] at h
        simp at h
      | some c =>
        rw [hc, Option.some_bind] at h
        by_cases h1 : c = j
        · rw [if_pos h1, Option.some.injEq] at h
          right
          rw [← h, hc, h1]
        · rw [if_neg h1] at h
          by_cases h2 : c < j
          · rw [if_pos h2] at h
            exact ih _ _ h
          · rw [if_neg h2] at h
            exact ih _ _ h
    · rw [if_neg hlt, Option.some.injEq] at h
      exact Or.inl h.symm

end MatrixGraph

namespace SparseMatrixTM

variable {H W : Nat} {R : Type} [CommRing R]

/-- C10: whenever `GetPositionTest (row, col)` returns a position `p`, const element
access returns `data[p]` if `p` is not the sentinel (the maximum `size_t` value) and the
null block `nul` if it is; the null block of every constructed matrix is zero; and in a
valid matrix a returned position other than the sentinel is a position of the value
buffer whose column is `col`.  The access is `const`: the matrix is only read. -/
theorem atConst_spec (m : SparseMatrixTM (Mat H W R)) (row col : Int) (p : Nat)
    (hp : m.GetPositionTest row col = some p) :
    (p ≠ MatrixGraph.sizeMax → m.atConst row col = m.data[p]?)
      ∧ (p = MatrixGraph.sizeMax → m.atConst row col = some m.nul)
      ∧ (∀ (g : MatrixGraph) (init : Nat → Mat H W R), (construct g init).nul = 0)
      ∧ (m.Valid → p ≠ MatrixGraph.sizeMax →
          m.atConst row col = some (m.entry p) ∧ m.col p = col) := by
  have hacc : m.atConst row col
      = if p ≠ MatrixGraph.sizeMax then m.data[p]? else some m.nul := by
    unfold atConst
    rw [hp]
    rfl
  refine ⟨fun h => ?_, fun h => ?_, fun _ _ => rfl, fun hm h => ?_⟩
  · rw [hacc, if_pos h]
  · rw [hacc, if_neg (not_not.2 h)]
  · unfold MatrixGraph.GetPositionTest at hp
    cases hf : readInt m.firsti row with
    | none =>
      rw [hf] at hp
      simp at hp
    | some first =>
      cases hl : readInt m.firsti (row + 1) with
      | none =>
        rw [hf, hl] at hp
        simp at hp
      | some last =>
        rw [hf, hl] at hp
        simp only [Option.bind_eq_bind, Option.some_bind] at hp
        rcases MatrixGraph.binarySearch_found _ _ _ _ _ _ hp with hs | hc
        · exact absurd hs h
        · have hlen : p < m.colnr.length := by
            by_contra hge
            rw [List.getElem?_eq_none (by omega)] at hc
            simp at hc
          have hpn : p < m.nze := by
            rw [← hm.graph.colnr_length]
            exact hlen
          have hd : p < m.data.length := by
            rw [hm.data_length]
            exact hpn
          refine ⟨?_, ?_⟩
          · rw [hacc, if_pos h]
            unfold entry
            rw [List.getD_eq_getElem?_getD, List.getElem?_eq_getElem hd]
            rfl
          · unfold MatrixGraph.col
            rw [List.getD_eq_getElem?_getD, hc]
            rfl

theorem atConst_spec_witness :
    tridiag.GetPositionTest 1 2 = some 4
      ∧ tridiag.atConst 1 2 = some (scalarMat (-1))
      ∧ tridiag.GetPositionTest 0 2 = some MatrixGraph.sizeMax
      ∧ tridiag.atConst 0 2 = some 0 :=
  ⟨by decide,
    ((atConst_spec tridiag 1 2 4 (by decide)).1 (by decide)).trans (by decide),
    by decide, by decide⟩

end SparseMatrixTM

/-! ## Position lookup -/

namespace MatrixGraph

theorem getD_eq_of_getElem? (xs : List Int) (p : Nat) (c : Int) (h : xs[p]? = some c) :
    xs.getD p 0 = c := by
  rw [List.getD_eq_getElem?_getD, h]
  rfl

theorem getElem?_eq_getD (xs : List Int) (p : Nat) (h : p < xs.length) :
    xs[p]? = some (xs.getD p 0) := by
  rw [List.getD_eq_getElem?_getD, List.getElem?_eq_getElem h]
  rfl

/-- The binary search finds the position of a column of a strictly ascending slice, and
reports "not found" for a column the slice does not hold. -/
theorem binarySearch_eq (colnr : List Int) (j : Int) (fuel first last : Nat)
    (hlen : last ≤ colnr.length)
    (hasc : ∀ q, q < last → ∀ p, p < q → first ≤ p → colnr.getD p 0 < colnr.getD q 0)
    (hfuel : last - first ≤ fuel) :
    (∀ p, first ≤ p → p < last → colnr.getD p 0 = j →
        binarySearch colnr j fuel first last = some p)
      ∧ ((∀ p, first ≤ p → p < last → colnr.getD p 0 ≠ j) →
        binarySearch colnr j fuel first last = some sizeMax) := by
  induction fuel generalizing first last with
  | zero =>
    refine ⟨fun p hp1 hp2 _ => ?_, fun _ => rfl⟩
    omega
  | succ fuel ih =>
    by_cases hlt : first < last
    · have hmid1 : first ≤ (first + last) / 2 := by omega
      have hmid2 : (first + last) / 2 < last := by omega
      have hc := getElem?_eq_getD colnr ((first + last) / 2) (by omega)
      have hlow := ih first ((first + last) / 2) (by omega)
        (fun q hq p hpq hp => hasc q (by omega) p hpq hp) (by omega)
      have hhigh := ih ((first + last) / 2 + 1) last hlen
        (fun q hq p hpq hp => hasc q hq p hpq (by omega)) (by omega)
      unfold binarySearch
      rw [if_pos hlt, hc, Option.some_bind]
      by_cases h1 : colnr.getD ((first + last) / 2) 0 = j
      · rw [if_pos h1]
        refine ⟨fun p hp1 hp2 hp => ?_, fun habs => absurd h1 (habs _ hmid1 hmid2)⟩
        rcases Nat.lt_trichotomy p ((first + last) / 2) with h | h | h
        · have := hasc _ hmid2 p h hp1
          omega
        · rw [h]
        · have := hasc p hp2 _ h hmid1
          omega
      · rw [if_neg h1]
        by_cases h2 : colnr.getD ((first + last) / 2) 0 < j
        · rw [if_pos h2]
          refine ⟨fun p hp1 hp2 hp => hhigh.1 p ?_ hp2 hp,
            fun habs => hhigh.2 (fun p hp1 hp2 => habs p (by omega) hp2)⟩
          by_contra hle
          rcases Nat.eq_or_lt_of_le (show p ≤ (first + last) / 2 by omega) with h | h
          · rw [h] at hp
            exact h1 hp
          · have := hasc _ hmid2 p h hp1
            omega
        · rw [if_neg h2]
          refine ⟨fun p hp1 hp2 hp => hlow.1 p hp1 ?_ hp,
            fun habs => hlow.2 (fun p hp1 hp2 => habs p hp1 (by omega))⟩
          by_contra hge
          rcases Nat.eq_or_lt_of_le (show (first + last) / 2 ≤ p by omega) with h | h
          · rw [← h] at hp
            exact h1 hp
          · have := hasc p hp2 _ h hmid1
            omega
    · unfold binarySearch
      rw [if_neg hlt]
      refine ⟨fun p hp1 hp2 _ => ?_, fun _ => rfl⟩
      omega

theorem Valid.firsti_row {g : MatrixGraph} (hg : g.Valid) (i : Int) (h0 : 0 ≤ i)
    (h1 : i < g.size) : readInt g.firsti i = some (g.rowBegin i) :=
  readInt_eq_some _ _ _ h0 (by have := hg.firsti_length; omega)

theorem Valid.firsti_succ {g : MatrixGraph} (hg : g.Valid) (i : Int) (h0 : 0 ≤ i)
    (h1 : i < g.size) : readInt g.firsti (i + 1) = some (g.rowEnd i) :=
  readInt_eq_some _ _ _ (by omega) (by have := hg.firsti_length; omega)

theorem Valid.row_le {g : MatrixGraph} (hg : g.Valid) (i : Int) (h0 : 0 ≤ i)
    (h1 : i < g.size) : g.rowBegin i ≤ g.rowEnd i := by
  have h := hg.firsti_mono i.toNat (by omega)
  rwa [Int.toNat_of_nonneg h0] at h

theorem Valid.rowEnd_le_nze {g : MatrixGraph} (hg : g.Valid) (i : Int) (h0 : 0 ≤ i)
    (h1 : i < g.size) : g.rowEnd i ≤ g.nze :=
  hg.firsti_le_nze _ (by omega)

/-- A strictly ascending row with columns in `[0, n)` has at most `n` positions. -/
theorem row_length_le {g : MatrixGraph} {i : Int} {n : Int} (ha : g.RowAscending i)
    (hr : g.RowInRange i n) : ((g.rowEnd i - g.rowBegin i : Nat) : Int) ≤ max n 0 := by
  have hk : ∀ k : Nat, g.rowBegin i + k < g.rowEnd i → (k : Int) ≤ g.col (g.rowBegin i + k) := by
    intro k
    induction k with
    | zero =>
      intro h
      exact (hr _ h (by omega)).1
    | succ k ih =>
      intro h
      have h1 := ih (by omega)
      have h2 := ha (g.rowBegin i + (k + 1)) h (g.rowBegin i + k) (by omega) (by omega)
      push_cast
      omega
  by_cases hlt : g.rowBegin i < g.rowEnd i
  · have h1 := hk (g.rowEnd i - 1 - g.rowBegin i) (by omega)
    have h2 := (hr (g.rowBegin i + (g.rowEnd i - 1 - g.rowBegin i)) (by omega) (by omega)).2
    omega
  · have : g.rowEnd i - g.rowBegin i = 0 := by omega
    rw [this]
    exact le_max_right _ _

theorem sizeSub_eq (a b : Nat) (hba : b ≤ a) (ha : a ≤ sizeMax) : sizeSub a b = a - b := by
  unfold sizeSub
  unfold sizeMax at ha
  rw [Nat.mod_eq_of_lt (by omega : a < 2 ^ 64), Nat.mod_eq_of_lt (by omega : b < 2 ^ 64)]
  omega

theorem intOfSize_eq (n : Nat) (hn : (n : Int) < 2 ^ 31) : intOfSize n = (n : Int) := by
  unfold intOfSize
  have h : n < 2 ^ 31 := by omega
  rw [Nat.mod_eq_of_lt (by omega : n < 2 ^ 32), if_pos h]

theorem flatView_eq {α : Type} (xs : List α) (a b : Nat) (hab : a ≤ b) (hb : b ≤ xs.length) :
    flatView xs a ((b - a : Nat) : Int) = some ((xs.drop a).take (b - a)) := by
  unfold flatView
  rw [if_pos ⟨Int.ofNat_nonneg _, by rw [Int.toNat_ofNat]; omega⟩, Int.toNat_ofNat]

theorem getElem?_view {α : Type} (xs : List α) (a n k : Nat) (hk : k < n) :
    ((xs.drop a).take n)[k]? = xs[a + k]? := by
  rw [List.getElem?_take_of_lt hk, List.getElem?_drop]

/-- The row view: under the invariants and the type ranges `GetRowIndices (i)` is the
slice `colnr[firsti[i] .. firsti[i+1])`. -/
theorem GetRowIndices_eq {g : MatrixGraph} (hg : g.Valid) (hf : g.Fits) (i : Int)
    (h0 : 0 ≤ i) (h1 : i < g.size) :
    g.GetRowIndices i
      = some ((g.colnr.drop (g.rowBegin i)).take (g.rowEnd i - g.rowBegin i)) := by
  have hle := hg.row_le i h0 h1
  have hnze := hg.rowEnd_le_nze i h0 h1
  have hlen := row_length_le (hg.rowAscending i h0 h1) (hg.rowInRange i h0 h1)
  have hw := hf.width_lt
  unfold GetRowIndices
  simp only [hg.firsti_row i h0 h1, hg.firsti_succ i h0 h1, Option.bind_eq_bind,
    Option.some_bind]
  rw [sizeSub_eq _ _ hle (le_trans hnze hf.nze_le), intOfSize_eq _ (by omega)]
  exact flatView_eq _ _ _ hle (by rw [hg.colnr_length]; exact hnze)

theorem mem_row_view {g : MatrixGraph} (hg : g.Valid) (i : Int) (h0 : 0 ≤ i)
    (h1 : i < g.size) (j : Int) :
    j ∈ (g.colnr.drop (g.rowBegin i)).take (g.rowEnd i - g.rowBegin i) ↔ g.isStored i j := by
  have hle := hg.row_le i h0 h1
  have hnze := hg.rowEnd_le_nze i h0 h1
  have hcl := hg.colnr_length
  rw [List.mem_iff_getElem?]
  constructor
  · rintro ⟨k, hk⟩
    have hkn : k < g.rowEnd i - g.rowBegin i := by
      by_contra hge
      rw [List.getElem?_eq_none (by rw [List.length_take]; omega)] at hk
      simp at hk
    rw [getElem?_view _ _ _ _ hkn] at hk
    exact ⟨g.rowBegin i + k, by rw [mem_rowPositions]; omega, getD_eq_of_getElem? _ _ _ hk⟩
  · rintro ⟨p, hp, hc⟩
    rw [mem_rowPositions] at hp
    refine ⟨p - g.rowBegin i, ?_⟩
    rw [getElem?_view _ _ _ _ (by omega), show g.rowBegin i + (p - g.rowBegin i) = p by omega,
      getElem?_eq_getD _ _ (by omega)]
    exact congrArg some hc

/-- The search of `GetPositionTest` on a row of a valid graph. -/
theorem GetPositionTest_eq {g : MatrixGraph} (hg : g.Valid) (i : Int) (h0 : 0 ≤ i)
    (h1 : i < g.size) (j : Int) :
    (∀ p ∈ g.rowPositions i, g.col p = j → g.GetPositionTest i j = some p)
      ∧ (¬ g.isStored i j → g.GetPositionTest i j = some sizeMax) := by
  have hnze := hg.rowEnd_le_nze i h0 h1
  have hs := binarySearch_eq g.colnr j (g.rowEnd i - g.rowBegin i) (g.rowBegin i) (g.rowEnd i)
    (by rw [hg.colnr_length]; exact hnze) (hg.rowAscending i h0 h1) (le_refl _)
  unfold GetPositionTest
  simp only [hg.firsti_row i h0 h1, hg.firsti_succ i h0 h1, Option.bind_eq_bind,
    Option.some_bind]
  refine ⟨fun p hp hc => ?_, fun hns => ?_⟩
  · rw [mem_rowPositions] at hp
    exact hs.1 p hp.1 hp.2 hc
  · exact hs.2 (fun p hp1 hp2 hc => hns ⟨p, (g.mem_rowPositions i p).2 ⟨hp1, hp2⟩, hc⟩)

/-- `GetPosition` in terms of `GetPositionTest`: the same search, an exception in place
of the sentinel. -/
theorem GetPosition_of_test {g : MatrixGraph} (hg : g.Valid) (i : Int) (h0 : 0 ≤ i)
    (h1 : i < g.size) (j : Int) (p : Nat) (h : g.GetPositionTest i j = some p) :
    g.GetPosition i j
      = if p = sizeMax then Except.error Error.StructuralNotFound else Except.ok p := by
  unfold GetPositionTest at h
  simp only [hg.firsti_row i h0 h1, hg.firsti_succ i h0 h1, Option.bind_eq_bind,
    Option.some_bind] at h
  unfold GetPosition
  rw [hg.firsti_row i h0 h1, hg.firsti_succ i h0 h1]
  show (orOutOfRange
      (binarySearch g.colnr j (g.rowEnd i - g.rowBegin i) (g.rowBegin i) (g.rowEnd i))
    >>= fun p => if p = sizeMax then throw Error.StructuralNotFound else pure p) = _
  rw [h]
  rfl

theorem GetPosition_cases {g : MatrixGraph} (hg : g.Valid) (hf : g.Fits) (i : Int)
    (h0 : 0 ≤ i) (h1 : i < g.size) (j : Int) :
    (∀ p ∈ g.rowPositions i, g.col p = j → g.GetPosition i j = Except.ok p)
      ∧ (¬ g.isStored i j → g.GetPosition i j = Except.error Error.StructuralNotFound) := by
  have ht := GetPositionTest_eq hg i h0 h1 j
  refine ⟨fun p hp hc => ?_, fun hns => ?_⟩
  · rw [GetPosition_of_test hg i h0 h1 j p (ht.1 p hp hc), if_neg]
    rw [mem_rowPositions] at hp
    have := hg.rowEnd_le_nze i h0 h1
    have := hf.nze_le
    omega
  · rw [GetPosition_of_test hg i h0 h1 j sizeMax (ht.2 hns), if_pos rfl]

/-- C11: in a graph satisfying the CRS invariants (members within their C++ types), for
every row `i` in `[0, rows)` and every column `j`, `GetPosition (i, j)` succeeds if and
only if `j` appears in `GetRowIndices (i)`; a returned position `p` satisfies
`firsti[i] ≤ p < firsti[i+1]` and `colnr[p] = j`; when `j` is absent the call fails with
`StructuralNotFound` and returns no position. -/
theorem GetPosition_spec (g : MatrixGraph) (hg : g.Valid) (hf : g.Fits) (i j : Int)
    (h0 : 0 ≤ i) (h1 : i < g.size) :
    ∃ idx, g.GetRowIndices i = some idx
      ∧ ((∃ p, g.GetPosition i j = Except.ok p) ↔ j ∈ idx)
      ∧ (∀ p, g.GetPosition i j = Except.ok p →
          g.rowBegin i ≤ p ∧ p < g.rowEnd i ∧ g.colnr[p]? = some j)
      ∧ (j ∉ idx → g.GetPosition i j = Except.error Error.StructuralNotFound) := by
  have hc := GetPosition_cases hg hf i h0 h1 j
  have hcl := hg.colnr_length
  have hnze := hg.rowEnd_le_nze i h0 h1
  refine ⟨_, GetRowIndices_eq hg hf i h0 h1, ?_, ?_, ?_⟩
  · rw [mem_row_view hg i h0 h1 j]
    constructor
    · rintro ⟨p, hp⟩
      by_contra hns
      rw [hc.2 hns] at hp
      cases hp
    · rintro ⟨p, hp, hcol⟩
      exact ⟨p, hc.1 p hp hcol⟩
  · intro p hp
    by_cases hst : g.isStored i j
    · obtain ⟨q, hq, hcol⟩ := hst
      rw [hc.1 q hq hcol] at hp
      cases hp
      rw [mem_rowPositions] at hq
      refine ⟨hq.1, hq.2, ?_⟩
      rw [getElem?_eq_getD _ _ (by omega)]
      exact congrArg some hcol
    · rw [hc.2 hst] at hp
      cases hp
  · intro hni
    rw [mem_row_view hg i h0 h1 j] at hni
    exact hc.2 hni

theorem GetPosition_spec_witness :
    tridiag.toMatrixGraph.Valid ∧ tridiag.toMatrixGraph.Fits
      ∧ tridiag.GetRowIndices 1 = some [0, 1, 2]
      ∧ tridiag.GetPosition 1 2 = Except.ok 4
      ∧ tridiag.GetPosition 0 2 = Except.error Error.StructuralNotFound
      ∧ ∃ idx, tridiag.GetRowIndices 1 = some idx
        ∧ ((∃ p, tridiag.GetPosition 1 2 = Except.ok p) ↔ (2 : Int) ∈ idx)
        ∧ (∀ p, tridiag.GetPosition 1 2 = Except.ok p →
            tridiag.rowBegin 1 ≤ p ∧ p < tridiag.rowEnd 1 ∧ tridiag.colnr[p]? = some 2)
        ∧ ((2 : Int) ∉ idx →
            tridiag.GetPosition 1 2 = Except.error Error.StructuralNotFound) :=
  ⟨⟨by decide, by decide, by decide, by decide, by decide, by decide, by decide, by decide⟩,
    ⟨by decide, by decide⟩, by decide, rfl, rfl,
    GetPosition_spec tridiag.toMatrixGraph
      ⟨by decide, by decide, by decide, by decide, by decide, by decide, by decide, by decide⟩
      ⟨by decide, by decide⟩ 1 2 (by decide) (by decide)⟩

/-- C12: in a graph satisfying the CRS invariants (members within their C++ types), for
every row `i` in `[0, rows)` and every column `j`, `GetPositionTest (i, j)` returns a
value and never throws; when `j` is stored in row `i` it is the position `GetPosition`
returns, lying in the row and holding column `j`; when `j` is absent it is the sentinel,
the maximum `size_t` value, where `GetPosition` fails; the sentinel is not a position of
the graph. -/
theorem GetPositionTest_spec (g : MatrixGraph) (hg : g.Valid) (hf : g.Fits) (i j : Int)
    (h0 : 0 ≤ i) (h1 : i < g.size) :
    ∃ p, g.GetPositionTest i j = some p
      ∧ (g.isStored i j →
          g.GetPosition i j = Except.ok p ∧ p ∈ g.rowPositions i ∧ g.col p = j)
      ∧ (¬ g.isStored i j →
          p = sizeMax ∧ g.GetPosition i j = Except.error Error.StructuralNotFound)
      ∧ (∀ q, q < g.nze → q ≠ sizeMax) := by
  have ht := GetPositionTest_eq hg i h0 h1 j
  have hc := GetPosition_cases hg hf i h0 h1 j
  have hsent : ∀ q, q < g.nze → q ≠ sizeMax := by
    intro q hq
    have := hf.nze_le
    omega
  by_cases hst : g.isStored i j
  · obtain ⟨p, hp, hcol⟩ := hst
    exact ⟨p, ht.1 p hp hcol, fun _ => ⟨hc.1 p hp hcol, hp, hcol⟩,
      fun hns => absurd ⟨p, hp, hcol⟩ hns, hsent⟩
  · exact ⟨sizeMax, ht.2 hst, fun h => absurd h hst, fun _ => ⟨rfl, hc.2 hst⟩, hsent⟩

theorem GetPositionTest_spec_witness :
    tridiag.toMatrixGraph.Valid ∧ tridiag.toMatrixGraph.Fits
      ∧ tridiag.GetPositionTest 1 2 = some 4
      ∧ tridiag.GetPositionTest 0 2 = some sizeMax
      ∧ ∃ p, tridiag.GetPositionTest 0 2 = some p
        ∧ (tridiag.isStored 0 2 →
            tridiag.GetPosition 0 2 = Except.ok p ∧ p ∈ tridiag.rowPositions 0
              ∧ tridiag.col p = 2)
        ∧ (¬ tridiag.isStored 0 2 →
            p = sizeMax ∧ tridiag.GetPosition 0 2 = Except.error Error.StructuralNotFound)
        ∧ (∀ q, q < tridiag.nze → q ≠ sizeMax) :=
  ⟨⟨by decide, by decide, by decide, by decide, by decide, by decide, by decide, by decide⟩,
    ⟨by decide, by decide⟩, by decide, by decide,
    GetPositionTest_spec tridiag.toMatrixGraph
      ⟨by decide, by decide, by decide, by decide, by decide, by decide, by decide, by decide⟩
      ⟨by decide, by decide⟩ 0 2 (by decide) (by decide)⟩

end MatrixGraph

/-! ## Row views and bulk operations -/

namespace SparseMatrixTM

/-- C19: in a valid matrix (members within their C++ types), for every row `i` in
`[0, rows)`, `GetRowValues (i)` and `GetRowIndices (i)` both exist, have the same length
`firsti[i+1] - firsti[i]` and start at offset `First (i) = firsti[i]`: the `k`-th value is
`data[firsti[i] + k]` and the `k`-th index is `colnr[firsti[i] + k]`, both inside their
arrays. -/
theorem GetRowValues_aligned {TM : Type} (m : SparseMatrixTM TM) (hm : m.Valid)
    (hf : m.Fits) (i : Int) (h0 : 0 ≤ i) (h1 : i < m.size) :
    ∃ idx vals, m.GetRowIndices i = some idx ∧ m.GetRowValues i = some vals
      ∧ m.First i = some (m.rowBegin i)
      ∧ idx.length = m.rowEnd i - m.rowBegin i
      ∧ vals.length = m.rowEnd i - m.rowBegin i
      ∧ ∀ k, k < m.rowEnd i - m.rowBegin i →
          vals[k]? = m.data[m.rowBegin i + k]? ∧ idx[k]? = m.colnr[m.rowBegin i + k]?
            ∧ m.rowBegin i + k < m.data.length ∧ m.rowBegin i + k < m.colnr.length := by
  have hg := hm.graph
  have hle := hg.row_le i h0 h1
  have hnze := hg.rowEnd_le_nze i h0 h1
  have hcl := hg.colnr_length
  have hdl := hm.data_length
  have hvals : m.GetRowValues i
      = some ((m.data.drop (m.rowBegin i)).take (m.rowEnd i - m.rowBegin i)) := by
    unfold GetRowValues
    simp only [hg.firsti_row i h0 h1, hg.firsti_succ i h0 h1, Option.bind_eq_bind,
      Option.some_bind]
    rw [MatrixGraph.sizeSub_eq _ _ hle (le_trans hnze hf.nze_le)]
    exact MatrixGraph.flatView_eq _ _ _ hle (by omega)
  refine ⟨_, _, MatrixGraph.GetRowIndices_eq hg hf i h0 h1, hvals, hg.firsti_row i h0 h1,
    ?_, ?_, fun k hk => ⟨?_, ?_, by omega, by omega⟩⟩
  · rw [List.length_take, List.length_drop]
    omega
  · rw [List.length_take, List.length_drop]
    omega
  · exact MatrixGraph.getElem?_view _ _ _ _ hk
  · exact MatrixGraph.getElem?_view _ _ _ _ hk

theorem GetRowValues_aligned_witness :
    tridiag.Valid ∧ tridiag.Fits
      ∧ tridiag.GetRowIndices 1 = some [0, 1, 2]
      ∧ tridiag.GetRowValues 1 = some [scalarMat (-1), scalarMat 2, scalarMat (-1)]
      ∧ ∃ idx vals, tridiag.GetRowIndices 1 = some idx ∧ tridiag.GetRowValues 1 = some vals
        ∧ tridiag.First 1 = some (tridiag.rowBegin 1)
        ∧ idx.length = tridiag.rowEnd 1 - tridiag.rowBegin 1
        ∧ vals.length = tridiag.rowEnd 1 - tridiag.rowBegin 1
        ∧ ∀ k, k < tridiag.rowEnd 1 - tridiag.rowBegin 1 →
            vals[k]? = tridiag.data[tridiag.rowBegin 1 + k]?
              ∧ idx[k]? = tridiag.colnr[tridiag.rowBegin 1 + k]?
              ∧ tridiag.rowBegin 1 + k < tridiag.data.length
              ∧ tridiag.rowBegin 1 + k < tridiag.colnr.length :=
  ⟨⟨⟨by decide, by decide, by decide, by decide, by decide, by decide, by decide,
      by decide⟩, by decide⟩, ⟨by decide, by decide⟩, by decide, by decide,
    GetRowValues_aligned tridiag
      ⟨⟨by decide, by decide, by decide, by decide, by decide, by decide, by decide,
        by decide⟩, by decide⟩ ⟨by decide, by decide⟩ 1 (by decide) (by decide)⟩

theorem AsVector_eq {TM : Type} (m : SparseMatrixTM TM) (hd : m.data.length = m.nze) :
    m.AsVector = some m.data := by
  unfold AsVector flatView
  rw [if_pos ⟨Int.ofNat_nonneg _, by rw [Int.toNat_ofNat]; omega⟩, Int.toNat_ofNat,
    List.drop_zero, ← hd, List.take_length]

theorem assignAsVector_data {TM : Type} (m : SparseMatrixTM TM) (v : List TM)
    (hd : m.data.length = m.nze) : (m.assignAsVector v).data = v := by
  unfold assignAsVector
  show v ++ m.data.drop m.nze = v
  rw [List.drop_of_length_le (by omega), List.append_nil]

theorem atConst_eq {TM : Type} (m : SparseMatrixTM TM) (i j : Int) (p : Nat)
    (h : m.toMatrixGraph.GetPositionTest i j = some p) :
    m.atConst i j = if p ≠ MatrixGraph.sizeMax then m.data[p]? else some m.nul := by
  unfold atConst
  rw [h]
  rfl

/-- C18: for two valid matrices `A`, `B` over the same graph (the null block of `B` being
zero) and every scalar `s`, `A.Add (s, B)` returns a matrix `A1` with the graph and null
block of `A` in which every stored value is `data_A[p] + s * data_B[p]`; hence for every
row `i` in `[0, rows)` and every column `j`, const element access gives
`A1(i,j) = A(i,j) + s * B(i,j)`, absent positions reading as the null block.  `B` is a
read-only argument. -/
theorem Add_spec {H W : Nat} {R : Type} [CommRing R] (A B : SparseMatrixTM (Mat H W R))
    (hA : A.Valid) (hB : B.Valid) (hg : A.toMatrixGraph = B.toMatrixGraph)
    (hnul : B.nul = 0) (s : R) :
    ∃ A1, A.Add s B = some A1 ∧ A1.toMatrixGraph = A.toMatrixGraph ∧ A1.nul = A.nul
      ∧ (∀ p, p < A.nze → A1.entry p = A.entry p + s • B.entry p)
      ∧ (∀ i j : Int, 0 ≤ i → i < A.size →
          ∃ a b, A.atConst i j = some a ∧ B.atConst i j = some b
            ∧ A1.atConst i j = some (a + s • b)) := by
  have hnze : A.nze = B.nze := congrArg MatrixGraph.nze hg
  have hdA := hA.data_length
  have hdB := hB.data_length
  have hadd : A.Add s B
      = some (A.assignAsVector (List.zipWith (fun a b => a + s • b) A.data B.data)) := by
    unfold Add
    rw [AsVector_eq A hdA, AsVector_eq B hdB]
    simp only [Option.bind_eq_bind, Option.some_bind]
    rw [if_pos (by omega)]
    rfl
  have hdata := assignAsVector_data A (List.zipWith (fun a b => a + s • b) A.data B.data) hdA
  have hget : ∀ p, p < A.nze →
      (A.assignAsVector (List.zipWith (fun a b => a + s • b) A.data B.data)).data[p]?
        = some (A.entry p + s • B.entry p) := by
    intro p hp
    rw [hdata, List.getElem?_zipWith, List.getElem?_eq_getElem (by omega : p < A.data.length),
      List.getElem?_eq_getElem (by omega : p < B.data.length)]
    unfold entry
    rw [List.getD_eq_getElem?_getD, List.getD_eq_getElem?_getD,
      List.getElem?_eq_getElem (by omega : p < A.data.length),
      List.getElem?_eq_getElem (by omega : p < B.data.length)]
    rfl
  refine ⟨_, hadd, rfl, rfl, fun p hp => ?_, fun i j h0 h1 => ?_⟩
  · unfold entry
    rw [List.getD_eq_getElem?_getD, hget p hp]
    rfl
  · have ht := MatrixGraph.GetPositionTest_eq hA.graph i h0 h1 j
    have hex : ∃ p, A.toMatrixGraph.GetPositionTest i j = some p
        ∧ (p ≠ MatrixGraph.sizeMax → p < A.nze) := by
      by_cases hst : A.isStored i j
      · obtain ⟨p, hp, hc⟩ := hst
        refine ⟨p, ht.1 p hp hc, fun _ => ?_⟩
        rw [MatrixGraph.mem_rowPositions] at hp
        have := hA.graph.rowEnd_le_nze i h0 h1
        omega
      · exact ⟨_, ht.2 hst, fun h => absurd rfl h⟩
    obtain ⟨p, hp, hpn⟩ := hex
    have hpB : B.toMatrixGraph.GetPositionTest i j = some p := by
      rw [← hg]
      exact hp
    rw [atConst_eq A i j p hp, atConst_eq B i j p hpB,
      atConst_eq (A.assignAsVector _) i j p hp]
    by_cases hs : p = MatrixGraph.sizeMax
    · rw [if_neg (not_not.2 hs), if_neg (not_not.2 hs), if_neg (not_not.2 hs)]
      refine ⟨A.nul, B.nul, rfl, rfl, ?_⟩
      rw [hnul, smul_zero, add_zero]
      rfl
    · have hlt := hpn hs
      rw [if_pos hs, if_pos hs, if_pos hs, hget p hlt]
      refine ⟨A.entry p, B.entry p, ?_, ?_, rfl⟩
      · unfold entry
        rw [List.getD_eq_getElem?_getD, List.getElem?_eq_getElem (by omega : p < A.data.length)]
        rfl
      · unfold entry
        rw [List.getD_eq_getElem?_getD, List.getElem?_eq_getElem (by omega : p < B.data.length)]
        rfl

theorem Add_spec_witness :
    tridiag.Valid ∧ tridiag.toMatrixGraph = tridiag.toMatrixGraph ∧ tridiag.nul = 0
      ∧ (tridiag.Add 2 tridiag).map (fun m => m.data)
          = some [scalarMat 6, scalarMat (-3), scalarMat (-3), scalarMat 6, scalarMat (-3),
              scalarMat (-3), scalarMat 6]
      ∧ ∃ A1, tridiag.Add 2 tridiag = some A1 ∧ A1.toMatrixGraph = tridiag.toMatrixGraph
        ∧ A1.nul = tridiag.nul
        ∧ (∀ p, p < tridiag.nze → A1.entry p = tridiag.entry p + (2 : Int) • tridiag.entry p)
        ∧ (∀ i j : Int, 0 ≤ i → i < tridiag.size →
            ∃ a b, tridiag.atConst i j = some a ∧ tridiag.atConst i j = some b
              ∧ A1.atConst i j = some (a + (2 : Int) • b)) :=
  ⟨⟨⟨by decide, by decide, by decide, by decide, by decide, by decide, by decide,
      by decide⟩, by decide⟩, rfl, rfl, by decide,
    Add_spec tridiag tridiag
      ⟨⟨by decide, by decide, by decide, by decide, by decide, by decide, by decide,
        by decide⟩, by decide⟩
      ⟨⟨by decide, by decide, by decide, by decide, by decide, by decide, by decide,
        by decide⟩, by decide⟩ rfl rfl 2⟩

end SparseMatrixTM

namespace SparseMatrixSymmetric

theorem CreateMatrix_eq {N : Nat} {R : Type} [CommRing R] (m : SparseMatrixTM (Mat N N R))
    (hd : m.data.length = m.nze) (init : Nat → Mat N N R) :
    CreateMatrix m init
      = some { toMatrixGraph := m.toMatrixGraph, data := m.data, nul := 0 } := by
  have hfresh : (SparseMatrixTM.construct m.toMatrixGraph.copyOf init).data.length
      = (SparseMatrixTM.construct m.toMatrixGraph.copyOf init).nze := by
    show ((List.range m.nze).map init).length = m.nze
    rw [List.length_map, List.length_range]
  have hbase : SparseMatrixTM.copyConstruct m init
      = some { toMatrixGraph := m.toMatrixGraph, data := m.data, nul := 0 } := by
    unfold SparseMatrixTM.copyConstruct
    simp only [SparseMatrixTM.AsVector_eq _ hfresh, SparseMatrixTM.AsVector_eq m hd,
      Option.bind_eq_bind, Option.some_bind]
    rw [if_pos (by
      show ((List.range m.nze).map init).length = m.data.length
      rw [List.length_map, List.length_range, hd])]
    have h := SparseMatrixTM.assignAsVector_data _ m.data hfresh
    unfold SparseMatrixTM.assignAsVector at h ⊢
    simp only at h
    simp only [Option.pure_def, Option.some.injEq]
    rw [h]
    rfl
  unfold CreateMatrix copyConstruct
  rw [hbase]
  simp only [Option.bind_eq_bind, Option.some_bind]
  rw [SparseMatrixTM.AsVector_eq
      ({ toMatrixGraph := m.toMatrixGraph, data := m.data, nul := 0 } :
        SparseMatrixTM (Mat N N R)) hd,
    SparseMatrixTM.AsVector_eq m hd]
  simp only [Option.bind_eq_bind, Option.some_bind, if_true]
  unfold SparseMatrixTM.assignAsVector
  simp only [Option.pure_def, Option.some.injEq]
  rw [List.drop_of_length_le (by omega), List.append_nil]

/-- C16 (as the code behaves): for every symmetric matrix `M` whose value buffer has
length `nze`, `CreateMatrix ()` returns a matrix with the graph of `M` (hence the same
shape and storage scheme), the same stored values as `M`, copied by the copy
constructor, and a zero null block, whatever the fresh buffer contained. -/
theorem CreateMatrix_copies {N : Nat} {R : Type} [CommRing R] (m : SparseMatrixTM (Mat N N R))
    (hd : m.data.length = m.nze) (init : Nat → Mat N N R) :
    ∃ m1, CreateMatrix m init = some m1 ∧ m1.toMatrixGraph = m.toMatrixGraph
      ∧ m1.size = m.size ∧ m1.width = m.width ∧ m1.data = m.data ∧ m1.nul = 0 :=
  ⟨_, CreateMatrix_eq m hd init, rfl, rfl, rfl, rfl, rfl⟩

theorem CreateMatrix_copies_witness :
    tridiagLower.data.length = tridiagLower.nze
      ∧ ∃ m1, CreateMatrix tridiagLower (fun _ => 0) = some m1
        ∧ m1.toMatrixGraph = tridiagLower.toMatrixGraph
        ∧ m1.size = tridiagLower.size ∧ m1.width = tridiagLower.width
        ∧ m1.data = tridiagLower.data ∧ m1.nul = 0 :=
  ⟨by decide, CreateMatrix_copies tridiagLower (by decide) (fun _ => 0)⟩

/-- Counterexample to C16 as stated: the matrix that `CreateMatrix ()` returns for the
lower-storage tridiagonal matrix holds the value 2 at position 0, not zero. -/
theorem CreateMatrix_not_zero :
    ¬ (∀ m1, CreateMatrix tridiagLower (fun _ => 0) = some m1 →
        ∀ p, p < m1.nze → m1.entry p = 0) := by
  intro h
  have h0 := h tridiagLower rfl 0 (by decide)
  revert h0
  decide

end SparseMatrixSymmetric

/-! ## Element-matrix assembly -/

namespace SparseMatrixTM

variable {H W : Nat} {R : Type} [CommRing R]

theorem positionOf_eq (g : MatrixGraph) (i j : Int) (p : Nat)
    (h : g.GetPosition i j = Except.ok p) : g.positionOf i j = p := by
  unfold MatrixGraph.positionOf
  rw [h]

theorem addAt_spec (m : SparseMatrixTM (Mat H W R)) (p : Nat) (blk : Mat H W R)
    (hp : p < m.data.length) :
    ∃ m1, m.addAt p blk = Except.ok m1 ∧ m1.toMatrixGraph = m.toMatrixGraph
      ∧ m1.nul = m.nul ∧ m1.data.length = m.data.length
      ∧ ∀ q, m1.entry q = m.entry q + if p = q then blk else 0 := by
  refine ⟨{ m with data := m.data.set p (m.entry p + blk) }, ?_, rfl, rfl, by simp, fun q => ?_⟩
  · unfold addAt
    rw [List.getElem?_eq_getElem hp]
    unfold entry
    rw [List.getD_eq_getElem?_getD, List.getElem?_eq_getElem hp]
    rfl
  · show (m.data.set p (m.entry p + blk)).getD q 0 = m.data.getD q 0 + _
    rw [getD_set _ _ _ _ _ hp]
    by_cases hpq : p = q
    · rw [if_pos hpq, if_pos hpq, ← hpq]
      rfl
    · rw [if_neg hpq, if_neg hpq, add_zero]

theorem addRowBlocks_spec (elmat : Nat → Nat → R) (row : Int) (a : Nat) (g : MatrixGraph)
    (hg : g.Valid) (hf : g.Fits) (h0 : 0 ≤ row) (h1 : row < g.size) (cs : List Int)
    (hcs : ∀ c ∈ cs, g.isStored row c) (b : Nat) (m : SparseMatrixTM (Mat H W R))
    (hmg : m.toMatrixGraph = g) (hd : m.data.length = g.nze) :
    ∃ m1, addRowBlocks elmat row a cs b m = Except.ok m1 ∧ m1.toMatrixGraph = g
      ∧ m1.nul = m.nul ∧ m1.data.length = g.nze
      ∧ ∀ q, m1.entry q = m.entry q
          + ∑ k in Finset.range cs.length,
              if g.positionOf row (cs.getD k 0) = q then subBlock elmat a (b + k) else 0 := by
  induction cs generalizing b m with
  | nil => exact ⟨m, rfl, hmg, rfl, hd, fun q => by simp⟩
  | cons c cs ih =>
    obtain ⟨p, hp, hc⟩ := hcs c (List.mem_cons_self _ _)
    have hpos := (MatrixGraph.GetPosition_cases hg hf row h0 h1 c).1 p hp hc
    have hpn : p < m.data.length := by
      rw [MatrixGraph.mem_rowPositions] at hp
      have := hg.rowEnd_le_nze row h0 h1
      omega
    obtain ⟨m1, hm1, hg1, hn1, hl1, he1⟩ := m.addAt_spec p (subBlock elmat a b) hpn
    obtain ⟨m2, hm2, hg2, hn2, hl2, he2⟩ := ih (fun c hc => hcs c (List.mem_cons_of_mem _ hc))
      (b + 1) m1 (hg1.trans hmg) (hl1.trans hd)
    refine ⟨m2, ?_, hg2, hn2.trans hn1, hl2, fun q => ?_⟩
    · rw [addRowBlocks]
      show (MatrixGraph.GetPosition m.toMatrixGraph row c >>= fun p =>
        m.addAt p (subBlock elmat a b) >>= fun m1 =>
          addRowBlocks elmat row a cs (b + 1) m1) = _
      rw [hmg, hpos]
      show (m.addAt p (subBlock elmat a b) >>= fun m1 =>
          addRowBlocks elmat row a cs (b + 1) m1) = _
      rw [hm1]
      exact hm2
    · rw [he2 q, he1 q, List.length_cons, Finset.sum_range_succ', add_assoc]
      congr 1
      rw [add_comm]
      congr 1
      · apply Finset.sum_congr rfl
        intro k _
        rw [List.getD_cons_succ, show b + (k + 1) = b + 1 + k by omega]
      · rw [List.getD_cons_zero, positionOf_eq g row c p hpos, Nat.add_zero]

theorem addBlocks_spec (elmat : Nat → Nat → R) (g : MatrixGraph) (hg : g.Valid)
    (hf : g.Fits) (dnums2 rs : List Int)
    (hpos : ∀ r ∈ rs, 0 ≤ r ∧ r < g.size ∧ ∀ c ∈ dnums2, g.isStored r c) (a : Nat)
    (m : SparseMatrixTM (Mat H W R)) (hmg : m.toMatrixGraph = g)
    (hd : m.data.length = g.nze) :
    ∃ m1, addBlocks elmat dnums2 rs a m = Except.ok m1 ∧ m1.toMatrixGraph = g
      ∧ m1.nul = m.nul ∧ m1.data.length = g.nze
      ∧ ∀ q, m1.entry q = m.entry q
          + ∑ i in Finset.range rs.length, ∑ k in Finset.range dnums2.length,
              if g.positionOf (rs.getD i 0) (dnums2.getD k 0) = q
                then subBlock elmat (a + i) k else 0 := by
  induction rs generalizing a m with
  | nil => exact ⟨m, rfl, hmg, rfl, hd, fun q => by simp⟩
  | cons r rs ih =>
    obtain ⟨h0, h1, hcs⟩ := hpos r (List.mem_cons_self _ _)
    obtain ⟨m1, hm1, hg1, hn1, hl1, he1⟩ :=
      addRowBlocks_spec elmat r a g hg hf h0 h1 dnums2 hcs 0 m hmg hd
    obtain ⟨m2, hm2, hg2, hn2, hl2, he2⟩ := ih (fun r hr => hpos r (List.mem_cons_of_mem _ hr))
      (a + 1) m1 hg1 hl1
    refine ⟨m2, ?_, hg2, hn2.trans hn1, hl2, fun q => ?_⟩
    · rw [addBlocks]
      show (addRowBlocks elmat r a dnums2 0 m >>= fun m1 =>
        addBlocks elmat dnums2 rs (a + 1) m1) = _
      rw [hm1]
      exact hm2
    · rw [he2 q, he1 q, List.length_cons, Finset.sum_range_succ', add_assoc]
      congr 1
      rw [add_comm]
      congr 1
      · apply Finset.sum_congr rfl
        intro i _
        apply Finset.sum_congr rfl
        intro k _
        rw [List.getD_cons_succ, show a + (i + 1) = a + 1 + i by omega]
      · apply Finset.sum_congr rfl
        intro k _
        rw [List.getD_cons_zero, Nat.add_zero, Nat.zero_add]

theorem list_eq_of_getD {M : Type} [Zero M] (l1 l2 : List M) (hlen : l1.length = l2.length)
    (h : ∀ q, l1.getD q 0 = l2.getD q 0) : l1 = l2 := by
  apply List.ext_getElem?
  intro q
  by_cases hq : q < l1.length
  · have h1 := h q
    rw [List.getD_eq_getElem?_getD, List.getD_eq_getElem?_getD, List.getElem?_eq_getElem hq,
      List.getElem?_eq_getElem (by omega : q < l2.length)] at h1
    rw [List.getElem?_eq_getElem hq, List.getElem?_eq_getElem (by omega : q < l2.length)]
    exact congrArg some h1
  · rw [List.getElem?_eq_none (by omega), List.getElem?_eq_none (by omega)]

theorem eq_of_parts {TM : Type} (a b : SparseMatrixTM TM)
    (hg : a.toMatrixGraph = b.toMatrixGraph) (hd : a.data = b.data) (hn : a.nul = b.nul) :
    a = b := by
  cases a
  cases b
  simp_all

theorem subBlock_add (B1 B2 : Nat → Nat → R) (a b : Nat) :
    (subBlock (B1 + B2) a b : Mat H W R) = subBlock B1 a b + subBlock B2 a b := rfl

/-- C15: in a valid matrix (members within their C++ types) whose graph contains every
position `(r, c)` with `r` in `dnums1` (rows of the matrix) and `c` in `dnums2`, the
non-atomic `AddElementMatrix (dnums1, dnums2, B1)` followed by
`AddElementMatrix (dnums1, dnums2, B2)` succeeds and leaves exactly the matrix that the
single call `AddElementMatrix (dnums1, dnums2, B1 + B2)` leaves.  A call keeps the
graph and adds to the value at position `q` the sub-blocks `(a, b)` of the local matrix
for the pairs with `(dnums1[a], dnums2[b])` stored at `q`; a value at which no pair is
stored is unchanged. -/
theorem AddElementMatrix_additive (m : SparseMatrixTM (Mat H W R)) (hm : m.Valid)
    (hf : m.Fits) (dnums1 dnums2 : List Int)
    (hpos : ∀ r ∈ dnums1, 0 ≤ r ∧ r < m.size ∧ ∀ c ∈ dnums2, m.isStored r c)
    (B1 B2 : Nat → Nat → R) :
    ∃ m1 m2 m12, m.AddElementMatrix dnums1 dnums2 B1 = Except.ok m1
      ∧ m1.AddElementMatrix dnums1 dnums2 B2 = Except.ok m2
      ∧ m.AddElementMatrix dnums1 dnums2 (B1 + B2) = Except.ok m12
      ∧ m2 = m12
      ∧ m1.toMatrixGraph = m.toMatrixGraph ∧ m1.nul = m.nul
      ∧ ∀ q, m1.entry q = m.entry q
          + ∑ a in Finset.range dnums1.length, ∑ b in Finset.range dnums2.length,
              if m.positionOf (dnums1.getD a 0) (dnums2.getD b 0) = q
                then subBlock B1 a b else 0 := by
  obtain ⟨m1, hm1, hg1, hn1, hl1, he1⟩ := addBlocks_spec B1 m.toMatrixGraph hm.graph hf
    dnums2 dnums1 hpos 0 m rfl hm.data_length
  obtain ⟨m2, hm2, hg2, hn2, hl2, he2⟩ := addBlocks_spec B2 m.toMatrixGraph hm.graph hf
    dnums2 dnums1 hpos 0 m1 hg1 hl1
  obtain ⟨m12, hm12, hg12, hn12, hl12, he12⟩ := addBlocks_spec (B1 + B2) m.toMatrixGraph
    hm.graph hf dnums2 dnums1 hpos 0 m rfl hm.data_length
  refine ⟨m1, m2, m12, hm1, hm2, hm12, ?_, hg1, hn1, fun q => ?_⟩
  · apply eq_of_parts _ _ (hg2.trans hg12.symm) _ ((hn2.trans hn1).trans hn12.symm)
    apply list_eq_of_getD _ _ (hl2.trans hl12.symm)
    intro q
    show m2.entry q = m12.entry q
    rw [he2 q, he1 q, he12 q, add_assoc, ← Finset.sum_add_distrib]
    congr 1
    apply Finset.sum_congr rfl
    intro a _
    rw [← Finset.sum_add_distrib]
    apply Finset.sum_congr rfl
    intro b _
    rw [subBlock_add]
    by_cases hq : m.positionOf (dnums1.getD a 0) (dnums2.getD b 0) = q
    · rw [if_pos hq, if_pos hq, if_pos hq]
    · rw [if_neg hq, if_neg hq, if_neg hq, add_zero]
  · rw [he1 q]
    congr 1
    apply Finset.sum_congr rfl
    intro a _
    rw [Nat.zero_add]

theorem AddElementMatrix_additive_witness :
    tridiag.Valid ∧ tridiag.Fits
      ∧ (∀ r ∈ [(0 : Int), 1], 0 ≤ r ∧ r < tridiag.size
          ∧ ∀ c ∈ [(0 : Int), 1], tridiag.isStored r c)
      ∧ (tridiag.AddElementMatrix [0, 1] [0, 1] (elmatOne + elmatTwo)).toOption.map
            (fun m => m.data)
          = some [scalarMat 5, scalarMat 2, scalarMat 2, scalarMat 5, scalarMat (-1),
              scalarMat (-1), scalarMat 2]
      ∧ ∃ m1 m2 m12, tridiag.AddElementMatrix [0, 1] [0, 1] elmatOne = Except.ok m1
        ∧ m1.AddElementMatrix [0, 1] [0, 1] elmatTwo = Except.ok m2
        ∧ tridiag.AddElementMatrix [0, 1] [0, 1] (elmatOne + elmatTwo) = Except.ok m12
        ∧ m2 = m12
        ∧ m1.toMatrixGraph = tridiag.toMatrixGraph ∧ m1.nul = tridiag.nul
        ∧ ∀ q, m1.entry q = tridiag.entry q
            + ∑ a in Finset.range [(0 : Int), 1].length,
                ∑ b in Finset.range [(0 : Int), 1].length,
                  if tridiag.positionOf ([(0 : Int), 1].getD a 0) ([(0 : Int), 1].getD b 0) = q
                    then subBlock elmatOne a b else 0 :=
  ⟨⟨⟨by decide, by decide, by decide, by decide, by decide, by decide, by decide,
      by decide⟩, by decide⟩, ⟨by decide, by decide⟩, by decide, by decide,
    AddElementMatrix_additive tridiag
      ⟨⟨by decide, by decide, by decide, by decide, by decide, by decide, by decide,
        by decide⟩, by decide⟩ ⟨by decide, by decide⟩ [0, 1] [0, 1] (by decide)
      elmatOne elmatTwo⟩

end SparseMatrixTM

/-! ## Insertion of a position -/

namespace MatrixGraph

theorem getD_shiftInsert (colnr : List Int) (k e : Nat) (j : Int) (hk : k < colnr.length)
    (he : e < colnr.length) (q : Nat) :
    (shiftInsert colnr k e j).getD q 0
      = if q = k then j
        else if k < q ∧ q ≤ e then colnr.getD (q - 1) 0 else colnr.getD q 0 := by
  unfold shiftInsert
  by_cases hq : q < colnr.length
  · rw [List.getD_eq_getElem?_getD, List.getElem?_map, List.getElem?_range hq]
    rfl
  · rw [List.getD_eq_getElem?_getD, List.getElem?_eq_none
      (by rw [List.length_map, List.length_range]; omega)]
    rw [if_neg (by omega), if_neg (by omega), List.getD_eq_getElem?_getD,
      List.getElem?_eq_none (by omega)]

theorem length_shiftInsert (colnr : List Int) (k e : Nat) (j : Int) :
    (shiftInsert colnr k e j).length = colnr.length := by
  unfold shiftInsert
  rw [List.length_map, List.length_range]

/-- The scan of `CreatePosition` on a packed row (used slots `[rb, u)`, capacity up to
`last`), started at a cursor `k` below which every used column is smaller than `j`. -/
theorem createScan_spec (g : MatrixGraph) (j : Int) (rb u last : Nat)
    (hu : u ≤ last) (hlen : last ≤ g.colnr.length)
    (hnn : ∀ p, p < u → rb ≤ p → 0 ≤ g.col p)
    (hasc : ∀ q, q < u → ∀ p, p < q → rb ≤ p → g.col p < g.col q)
    (hfree : ∀ p, p < last → u ≤ p → g.col p = unusedCol)
    (n k : Nat) (hnk : k + n = last) (hk1 : rb ≤ k) (hk2 : k ≤ u)
    (hinv : ∀ p, p < k → rb ≤ p → g.col p < j) :
    (∀ p, p < u → rb ≤ p → g.col p = j → createScan g j last n k = Except.ok (p, g))
      ∧ ((∀ p, p < u → rb ≤ p → g.col p ≠ j) → u < last →
        ∃ p g1, createScan g j last n k = Except.ok (p, g1) ∧ k ≤ p ∧ p ≤ u
          ∧ (∀ q, q < p → rb ≤ q → g.col q < j) ∧ (∀ q, q < u → p ≤ q → j < g.col q)
          ∧ g1.firsti = g.firsti ∧ g1.size = g.size ∧ g1.width = g.width ∧ g1.nze = g.nze
          ∧ g1.colnr.length = g.colnr.length
          ∧ ∀ q, g1.col q
              = if q = p then j else if p < q ∧ q ≤ u then g.col (q - 1) else g.col q)
      ∧ ((∀ p, p < u → rb ≤ p → g.col p ≠ j) → u = last →
        createScan g j last n k = Except.error Error.CapacityExceeded) := by
  have hun : unusedCol = -1 := rfl
  induction n generalizing k with
  | zero =>
    refine ⟨fun p hp1 hp2 hpc => ?_, fun _ hul => ?_, fun _ _ => rfl⟩
    · have := hinv p (by omega) hp2
      omega
    · omega
  | succ n ih =>
    have hklt : k < last := by omega
    have hc := getElem?_eq_getD g.colnr k (by omega)
    have hstep : createScan g j last (n + 1) k
        = if g.col k = unusedCol then Except.ok (k, { g with colnr := g.colnr.set k j })
          else if g.col k = j then Except.ok (k, g)
          else if j < g.col k then
            (orOutOfRange g.colnr[last - 1]? >>= fun e =>
              if e = unusedCol then
                pure (k, { g with colnr := shiftInsert g.colnr k (last - 1) j })
              else throw Error.CapacityExceeded)
          else createScan g j last n (k + 1) := by
      rw [createScan, hc]
      rfl
    rw [hstep]
    by_cases hku : k = u
    · have hcu : g.col k = unusedCol := hfree k hklt (by omega)
      rw [if_pos hcu]
      refine ⟨fun p hp1 hp2 hpc => ?_, fun _ _ => ?_, fun _ hul => ?_⟩
      · have := hinv p (by omega) hp2
        omega
      · refine ⟨k, { g with colnr := g.colnr.set k j }, rfl, le_refl _, by omega, hinv,
          fun q hq1 hq2 => by omega, rfl, rfl, rfl, rfl, by simp, fun q => ?_⟩
        show (g.colnr.set k j).getD q 0 = _
        rw [getD_set _ _ _ _ _ (by omega)]
        by_cases hqk : q = k
        · rw [if_pos hqk.symm, if_pos hqk]
        · rw [if_neg (Ne.symm hqk), if_neg hqk, if_neg (by omega)]
          rfl
      · omega
    · have hkltu : k < u := by omega
      have hcnn := hnn k hkltu hk1
      have hne : ¬ g.col k = unusedCol := by omega
      rw [if_neg hne]
      by_cases hcj : g.col k = j
      · rw [if_pos hcj]
        refine ⟨fun p hp1 hp2 hpc => ?_, fun hns _ => absurd hcj (hns k hkltu hk1),
          fun hns _ => absurd hcj (hns k hkltu hk1)⟩
        rcases Nat.lt_trichotomy p k with h | h | h
        · have := hinv p h hp2
          omega
        · rw [h]
        · have := hasc p hp1 k h hk1
          omega
      · rw [if_neg hcj]
        by_cases hjc : j < g.col k
        · rw [if_pos hjc]
          have habs : ∀ p, p < u → rb ≤ p → g.col p ≠ j := by
            intro p hp1 hp2 hpc
            rcases Nat.lt_trichotomy p k with h | h | h
            · have := hinv p h hp2
              omega
            · rw [h] at hpc
              exact hcj hpc
            · have := hasc p hp1 k h hk1
              omega
          have he := getElem?_eq_getD g.colnr (last - 1) (by omega)
          refine ⟨fun p hp1 hp2 hpc => absurd hpc (habs p hp1 hp2), fun _ hul => ?_,
            fun _ hul => ?_⟩
          · have hel : g.col (last - 1) = unusedCol := hfree (last - 1) (by omega) (by omega)
            have hres : (orOutOfRange g.colnr[last - 1]? >>= fun e =>
                if e = unusedCol then
                  pure (k, { g with colnr := shiftInsert g.colnr k (last - 1) j })
                else throw Error.CapacityExceeded)
                = Except.ok (k, { g with colnr := shiftInsert g.colnr k (last - 1) j }) := by
              rw [he]
              show (if g.col (last - 1) = unusedCol then _ else _) = _
              rw [if_pos hel]
              rfl
            refine ⟨k, _, hres, le_refl _, by omega, hinv, fun q hq1 hq2 => ?_, rfl, rfl, rfl,
              rfl, length_shiftInsert _ _ _ _, fun q => ?_⟩
            · rcases Nat.eq_or_lt_of_le hq2 with h | h
              · rw [← h]
                exact hjc
              · have := hasc q hq1 k h hk1
                omega
            · show (shiftInsert g.colnr k (last - 1) j).getD q 0 = _
              rw [getD_shiftInsert _ _ _ _ (by omega) (by omega)]
              by_cases hqk : q = k
              · rw [if_pos hqk, if_pos hqk]
              · rw [if_neg hqk, if_neg hqk]
                by_cases h1 : k < q ∧ q ≤ u
                · rw [if_pos h1, if_pos ⟨h1.1, by omega⟩]
                  rfl
                · rw [if_neg h1]
                  by_cases h2 : k < q ∧ q ≤ last - 1
                  · rw [if_pos h2]
                    have ha := hfree (q - 1) (by omega) (by omega)
                    have hb := hfree q (by omega) (by omega)
                    show g.col (q - 1) = g.col q
                    rw [ha, hb]
                  · rw [if_neg h2]
                    rfl
          · have hel : ¬ g.col (last - 1) = unusedCol := by
              have := hnn (last - 1) (by omega) (by omega)
              omega
            rw [he]
            show (if g.col (last - 1) = unusedCol then _ else _) = _
            rw [if_neg hel]
            rfl
        · rw [if_neg hjc]
          have hrec := ih (k + 1) (by omega) (by omega) (by omega) (by
            intro p hp1 hp2
            rcases Nat.eq_or_lt_of_le (show p ≤ k by omega) with h | h
            · rw [h]
              omega
            · exact hinv p h hp2)
          refine ⟨hrec.1, fun hns hul => ?_, hrec.2.2⟩
          obtain ⟨p, g1, h1, h2, rest⟩ := hrec.2.1 hns hul
          exact ⟨p, g1, h1, by omega, rest⟩

theorem rowBegin_congr {g g1 : MatrixGraph} (h : g1.firsti = g.firsti) (i : Int) :
    g1.rowBegin i = g.rowBegin i := by
  unfold rowBegin
  rw [h]

theorem rowEnd_congr {g g1 : MatrixGraph} (h : g1.firsti = g.firsti) (i : Int) :
    g1.rowEnd i = g.rowEnd i := by
  unfold rowEnd
  rw [h]

/-- C14: for a row `i` in assembly state (used slots `[firsti[i], u)` holding strictly
ascending columns, the slots from `u` to `firsti[i+1]` preallocated and unused) and a
column `j ≥ 0`: if `j` is stored in the row, `CreatePosition (i, j)` returns its position
and the graph unchanged; if `j` is absent and a slot is free, it returns a position `p`
and a graph with `colnr[p] = j` in which the row is in assembly state with one more used
slot, its used columns being the former ones and `j`, while `firsti`, the sizes and the
columns of every other row are unchanged; if `j` is absent and no slot is free, it fails
with `CapacityExceeded` and returns no graph. -/
theorem CreatePosition_spec (g : MatrixGraph) (i j : Int) (u : Nat) (hp : g.RowPacked i u)
    (hj : 0 ≤ j) :
    (∀ p, p < u → g.rowBegin i ≤ p → g.col p = j →
        g.CreatePosition i j = Except.ok (p, g))
      ∧ ((∀ p, p < u → g.rowBegin i ≤ p → g.col p ≠ j) → u < g.rowEnd i →
        ∃ p g1, g.CreatePosition i j = Except.ok (p, g1)
          ∧ g.rowBegin i ≤ p ∧ p ≤ u ∧ g1.col p = j
          ∧ g1.RowPacked i (u + 1)
          ∧ g1.firsti = g.firsti ∧ g1.size = g.size ∧ g1.width = g.width ∧ g1.nze = g.nze
          ∧ g1.colnr.length = g.colnr.length
          ∧ (∀ q, q < g.rowBegin i ∨ g.rowEnd i ≤ q → g1.col q = g.col q)
          ∧ (∀ c, (∃ q, g.rowBegin i ≤ q ∧ q < u + 1 ∧ g1.col q = c)
              ↔ (c = j ∨ ∃ q, g.rowBegin i ≤ q ∧ q < u ∧ g.col q = c)))
      ∧ ((∀ p, p < u → g.rowBegin i ≤ p → g.col p ≠ j) → u = g.rowEnd i →
        g.CreatePosition i j = Except.error Error.CapacityExceeded) := by
  have hfirst : readInt g.firsti i = some (g.rowBegin i) :=
    readInt_eq_some _ _ _ hp.nonneg (by have := hp.lt_length; have := hp.nonneg; omega)
  have hlast : readInt g.firsti (i + 1) = some (g.rowEnd i) :=
    readInt_eq_some _ _ _ (by have := hp.nonneg; omega) hp.lt_length
  have hcp : g.CreatePosition i j
      = createScan g j (g.rowEnd i) (g.rowEnd i - g.rowBegin i) (g.rowBegin i) := by
    unfold CreatePosition
    rw [hfirst, hlast]
    rfl
  have hle := le_trans hp.begin_le hp.le_end
  have hs := createScan_spec g j (g.rowBegin i) u (g.rowEnd i) hp.le_end hp.end_le_colnr
    hp.used_nonneg hp.used_ascending hp.free (g.rowEnd i - g.rowBegin i) (g.rowBegin i)
    (by omega) (le_refl _) hp.begin_le (fun p hp1 hp2 => by omega)
  rw [hcp]
  refine ⟨hs.1, fun hns hul => ?_, hs.2.2⟩
  obtain ⟨p, g1, hres, hp1, hp2, hlow, hhigh, hf, hsz, hwd, hnz, hcl, hcol⟩ := hs.2.1 hns hul
  have hrb := rowBegin_congr hf i
  have hre := rowEnd_congr hf i
  have hun : unusedCol = -1 := rfl
  refine ⟨p, g1, hres, hp1, hp2, ?_, ?_, hf, hsz, hwd, hnz, hcl, fun q hq => ?_, fun c => ?_⟩
  · rw [hcol p, if_pos rfl]
  · refine ⟨hp.nonneg, by rw [hf]; exact hp.lt_length, by rw [hre, hcl]; exact hp.end_le_colnr,
      by rw [hrb]; omega, by rw [hre]; omega, fun q hq1 hq2 => ?_, fun q hq1 q0 hq2 hq3 => ?_,
      fun q hq1 hq2 => ?_⟩
    · rw [hrb] at hq2
      rw [hcol q]
      by_cases h1 : q = p
      · rw [if_pos h1]
        exact hj
      · rw [if_neg h1]
        by_cases h2 : p < q ∧ q ≤ u
        · rw [if_pos h2]
          exact hp.used_nonneg (q - 1) (by omega) (by omega)
        · rw [if_neg h2]
          exact hp.used_nonneg q (by omega) hq2
    · rw [hrb] at hq3
      rw [hcol q, hcol q0]
      by_cases h1 : q = p
      · rw [if_pos h1, if_neg (by omega), if_neg (by omega)]
        exact hlow q0 (by omega) hq3
      · rw [if_neg h1]
        by_cases h2 : p < q ∧ q ≤ u
        · rw [if_pos h2]
          by_cases h3 : q0 = p
          · rw [if_pos h3]
            exact hhigh (q - 1) (by omega) (by omega)
          · rw [if_neg h3]
            by_cases h4 : p < q0 ∧ q0 ≤ u
            · rw [if_pos h4]
              exact hp.used_ascending (q - 1) (by omega) (q0 - 1) (by omega) (by omega)
            · rw [if_neg h4]
              have ha := hlow q0 (by omega) hq3
              have hb := hhigh (q - 1) (by omega) (by omega)
              omega
        · rw [if_neg h2, if_neg (by omega), if_neg (by omega)]
          exact hp.used_ascending q (by omega) q0 hq2 hq3
    · rw [hre] at hq1
      rw [hcol q, if_neg (by omega), if_neg (by omega)]
      exact hp.free q hq1 (by omega)
  · rw [hcol q, if_neg (by omega), if_neg (by omega)]
  · constructor
    · rintro ⟨q, hq1, hq2, hq3⟩
      rw [hcol q] at hq3
      by_cases h1 : q = p
      · rw [if_pos h1] at hq3
        exact Or.inl hq3.symm
      · rw [if_neg h1] at hq3
        by_cases h2 : p < q ∧ q ≤ u
        · rw [if_pos h2] at hq3
          exact Or.inr ⟨q - 1, by omega, by omega, hq3⟩
        · rw [if_neg h2] at hq3
          exact Or.inr ⟨q, hq1, by omega, hq3⟩
    · rintro (hc | ⟨q, hq1, hq2, hq3⟩)
      · exact ⟨p, hp1, by omega, by rw [hcol p, if_pos rfl, hc]⟩
      · by_cases h1 : q < p
        · refine ⟨q, hq1, by omega, ?_⟩
          rw [hcol q, if_neg (by omega), if_neg (by omega)]
          exact hq3
        · refine ⟨q + 1, by omega, by omega, ?_⟩
          rw [hcol (q + 1), if_neg (by omega), if_pos ⟨by omega, by omega⟩]
          exact hq3

theorem CreatePosition_spec_witness :
    assembling.RowPacked 0 2
      ∧ assembling.CreatePosition 0 2 = Except.ok (1, assembling)
      ∧ assembling.CreatePosition 0 1 = Except.ok (1, assembled)
      ∧ assembled.RowPacked 0 3
      ∧ assembled.CreatePosition 0 3 = Except.error Error.CapacityExceeded :=
  ⟨⟨by decide, by decide, by decide, by decide, by decide, by decide, by decide, by decide⟩,
    (CreatePosition_spec assembling 0 2 2
      ⟨by decide, by decide, by decide, by decide, by decide, by decide, by decide, by decide⟩
      (by decide)).1 1 (by decide) (by decide) (by decide),
    rfl,
    ⟨by decide, by decide, by decide, by decide, by decide, by decide, by decide, by decide⟩,
    rfl⟩

end MatrixGraph

/-! ## Factory hooks and configuration hints -/

namespace BaseSparseMatrix

variable {INVERSETYPE TM : Type}

/-- C17: on the base class each of `CreateJacobiPrecond`, `CreateBlockJacobiPrecond`,
`InverseMatrix (subset)`, `InverseMatrix (clusters)` and `Restrict` throws for every
argument and every matrix; no object is returned.  The methods are `const`: the matrix is
only an argument. -/
theorem factory_hooks_throw
    {BitArray Table BaseVector Prolongation JacobiPrecond BlockJacobiPrecond BaseMatrix : Type}
    (b : BaseSparseMatrix INVERSETYPE TM) :
    (∀ inner : Option BitArray,
        (CreateJacobiPrecond b inner : Except Error JacobiPrecond)
          = Except.error Error.UnimplementedOperation)
      ∧ (∀ (blocks : Option Table) (constraint : Option BaseVector) (parallel : Bool)
          (freedofs : Option BitArray),
        (CreateBlockJacobiPrecond b blocks constraint parallel freedofs :
            Except Error BlockJacobiPrecond)
          = Except.error Error.UnimplementedOperation)
      ∧ (∀ subset : Option BitArray,
        (InverseMatrix b subset : Except Error BaseMatrix)
          = Except.error Error.UnimplementedOperation)
      ∧ (∀ clusters : Option (List Int),
        (InverseMatrixClusters b clusters : Except Error BaseMatrix)
          = Except.error Error.UnimplementedOperation)
      ∧ (∀ (prol : Prolongation) (cmat : Option (BaseSparseMatrix INVERSETYPE TM)),
        Restrict b prol cmat = Except.error Error.UnimplementedOperation) :=
  ⟨fun _ => rfl, fun _ _ _ _ => rfl, fun _ => rfl, fun _ => rfl, fun _ _ => rfl⟩

/-- C20: `SetInverseType (t)` returns the tag stored before the call; afterwards
`GetInverseType ()` returns `t`, and the graph, the value buffer and the SPD flag are as
before.  `SetSPD (b)` makes `IsSPD ()` return `b` (`true` when the argument is omitted)
and leaves the graph, the value buffer and the inverse type as before; on a new matrix
the flag is `false` and the inverse type is the default. -/
theorem config_hints_spec (b : BaseSparseMatrix INVERSETYPE TM) (t : INVERSETYPE)
    (aspd : Bool) (default_inversetype : INVERSETYPE) (m : SparseMatrixTM TM) :
    (b.SetInverseType t).1 = b.GetInverseType
      ∧ (b.SetInverseType t).2.GetInverseType = t
      ∧ (b.SetInverseType t).2.toSparseMatrixTM = b.toSparseMatrixTM
      ∧ (b.SetInverseType t).2.IsSPD = b.IsSPD
      ∧ (b.SetSPD aspd).IsSPD = aspd
      ∧ b.SetSPD.IsSPD = true
      ∧ (b.SetSPD aspd).toSparseMatrixTM = b.toSparseMatrixTM
      ∧ (b.SetSPD aspd).GetInverseType = b.GetInverseType
      ∧ (init default_inversetype m).IsSPD = false
      ∧ (init default_inversetype m).GetInverseType = default_inversetype
      ∧ (init default_inversetype m).toSparseMatrixTM = m :=
  ⟨rfl, rfl, rfl, rfl, rfl, rfl, rfl, rfl, rfl, rfl, rfl⟩

end BaseSparseMatrix

/-! ## Access bounds without ordered columns -/

namespace MatrixGraph

theorem Offsets.le {g : MatrixGraph} (ho : g.Offsets) (i j : Nat) (hij : i ≤ j)
    (hj : j ≤ g.size.toNat) : g.firsti.getD i 0 ≤ g.firsti.getD j 0 := by
  induction j with
  | zero =>
    have : i = 0 := by omega
    subst this
    exact le_refl _
  | succ j ih =>
    rcases Nat.eq_or_lt_of_le hij with h | h
    · rw [h]
    · have hstep := ho.firsti_mono j (by omega)
      rw [rowBegin_natCast, rowEnd_natCast] at hstep
      exact le_trans (ih (by omega) (by omega)) hstep

theorem Offsets.last_getD {g : MatrixGraph} (ho : g.Offsets) :
    g.firsti.getD g.size.toNat 0 = g.nze := by
  rw [List.getD_eq_getElem?_getD, ho.firsti_last]
  rfl

theorem Offsets.zero_getD {g : MatrixGraph} (ho : g.Offsets) : g.firsti.getD 0 0 = 0 := by
  rw [List.getD_eq_getElem?_getD, ho.firsti_zero]
  rfl

theorem Offsets.size_lt_length {g : MatrixGraph} (ho : g.Offsets) :
    g.size.toNat < g.firsti.length := by
  by_contra h
  have := ho.firsti_last
  rw [List.getElem?_eq_none (by omega)] at this
  exact Option.noConfusion this

theorem Offsets.le_nze {g : MatrixGraph} (ho : g.Offsets) (i : Nat)
    (hi : i ≤ g.size.toNat) : g.firsti.getD i 0 ≤ g.nze := by
  have h := ho.le i g.size.toNat hi (le_refl _)
  rwa [ho.last_getD] at h

/-- The full graph invariants contain the offset invariants. -/
theorem Valid.offsets {g : MatrixGraph} (hg : g.Valid) : g.Offsets :=
  ⟨hg.firsti_zero, hg.firsti_last, hg.firsti_mono⟩

end MatrixGraph

namespace SparseMatrixTM

/-- A valid matrix satisfies the access bounds. -/
theorem Valid.bounded {TM : Type} {m : SparseMatrixTM TM} (hm : m.Valid) : m.Bounded :=
  ⟨hm.graph.offsets, hm.graph.colnr_length, hm.data_length, hm.graph.col_range⟩

theorem Bounded.row_wf {TM : Type} {m : SparseMatrixTM TM} (hm : m.Bounded) (row : Int)
    (h0 : 0 ≤ row) (h1 : row < m.size) : m.RowWF row := by
  have hlen := hm.offsets.size_lt_length
  have hmono := hm.offsets.firsti_mono row.toNat (by omega)
  rw [Int.toNat_of_nonneg h0] at hmono
  have hend : m.rowEnd row ≤ m.nze := hm.offsets.le_nze _ (by omega)
  refine ⟨h0, by omega, hmono, ?_, ?_⟩
  · rw [hm.colnr_length]
    exact hend
  · rw [hm.data_length]
    exact hend

theorem Bounded.row_in_range {TM : Type} {m : SparseMatrixTM TM} (hm : m.Bounded) (row : Int)
    (h0 : 0 ≤ row) (h1 : row < m.size) (n : Nat) (hn : m.width ≤ (n : Int)) :
    m.RowInRange row n := by
  have h := hm.col_range row.toNat (by omega)
  rw [Int.toNat_of_nonneg h0] at h
  exact h.mono hn

end SparseMatrixTM

namespace SparseMatrixSymmetric

theorem RowTimesVectorNoDiag_empty {N : Nat} {R : Type} [CommRing R]
    (m : SparseMatrixTM (Mat N N R)) (row : Int) (hw : m.RowWF row) (x : List (Vec N R))
    (hr : m.RowInRange row x.length) (h : m.rowBegin row = m.rowEnd row) :
    RowTimesVectorNoDiag m row x = some 0 := by
  rw [RowTimesVectorNoDiag_row m row hw x hr]
  have : m.noDiagEnd row = m.rowBegin row := by
    unfold MatrixGraph.noDiagEnd
    rw [if_pos h.symm, h]
  rw [this, Finset.Ico_self, Finset.sum_empty]

end SparseMatrixSymmetric

/-- Claim C21 (memory safety of the row primitives).  Under the graph invariants without
any ordering of the columns (`firsti[0] = 0`, `firsti` non-decreasing,
`firsti[rows] = nze = length of colnr = length of data`, every stored column in
`[0, cols)`), for every row in `[0, rows)` and all vectors of length at least `cols`,
the four row primitives return a result: in the embedding, where every access to
`firsti`, `colnr`, `data` and the vector is checked, the out-of-range branch is never
taken.  `RowTimesVector` and `AddRowTransToVector` are taken on a matrix `m` with
`H × W` blocks, the `NoDiag` pair on a matrix `ms` with square blocks.  On an empty row
the `NoDiag` primitives return before `colnr[last-1]` is read. -/
theorem row_primitives_in_range {H W N : Nat} {R : Type} [CommRing R]
    (m : SparseMatrixTM (Mat H W R)) (hm : m.Bounded) (row : Int) (h0 : 0 ≤ row)
    (h1 : row < m.size) (x : List (Vec W R)) (hx : m.width ≤ (x.length : Int))
    (el : Vec H R) (y : List (Vec W R)) (hy : m.width ≤ (y.length : Int))
    (ms : SparseMatrixTM (Mat N N R)) (hms : ms.Bounded) (rows : Int) (k0 : 0 ≤ rows)
    (k1 : rows < ms.size) (xs : List (Vec N R)) (hxs : ms.width ≤ (xs.length : Int))
    (els : Vec N R) (ys : List (Vec N R)) (hys : ms.width ≤ (ys.length : Int)) :
    (∃ r, SparseMatrix.RowTimesVector m row x = some r)
    ∧ (∃ y1, SparseMatrix.AddRowTransToVector m row el y = some y1 ∧ y1.length = y.length)
    ∧ (∃ r, SparseMatrixSymmetric.RowTimesVectorNoDiag ms rows xs = some r)
    ∧ (∃ y1, SparseMatrixSymmetric.AddRowTransToVectorNoDiag ms rows els ys = some y1
        ∧ y1.length = ys.length)
    ∧ (ms.rowBegin rows = ms.rowEnd rows →
        SparseMatrixSymmetric.RowTimesVectorNoDiag ms rows xs = some 0
        ∧ SparseMatrixSymmetric.AddRowTransToVectorNoDiag ms rows els ys = some ys) := by
  have hw := hm.row_wf row h0 h1
  have hws := hms.row_wf rows k0 k1
  have hrx := hm.row_in_range row h0 h1 x.length hx
  have hry := hm.row_in_range row h0 h1 y.length hy
  have hrxs := hms.row_in_range rows k0 k1 xs.length hxs
  have hrys := hms.row_in_range rows k0 k1 ys.length hys
  refine ⟨⟨_, SparseMatrix.RowTimesVector_row m row hw x hrx⟩, ?_,
    ⟨_, SparseMatrixSymmetric.RowTimesVectorNoDiag_row ms rows hws xs hrxs⟩, ?_, ?_⟩
  · obtain ⟨y1, h, hl, _⟩ := SparseMatrix.AddRowTransToVector_row m row hw el y hry
    exact ⟨y1, h, hl⟩
  · obtain ⟨y1, h, hl, _⟩ :=
      SparseMatrixSymmetric.AddRowTransToVectorNoDiag_row ms rows hws els ys hrys
    exact ⟨y1, h, hl⟩
  · intro he
    exact ⟨SparseMatrixSymmetric.RowTimesVectorNoDiag_empty ms rows hws xs hrxs he,
      SparseMatrixSymmetric.AddRowTransToVectorNoDiag_empty ms rows hws els ys he⟩

theorem row_primitives_in_range_witness :
    unordered.Bounded ∧ tridiagLower.Bounded
    ∧ (∃ r, SparseMatrix.RowTimesVector unordered 1 ones3 = some r)
    ∧ (∃ y1, SparseMatrix.AddRowTransToVector unordered 1 (scalarVec 2) zeros3 = some y1
        ∧ y1.length = zeros3.length)
    ∧ (∃ r, SparseMatrixSymmetric.RowTimesVectorNoDiag tridiagLower 2 ones3 = some r)
    ∧ (∃ y1, SparseMatrixSymmetric.AddRowTransToVectorNoDiag tridiagLower 2 (scalarVec 2)
          zeros3 = some y1 ∧ y1.length = zeros3.length)
    ∧ (tridiagLower.rowBegin 2 = tridiagLower.rowEnd 2 →
        SparseMatrixSymmetric.RowTimesVectorNoDiag tridiagLower 2 ones3 = some 0
        ∧ SparseMatrixSymmetric.AddRowTransToVectorNoDiag tridiagLower 2 (scalarVec 2)
            zeros3 = some zeros3) :=
  ⟨⟨⟨by decide, by decide, by decide⟩, by decide, by decide, by decide⟩,
    ⟨⟨by decide, by decide, by decide⟩, by decide, by decide, by decide⟩,
    row_primitives_in_range unordered
      ⟨⟨by decide, by decide, by decide⟩, by decide, by decide, by decide⟩ 1 (by decide)
      (by decide) ones3 (by decide) (scalarVec 2) zeros3 (by decide) tridiagLower
      ⟨⟨by decide, by decide, by decide⟩, by decide, by decide, by decide⟩ 2 (by decide)
      (by decide) ones3 (by decide) (scalarVec 2) zeros3 (by decide)⟩

/-! ## The `NoDiag` primitives on rows that reach above the diagonal -/

namespace MatrixGraph

/-- In a strictly ascending row that stores a column above the row index, the last
stored column is not the diagonal, so the `NoDiag` loops run over the whole row. -/
theorem noDiagEnd_of_upper {g : MatrixGraph} {row : Int} (ha : g.RowAscending row)
    (hu : ∃ j, row < j ∧ g.isStored row j) : g.noDiagEnd row = g.rowEnd row := by
  obtain ⟨j, hj, p, hp, hc⟩ := hu
  rw [mem_rowPositions] at hp
  have hlast : row < g.col (g.rowEnd row - 1) := by
    rcases Nat.eq_or_lt_of_le (Nat.le_sub_one_of_lt hp.2) with h | h
    · rw [← h, hc]
      exact hj
    · have := ha (g.rowEnd row - 1) (by omega) p h hp.1
      omega
  unfold noDiagEnd
  rw [if_neg (by omega), if_neg (by omega)]

end MatrixGraph

namespace SparseMatrixSymmetric

variable {N : Nat} {R : Type} [CommRing R]

/-- Claim C22 (the diagonal is skipped only as the last stored column).  For a row whose
stored columns are strictly ascending but not restricted to the lower triangle: if the
row stores the diagonal column and also a column greater than the row index, the
diagonal position lies inside the range of the `NoDiag` loops,
`RowTimesVectorNoDiag (row, x)` equals `RowTimesVector (row, x)`, the sum over all stored
positions of the row including the diagonal term, and `AddRowTransToVectorNoDiag` equals
`AddRowTransToVector` and adds `Trans(A[row,row]) * el` to `y[row]`. -/
theorem NoDiag_keeps_inner_diagonal (m : SparseMatrixTM (Mat N N R)) (row : Int)
    (hw : m.RowWF row) (ha : m.RowAscending row) (x : List (Vec N R))
    (hrx : m.RowInRange row x.length) (el : Vec N R) (y : List (Vec N R))
    (hry : m.RowInRange row y.length) (hd : m.isStored row row)
    (hu : ∃ j, row < j ∧ m.isStored row j) :
    (∃ pd ∈ Finset.Ico (m.rowBegin row) (m.noDiagEnd row),
        m.col pd = row ∧ m.stored row row = m.entry pd)
    ∧ RowTimesVectorNoDiag m row x = SparseMatrix.RowTimesVector m row x
    ∧ RowTimesVectorNoDiag m row x
        = some (∑ p in m.rowPositions row, Matrix.mulVec (m.entry p) (vecAt x (m.col p)))
    ∧ AddRowTransToVectorNoDiag m row el y = SparseMatrix.AddRowTransToVector m row el y
    ∧ ∃ y1, AddRowTransToVectorNoDiag m row el y = some y1
        ∧ vecAt y1 row = vecAt y row + Matrix.mulVec (Trans (m.stored row row)) el := by
  have hend := MatrixGraph.noDiagEnd_of_upper ha hu
  have hfull := SparseMatrix.RowTimesVector_row m row hw x hrx
  have hnd := RowTimesVectorNoDiag_row m row hw x hrx
  rw [hend] at hnd
  obtain ⟨y1, h1, hl1, hv1⟩ := AddRowTransToVectorNoDiag_row m row hw el y hry
  obtain ⟨y2, h2, hl2, hv2⟩ := SparseMatrix.AddRowTransToVector_row m row hw el y hry
  rw [hend] at hv1
  have hy : y1 = y2 := by
    apply SparseMatrixTM.list_eq_of_getD _ _ (by rw [hl1, hl2])
    intro q
    rw [hv1 q, hv2 q]
    rfl
  refine ⟨?_, ?_, ?_, ?_, y1, h1, ?_⟩
  · obtain ⟨pd, hpd, hc⟩ := hd
    refine ⟨pd, ?_, hc, ?_⟩
    · rw [hend]
      exact hpd
    · have hst := SparseMatrixTM.stored_eq_entry m row ha pd hpd
      rw [hc] at hst
      exact hst
  · rw [hnd, hfull]
    rfl
  · rw [hnd]
    rfl
  · rw [h1, h2, hy]
  · have hk := hv1 row.toNat
    rw [Int.toNat_of_nonneg hw.nonneg] at hk
    unfold vecAt
    rw [hk, SparseMatrixTM.trans_stored_mulVec]
    rfl

theorem NoDiag_keeps_inner_diagonal_witness :
    tridiag.isStored 1 1 ∧ tridiag.isStored 1 2
    ∧ (∃ pd ∈ Finset.Ico (tridiag.rowBegin 1) (tridiag.noDiagEnd 1),
        tridiag.col pd = 1 ∧ tridiag.stored 1 1 = tridiag.entry pd)
    ∧ RowTimesVectorNoDiag tridiag 1 ramp3 = SparseMatrix.RowTimesVector tridiag 1 ramp3
    ∧ RowTimesVectorNoDiag tridiag 1 ramp3
        = some (∑ p in tridiag.rowPositions 1,
            Matrix.mulVec (tridiag.entry p) (vecAt ramp3 (tridiag.col p)))
    ∧ AddRowTransToVectorNoDiag tridiag 1 (scalarVec 2) zeros3
        = SparseMatrix.AddRowTransToVector tridiag 1 (scalarVec 2) zeros3
    ∧ ∃ y1, AddRowTransToVectorNoDiag tridiag 1 (scalarVec 2) zeros3 = some y1
        ∧ vecAt y1 1 = vecAt zeros3 1
            + Matrix.mulVec (Trans (tridiag.stored 1 1)) (scalarVec 2) :=
  ⟨by decide, by decide,
    NoDiag_keeps_inner_diagonal tridiag 1
      ⟨by decide, by decide, by decide, by decide, by decide⟩ (by decide) ramp3 (by decide)
      (scalarVec 2) zeros3 (by decide) (by decide) ⟨2, by decide, by decide⟩⟩

end SparseMatrixSymmetric

/-! ## Scatter as the adjoint of gather -/

namespace SparseMatrixTM

theorem dotProduct_finset_sum {n : Nat} {R : Type} [CommRing R] {ι : Type} (t : Finset ι)
    (u : Vec n R) (f : ι → Vec n R) :
    Matrix.dotProduct u (∑ i in t, f i) = ∑ i in t, Matrix.dotProduct u (f i) := by
  classical
  induction t using Finset.induction_on with
  | empty => simp
  | insert h ih => rw [Finset.sum_insert h, Finset.sum_insert h, Matrix.dotProduct_add, ih]

/-- Regrouping the scattered contributions by position: the dot product of `x` with the
vector of the scattered sums equals the dot product of `el` with the gathered sum. -/
theorem adjoint_sum {H W : Nat} {R : Type} [CommRing R] (m : SparseMatrixTM (Mat H W R))
    (S : Finset Nat) (n : Nat) (hS : ∀ p ∈ S, 0 ≤ m.col p ∧ m.col p < (n : Int))
    (x : List (Vec W R)) (el : Vec H R) :
    ∑ k in Finset.range n, Matrix.dotProduct (x.getD k 0)
        (∑ p in S.filter (fun p => m.col p = (k : Int)),
          Matrix.mulVec (Trans (m.entry p)) el)
      = Matrix.dotProduct el
          (∑ p in S, Matrix.mulVec (m.entry p) (vecAt x (m.col p))) := by
  rw [dotProduct_finset_sum]
  have h1 : ∀ k ∈ Finset.range n,
      Matrix.dotProduct (x.getD k 0)
          (∑ p in S.filter (fun p => m.col p = (k : Int)),
            Matrix.mulVec (Trans (m.entry p)) el)
        = ∑ p in S.filter (fun p => (m.col p).toNat = k),
            Matrix.dotProduct el (Matrix.mulVec (m.entry p) (vecAt x (m.col p))) := by
    intro k _
    rw [dotProduct_finset_sum]
    apply Finset.sum_congr
    · apply Finset.filter_congr
      intro p hp
      have := (hS p hp).1
      omega
    · intro p hp
      rw [Finset.mem_filter] at hp
      have := (hS p hp.1).1
      have hc : m.col p = (k : Int) := by omega
      rw [hc]
      unfold vecAt
      rw [Int.toNat_ofNat]
      show Matrix.dotProduct (x.getD k 0) (Matrix.mulVec (Matrix.transpose (m.entry p)) el)
        = _
      rw [Matrix.dotProduct_mulVec, Matrix.vecMul_transpose, Matrix.dotProduct_comm]
  rw [Finset.sum_congr rfl h1]
  refine Finset.sum_fiberwise_of_maps_to ?_ _
  intro p hp
  have := hS p hp
  rw [Finset.mem_range]
  omega

theorem getD_replicate_zero {M : Type} [Zero M] (n k : Nat) :
    (List.replicate n (0 : M)).getD k 0 = 0 := by
  rw [List.getD_eq_getElem?_getD, List.getElem?_replicate]
  split <;> rfl

theorem dotProduct_one {R : Type} [CommRing R] (a b : Vec 1 R) :
    Matrix.dotProduct a b = a 0 * b 0 := by
  simp [Matrix.dotProduct]

end SparseMatrixTM

namespace SparseMatrixSymmetric

/-- Claim C23 (scatter is the adjoint of gather).  For scalar entries over a commutative
ring, a well-formed row with in-range stored columns, every scalar `el` and every vector
`x`: `AddRowTransToVector (row, el, zero vector)` returns a vector `y1`,
`RowTimesVector (row, x)` returns a value `r`, and the dot product of `x` with `y1`
equals `el * r`; the same holds for the pair `AddRowTransToVectorNoDiag` and
`RowTimesVectorNoDiag`. -/
theorem scatter_adjoint_gather {R : Type} [CommRing R] (m : SparseMatrixTM (Mat 1 1 R))
    (row : Int) (hw : m.RowWF row) (x : List (Vec 1 R)) (hr : m.RowInRange row x.length)
    (el : Vec 1 R) :
    (∃ y1 r, SparseMatrix.AddRowTransToVector m row el (List.replicate x.length 0) = some y1
        ∧ SparseMatrix.RowTimesVector m row x = some r
        ∧ ∑ k in Finset.range x.length, (x.getD k 0) 0 * (y1.getD k 0) 0 = el 0 * r 0)
    ∧ (∃ y1 r, AddRowTransToVectorNoDiag m row el (List.replicate x.length 0) = some y1
        ∧ RowTimesVectorNoDiag m row x = some r
        ∧ ∑ k in Finset.range x.length, (x.getD k 0) 0 * (y1.getD k 0) 0 = el 0 * r 0) := by
  have hz : m.RowInRange row (List.replicate x.length (0 : Vec 1 R)).length := by
    rw [List.length_replicate]
    exact hr
  constructor
  · obtain ⟨y1, h1, _, hv⟩ :=
      SparseMatrix.AddRowTransToVector_row m row hw el (List.replicate x.length 0) hz
    refine ⟨y1, _, h1, SparseMatrix.RowTimesVector_row m row hw x hr, ?_⟩
    rw [← SparseMatrixTM.dotProduct_one, ← SparseMatrixTM.adjoint_sum m _ x.length
      (fun p hp => hr p ((m.mem_rowPositions row p).1 hp).2
        ((m.mem_rowPositions row p).1 hp).1) x el]
    apply Finset.sum_congr rfl
    intro k _
    rw [hv k, SparseMatrixTM.getD_replicate_zero, zero_add, SparseMatrixTM.dotProduct_one]
  · obtain ⟨y1, h1, _, hv⟩ :=
      AddRowTransToVectorNoDiag_row m row hw el (List.replicate x.length 0) hz
    refine ⟨y1, _, h1, RowTimesVectorNoDiag_row m row hw x hr, ?_⟩
    rw [← SparseMatrixTM.dotProduct_one, ← SparseMatrixTM.adjoint_sum m _ x.length
      (fun p hp => hr p (lt_of_lt_of_le (Finset.mem_Ico.1 hp).2 (m.noDiagEnd_le row))
        (Finset.mem_Ico.1 hp).1) x el]
    apply Finset.sum_congr rfl
    intro k _
    rw [hv k, SparseMatrixTM.getD_replicate_zero, zero_add, SparseMatrixTM.dotProduct_one]

theorem scatter_adjoint_gather_witness :
    tridiag.RowInRange 2 ramp3.length
    ∧ SparseMatrix.AddRowTransToVector tridiag 2 (scalarVec 5) (List.replicate 3 0)
        = some [scalarVec 0, scalarVec (-5), scalarVec 10]
    ∧ SparseMatrix.RowTimesVector tridiag 2 ramp3 = some (scalarVec 4)
    ∧ AddRowTransToVectorNoDiag tridiag 2 (scalarVec 5) (List.replicate 3 0)
        = some [scalarVec 0, scalarVec (-5), scalarVec 0]
    ∧ RowTimesVectorNoDiag tridiag 2 ramp3 = some (scalarVec (-2))
    ∧ (∃ y1 r, SparseMatrix.AddRowTransToVector tridiag 2 (scalarVec 5)
          (List.replicate ramp3.length 0) = some y1
        ∧ SparseMatrix.RowTimesVector tridiag 2 ramp3 = some r
        ∧ ∑ k in Finset.range ramp3.length, (ramp3.getD k 0) 0 * (y1.getD k 0) 0
            = scalarVec 5 0 * r 0)
    ∧ (∃ y1 r, AddRowTransToVectorNoDiag tridiag 2 (scalarVec 5)
          (List.replicate ramp3.length 0) = some y1
        ∧ RowTimesVectorNoDiag tridiag 2 ramp3 = some r
        ∧ ∑ k in Finset.range ramp3.length, (ramp3.getD k 0) 0 * (y1.getD k 0) 0
            = scalarVec 5 0 * r 0) :=
  ⟨by decide, by decide, by decide, by decide, by decide,
    scatter_adjoint_gather tridiag 2
      ⟨by decide, by decide, by decide, by decide, by decide⟩ ramp3 (by decide)
      (scalarVec 5)⟩

end SparseMatrixSymmetric

/-! ## The two-list assembly of a symmetric matrix -/

namespace SparseMatrixSymmetricTM

/-- Claim C24 (the column dof list has no influence).  For every symmetric matrix, every
one-list assembly `addOne`, dof lists `dnums1`, `dnumsA`, `dnumsB`, local block `elmat`
and flag `atomic`: the two-list calls `AddElementMatrix (dnums1, dnumsA, elmat, atomic)`
and `AddElementMatrix (dnums1, dnumsB, elmat, atomic)` give the same result, and both
equal the one-list call `AddElementMatrix (dnums1, elmat, atomic)`. -/
theorem AddElementMatrix_ignores_columns {N : Nat} {R : Type}
    (addOne : SparseMatrixTM (Mat N N R) → List Int → (Nat → Nat → R) → Bool →
      Except Error (SparseMatrixTM (Mat N N R)))
    (m : SparseMatrixTM (Mat N N R)) (dnums1 dnumsA dnumsB : List Int)
    (elmat : Nat → Nat → R) (atomic : Bool) :
    AddElementMatrix addOne m dnums1 dnumsA elmat atomic
        = AddElementMatrix addOne m dnums1 dnumsB elmat atomic
      ∧ AddElementMatrix addOne m dnums1 dnumsA elmat atomic
        = addOne m dnums1 elmat atomic :=
  ⟨rfl, rfl⟩

end SparseMatrixSymmetricTM

/-! ## The row slices partition the positions -/

namespace MatrixGraph

theorem Offsets.first_getD {g : MatrixGraph} (ho : g.Offsets) (i : Nat)
    (hi : i ≤ g.size.toNat) : g.First (i : Int) = some (g.firsti.getD i 0) := by
  have hlen := ho.size_lt_length
  have h := readInt_eq_some g.firsti (i : Int) 0 (Int.ofNat_nonneg i)
    (by rw [Int.toNat_ofNat]; omega)
  rw [Int.toNat_ofNat] at h
  exact h

/-- Every position below `firsti[k]` lies in the slice of a row below `k`. -/
theorem Offsets.exists_row {g : MatrixGraph} (ho : g.Offsets) (p : Nat) (k : Nat)
    (hk : k ≤ g.size.toNat) (hp : p < g.firsti.getD k 0) :
    ∃ i, i < k ∧ g.firsti.getD i 0 ≤ p ∧ p < g.firsti.getD (i + 1) 0 := by
  induction k with
  | zero =>
    rw [ho.zero_getD] at hp
    omega
  | succ k ih =>
    by_cases h : p < g.firsti.getD k 0
    · obtain ⟨i, hi, h1, h2⟩ := ih (by omega) h
      exact ⟨i, by omega, h1, h2⟩
    · exact ⟨k, by omega, by omega, hp⟩

/-- The lengths of the slices of the rows below `k` add up to `firsti[k]`. -/
theorem Offsets.sum_lengths {g : MatrixGraph} (ho : g.Offsets) (k : Nat)
    (hk : k ≤ g.size.toNat) :
    ∑ i in Finset.range k, (g.firsti.getD (i + 1) 0 - g.firsti.getD i 0)
      = g.firsti.getD k 0 := by
  induction k with
  | zero => rw [Finset.range_zero, Finset.sum_empty, ho.zero_getD]
  | succ k ih =>
    rw [Finset.sum_range_succ, ih (by omega)]
    have := ho.le k (k + 1) (by omega) hk
    omega

/-- The row view under the offset invariants and the type ranges alone. -/
theorem Offsets.rowIndices_eq {g : MatrixGraph} (ho : g.Offsets)
    (hc : g.colnr.length = g.nze) (hf : g.ViewsFit) (i : Nat) (hi : i < g.size.toNat) :
    g.GetRowIndices (i : Int)
      = some ((g.colnr.drop (g.firsti.getD i 0)).take
          (g.firsti.getD (i + 1) 0 - g.firsti.getD i 0)) := by
  have hle := ho.le i (i + 1) (by omega) (by omega)
  have hnze := ho.le_nze (i + 1) (by omega)
  have hlt := hf.row_lt i hi
  rw [rowBegin_natCast, rowEnd_natCast] at hlt
  have h1 := ho.first_getD i (by omega)
  have h2 := ho.first_getD (i + 1) (by omega)
  unfold First at h1 h2
  rw [Nat.cast_succ] at h2
  unfold GetRowIndices
  simp only [h1, h2, Option.bind_eq_bind, Option.some_bind]
  rw [sizeSub_eq _ _ hle (le_trans hnze hf.nze_le), intOfSize_eq _ hlt]
  exact flatView_eq _ _ _ hle (by rw [hc]; exact hnze)

end MatrixGraph

namespace MatrixGraph

/-- Claim C25 (the row slices partition the position range).  For every graph with
`firsti[0] = 0`, `firsti` non-decreasing and `firsti[rows] = nze`: every position `p` in
`[0, NZE())` lies in `[First(i), First(i+1))` for exactly one row `i` in `[0, Size())`,
and the lengths `firsti[i+1] - firsti[i]` of the row slices add up to `NZE()`.  When in
addition `colnr` has `nze` entries and the row lengths fit the `int` size of a
`FlatArray` (and `nze` a `size_t`), `GetRowIndices (i)` returns for every row a view of
that length, and the lengths of the views add up to `NZE()`. -/
theorem row_slices_partition (g : MatrixGraph) (ho : g.Offsets) :
    (∀ p : Nat, p < g.NZE → ∃! i : Nat, i < g.Size.toNat
        ∧ ∃ a b, g.First (i : Int) = some a ∧ g.First ((i : Int) + 1) = some b
          ∧ a ≤ p ∧ p < b)
    ∧ ∑ i in Finset.range g.Size.toNat, (g.rowEnd (i : Int) - g.rowBegin (i : Int)) = g.NZE
    ∧ (g.colnr.length = g.nze → g.ViewsFit →
        (∀ i : Nat, i < g.Size.toNat → ∃ idx, g.GetRowIndices (i : Int) = some idx
          ∧ idx.length = g.rowEnd (i : Int) - g.rowBegin (i : Int))
        ∧ ∑ i in Finset.range g.Size.toNat, ((g.GetRowIndices (i : Int)).getD []).length
            = g.NZE) := by
  have hfirst : ∀ i : Nat, i < g.size.toNat →
      g.First (i : Int) = some (g.firsti.getD i 0)
        ∧ g.First ((i : Int) + 1) = some (g.firsti.getD (i + 1) 0) := by
    intro i hi
    have h2 := ho.first_getD (i + 1) (by omega)
    rw [Nat.cast_succ] at h2
    exact ⟨ho.first_getD i (by omega), h2⟩
  have hsum : ∑ i in Finset.range g.size.toNat, (g.rowEnd (i : Int) - g.rowBegin (i : Int))
      = g.nze := by
    rw [← ho.last_getD, ← ho.sum_lengths g.size.toNat (le_refl _)]
    apply Finset.sum_congr rfl
    intro i _
    rw [rowBegin_natCast, rowEnd_natCast]
  unfold NZE Size
  refine ⟨?_, hsum, ?_⟩
  · intro p hp
    have hp2 : p < g.firsti.getD g.size.toNat 0 := by
      rw [ho.last_getD]
      exact hp
    obtain ⟨i, hi, h1, h2⟩ := ho.exists_row p g.size.toNat (le_refl _) hp2
    refine ⟨i, ⟨hi, _, _, (hfirst i hi).1, (hfirst i hi).2, h1, h2⟩, ?_⟩
    rintro j ⟨hj, a, b, ha, hb, hap, hpb⟩
    rw [(hfirst j hj).1] at ha
    rw [(hfirst j hj).2] at hb
    have ha2 := Option.some.inj ha
    have hb2 := Option.some.inj hb
    rcases Nat.lt_trichotomy j i with hlt | heq | hgt
    · have := ho.le (j + 1) i (by omega) (by omega)
      omega
    · exact heq
    · have := ho.le (i + 1) j (by omega) (by omega)
      omega
  · intro hc hf
    have hview : ∀ i : Nat, i < g.size.toNat →
        ((g.GetRowIndices (i : Int)).getD []).length
          = g.rowEnd (i : Int) - g.rowBegin (i : Int) := by
      intro i hi
      have hnze := ho.le_nze (i + 1) (by omega)
      rw [ho.rowIndices_eq hc hf i hi, Option.getD_some, List.length_take, List.length_drop,
        rowBegin_natCast, rowEnd_natCast]
      omega
    constructor
    · intro i hi
      have h := hview i hi
      rw [ho.rowIndices_eq hc hf i hi] at h ⊢
      exact ⟨_, rfl, h⟩
    · rw [← hsum]
      apply Finset.sum_congr rfl
      intro i hi
      exact hview i (Finset.mem_range.1 hi)

theorem row_slices_partition_witness :
    assembling.Offsets ∧ assembling.colnr.length = assembling.nze ∧ assembling.ViewsFit
    ∧ (∀ p : Nat, p < assembling.NZE → ∃! i : Nat, i < assembling.Size.toNat
        ∧ ∃ a b, assembling.First (i : Int) = some a
          ∧ assembling.First ((i : Int) + 1) = some b ∧ a ≤ p ∧ p < b)
    ∧ ∑ i in Finset.range assembling.Size.toNat,
        (assembling.rowEnd (i : Int) - assembling.rowBegin (i : Int)) = assembling.NZE
    ∧ (∀ i : Nat, i < assembling.Size.toNat → ∃ idx,
          assembling.GetRowIndices (i : Int) = some idx
          ∧ idx.length = assembling.rowEnd (i : Int) - assembling.rowBegin (i : Int))
    ∧ ∑ i in Finset.range assembling.Size.toNat,
        ((assembling.GetRowIndices (i : Int)).getD []).length = assembling.NZE :=
  ⟨⟨by decide, by decide, by decide⟩, by decide, ⟨by decide, by decide⟩,
    (row_slices_partition assembling ⟨by decide, by decide, by decide⟩).1,
    (row_slices_partition assembling ⟨by decide, by decide, by decide⟩).2.1,
    (row_slices_partition assembling ⟨by decide, by decide, by decide⟩).2.2 (by decide)
      ⟨by decide, by decide⟩⟩

end MatrixGraph

end ngla
